import Mathlib

/-! hangmango: verification of the terminal line renderer.

Shallow embedding of `terminator/terminator.go` and proofs of the properties its
specification states.

Modelling conventions

* A `[]byte` is a list of byte values; a `nil` slice is `none` where the code
  tells `nil` from a value (the result of a content function) and the empty list
  where it does not (the three registry slices: they are `nil` or non-empty).
* A `func() []byte` closure is a transformer of the state it captures. Closures
  written by the caller capture the caller's variables only (type `σ`); the two
  closures built by `CreateInputLine` capture the renderer and use two of its
  flags.
* Go `int` values are unbounded integers: every counter moves by one per call and
  cannot reach `2^63`.
* A run-time panic (index out of range, negative repeat count) is the result
  `none`.
* `sync.Mutex` makes every exported method atomic; methods are modelled as
  sequential state transformers.
* The `io.Writer` is a function telling, from the chunks written before and the
  chunk written now, whether the write fails. Every call of `Write`, every call
  of a content function and every call of a manual clean-up is appended to
  `trace`, a record kept for the statements only: the code never reads it.
-/

namespace Terminator

/-- A byte slice. -/
abbrev Bytes := List Nat

/-- An `error` value reported by the sink. -/
abbrev Err := Nat

/-- Go `type Color string`, as the bytes of the string. -/
abbrev Color := Bytes

/-- Escape `"\033[0m"`. -/
def Reset : Color := [27, 91, 48, 109]
/-- Escape `"\033[31m"`. -/
def Red : Color := [27, 91, 51, 49, 109]
/-- Escape `"\033[38;5;208m"`. -/
def Orange : Color := [27, 91, 51, 56, 59, 53, 59, 50, 48, 56, 109]
/-- Escape `"\033[33m"`. -/
def Yellow : Color := [27, 91, 51, 51, 109]
/-- Escape `"\033[32m"`. -/
def Green : Color := [27, 91, 51, 50, 109]
/-- Escape `"\033[36m"`. -/
def Cyan : Color := [27, 91, 51, 54, 109]
/-- Escape `"\033[34m"`. -/
def Blue : Color := [27, 91, 51, 52, 109]
/-- Escape `"\033[35m"`. -/
def Magenta : Color := [27, 91, 51, 53, 109]

/-- Cursor up one row, `"\033[1A"`. -/
def up : Bytes := [27, 91, 49, 65]
/-- Cursor down one row, `"\033[1B"`. -/
def down : Bytes := [27, 91, 49, 66]
/-- Clear the current row, `"\033[2K"`. -/
def clear : Bytes := [27, 91, 50, 75]
/-- Clear from the cursor to the end of the row, `"\033[0K"`. -/
def clearToEnd : Bytes := [27, 91, 48, 75]
/-- Save the cursor position, `"\033[s"`. -/
def save : Bytes := [27, 91, 115]
/-- Restore the cursor position, `"\033[u"`. -/
def restore : Bytes := [27, 91, 117]

/-- The carriage return `"\r"`. -/
def cr : Bytes := [13]
/-- The newline `"\n"`. -/
def nl : Bytes := [10]
/-- The marker `"<spacer>"` that `draw` compares a content with. -/
def spacer : Bytes := [60, 115, 112, 97, 99, 101, 114, 62]

/-- Go `strings.Repeat s n` for a count that is not negative. -/
def Repeat (s : Bytes) : Nat → Bytes
  | 0 => []
  | n + 1 => s ++ Repeat s n

/-- The place in `clear` or `draw` a call of `Write` comes from. -/
inductive WKind where
  /-- `clear`: the repeated sequence for the rows pushed down by input. -/
  | erase
  /-- `clear`: the output of a manual clean-up. -/
  | cleanup
  /-- `clear`: carriage return, clear row, cursor up. -/
  | generic
  /-- `draw`: clear the current row. -/
  | clearRow
  /-- `draw`: the content of a line. -/
  | content
  /-- `draw`: the newline after a line. -/
  | newline
deriving DecidableEq, Repr

/-- What `trace` records. -/
inductive Event where
  /-- A call `Write(p)` and the error it returned. -/
  | write (k : WKind) (p : Bytes) (err : Option Err)
  /-- A call of `Next()` on the line at index `i`, whose address is `addr`. -/
  | next (i : Nat) (addr : Nat)
  /-- A call of `ManualCleanup()` of the line at index `i`. -/
  | manual (i : Nat) (addr : Nat)
deriving DecidableEq, Repr

/-- The chunks handed to `Write` so far, oldest first. -/
def written : List Event → List Bytes
  | [] => []
  | Event.write _ p _ :: es => p :: written es
  | _ :: es => written es

/-- The bytes handed to `Write` so far, as one stream. -/
def stream : List Event → Bytes
  | [] => []
  | Event.write _ p _ :: es => p ++ stream es
  | _ :: es => stream es

/-- The number of `Write` calls of kind `k` in a trace. -/
def countKind (k : WKind) : List Event → Nat
  | [] => 0
  | Event.write k1 _ _ :: es => (if k1 = k then 1 else 0) + countKind k es
  | _ :: es => countKind k es

/-- UTF-8 encoding of a rune as `bytes.Buffer.WriteRune` writes it: a rune that is
negative, above `0x10FFFF` or a surrogate is written as `U+FFFD`. -/
def encodeRune (r : Int) : Bytes :=
  if r < 0 then [239, 191, 189]
  else
    let n := r.toNat
    if n < 128 then [n]
    else if n < 2048 then [192 + n / 64, 128 + n % 64]
    else if 1114111 < n ∨ (55296 ≤ n ∧ n ≤ 57343) then [239, 191, 189]
    else if n < 65536 then [224 + n / 4096, 128 + n / 64 % 64, 128 + n % 64]
    else [240 + n / 262144, 128 + n / 4096 % 64, 128 + n / 64 % 64, 128 + n % 64]

/-- A `func() []byte` value used as the content function of a line. -/
inductive Gen (σ : Type) where
  /-- A closure of the caller: it reads and writes the caller's variables. -/
  | user (f : σ → Option Bytes × σ)
  /-- The content closure `CreateInputLine(symbol)` builds. -/
  | input (symbol : Int)

/-- A `func() []byte` value used as `ManualCleanup`. The closures of
`CreateInputLine` occur only where `CreateInputLine` puts them. -/
inductive Cleanup (σ : Type) where
  /-- A closure of the caller. -/
  | user (f : σ → Option Bytes × σ)
  /-- The clean-up closure `CreateInputLine` builds. -/
  | input

/-- Go `Options`; `ManualCleanup` is `none` for a nil function. -/
structure Options (σ : Type) where
  WithNextLine : Bool
  ManualCleanup : Option (Cleanup σ)

/-- Go `*line` behind the `Line` interface. `addr` is the address of the value:
two handles are `==` exactly when their addresses are equal. -/
structure Line (σ : Type) where
  addr : Nat
  next : Gen σ
  options : Options σ

/-- Go `(*line).GetOptions`. -/
def Line.GetOptions {σ : Type} (l : Line σ) : Options σ := l.options

/-- Go `LineFromGenerator`; `addr` is the address of the new value. -/
def LineFromGenerator {σ : Type} (addr : Nat) (g : Gen σ) : Line σ :=
  { addr := addr, next := g, options := { WithNextLine := true, ManualCleanup := none } }

/-- Go `InLineFromGenerator`. -/
def InLineFromGenerator {σ : Type} (addr : Nat) (g : Gen σ) : Line σ :=
  { addr := addr, next := g, options := { WithNextLine := false, ManualCleanup := none } }

/-- Go `LineFromGeneratorAndOptions`. -/
def LineFromGeneratorAndOptions {σ : Type} (addr : Nat) (g : Gen σ) (o : Options σ) : Line σ :=
  { addr := addr, next := g, options := o }

/-- Go `Spacer`. -/
def Spacer {σ : Type} (addr : Nat) : Line σ :=
  { addr := addr, next := Gen.user (fun e => (some spacer, e)),
    options := { WithNextLine := true, ManualCleanup := none } }

/-- Go `terminator`. `Writer` is the embedded `io.Writer`; `env` (the caller's
variables) and `trace` stand for the world around the renderer. -/
structure terminator (σ : Type) where
  Writer : List Bytes → Bytes → Option Err
  lines : List (Line σ)
  hiddenLines : List Bool
  drawClearBalance : List Int
  cursor : Int
  offTheBottom : Int
  needToClearInput : Bool
  hasSavedPosition : Bool
  env : σ
  trace : List Event

/-- Go `New`, for a caller whose variables are `env`. -/
def New {σ : Type} (w : List Bytes → Bytes → Option Err) (env : σ) : terminator σ :=
  { Writer := w, lines := [], hiddenLines := [], drawClearBalance := [], cursor := 0,
    offTheBottom := 0, needToClearInput := false, hasSavedPosition := false,
    env := env, trace := [] }

/-- The three parallel slices have one length. -/
def terminator.WF {σ : Type} (t : terminator σ) : Prop :=
  t.hiddenLines.length = t.lines.length ∧ t.drawClearBalance.length = t.lines.length

/-- Append an event to the trace. -/
def terminator.record {σ : Type} (t : terminator σ) (e : Event) : terminator σ :=
  { t with trace := t.trace ++ [e] }

/-- Go `t.Write(p)`: the call is recorded with its result. -/
def terminator.Write {σ : Type} (t : terminator σ) (k : WKind) (p : Bytes) :
    terminator σ × Option Err :=
  (t.record (Event.write k p (t.Writer (written t.trace) p)), t.Writer (written t.trace) p)

/-- The content closure of `CreateInputLine(symbol)`. -/
def CreateInputLine.next {σ : Type} (symbol : Int) (t : terminator σ) :
    Option Bytes × terminator σ :=
  let buf := down ++ encodeRune symbol ++ [32]
  let buf1 := if t.needToClearInput then buf ++ clearToEnd else buf
  let t1 := if t.needToClearInput then
      { t with needToClearInput := false, hasSavedPosition := false } else t
  let buf2 := if t1.hasSavedPosition then buf1 ++ restore else buf1
  (some buf2, t1)

/-- The manual clean-up closure of `CreateInputLine`. -/
def CreateInputLine.ManualCleanup {σ : Type} (t : terminator σ) :
    Option Bytes × terminator σ :=
  (some (save ++ down ++ cr ++ clear ++ up ++ up), { t with hasSavedPosition := true })

/-- Calling a content function. -/
def Gen.call {σ : Type} (g : Gen σ) (t : terminator σ) : Option Bytes × terminator σ :=
  match g with
  | Gen.user f => ((f t.env).1, { t with env := (f t.env).2 })
  | Gen.input symbol => CreateInputLine.next symbol t

/-- Calling a manual clean-up. -/
def Cleanup.call {σ : Type} (g : Cleanup σ) (t : terminator σ) : Option Bytes × terminator σ :=
  match g with
  | Cleanup.user f => ((f t.env).1, { t with env := (f t.env).2 })
  | Cleanup.input => CreateInputLine.ManualCleanup t

/-- Go `(*line).Next`, called by `draw` for index `i`. -/
def Line.Next {σ : Type} (l : Line σ) (i : Nat) (t : terminator σ) :
    Option Bytes × terminator σ :=
  l.next.call (t.record (Event.next i l.addr))

/-- Go `(*terminator).CreateInputLine`; `addr` is the address of the new line. -/
def terminator.CreateInputLine {σ : Type} (_t : terminator σ) (addr : Nat) (symbol : Int) :
    Line σ :=
  LineFromGeneratorAndOptions addr (Gen.input symbol)
    { WithNextLine := false, ManualCleanup := some Cleanup.input }

/-- Go `xs[i] += d`; `none` when `i` is out of range. -/
def addAt (xs : List Int) (i : Nat) (d : Int) : Option (List Int) :=
  match xs[i]? with
  | some x => some (xs.set i (x + d))
  | none => none

/-- The block `if next != nil && string(next) != "<spacer>"` of `draw`. The
second component is the error `draw` returns from inside the block. -/
def terminator.drawContent {σ : Type} (t : terminator σ) (i : Nat) (next : Option Bytes) :
    Option (terminator σ × Option Err) :=
  match next with
  | none => some (t, none)
  | some p =>
    if p = spacer then some (t, none)
    else
      match (t.Write WKind.content p).2 with
      | some err => some ((t.Write WKind.content p).1, some err)
      | none =>
        match addAt t.drawClearBalance i 1 with
        | none => none
        | some b => some ({ (t.Write WKind.content p).1 with drawClearBalance := b }, none)

/-- One round of the loop of `draw`. The second component is the error returned
from inside the round; `none` there lets the loop go on. -/
def terminator.drawLine {σ : Type} (t : terminator σ) (i : Nat) (line : Line σ) :
    Option (terminator σ × Option Err) :=
  match (if t.hiddenLines = [] then some false else t.hiddenLines[i]?) with
  | none => none
  | some true => some (t, none)
  | some false =>
    let opts := line.GetOptions
    let r := line.Next i t
    let t1 := (r.2.Write WKind.clearRow Terminator.clear).1
    match t1.drawContent i r.1 with
    | none => none
    | some (t2, some err) => some (t2, some err)
    | some (t2, none) =>
      if opts.WithNextLine then
        let t3 := (t2.Write WKind.newline nl).1
        some ({ t3 with cursor := t3.cursor + 1 }, none)
      else some (t2, none)

/-- The loop of `draw` over the lines from index `i` on. -/
def terminator.drawFrom {σ : Type} : List (Line σ) → Nat → terminator σ →
    Option (terminator σ × Option Err)
  | [], _, t => some (t, none)
  | line :: rest, i, t =>
    match t.drawLine i line with
    | none => none
    | some (t1, some err) => some (t1, some err)
    | some (t1, none) => terminator.drawFrom rest (i + 1) t1

/-- Go `(*terminator).draw`. -/
def terminator.draw {σ : Type} (t : terminator σ) : Option (terminator σ × Option Err) :=
  terminator.drawFrom t.lines 0 t

/-- One round of the loop of `clear`, for index `i`. -/
def terminator.clearLine {σ : Type} (t : terminator σ) (i : Nat) : Option (terminator σ) :=
  match (if t.drawClearBalance = [] then some false
         else (t.drawClearBalance[i]?).map (fun b => decide (b ≤ 0))) with
  | none => none
  | some true => some t
  | some false =>
    match t.lines[i]? with
    | none => none
    | some l =>
      let opts := l.GetOptions
      match opts.ManualCleanup with
      | some mc =>
        let r := mc.call (t.record (Event.manual i l.addr))
        let t1 := (r.2.Write WKind.cleanup (r.1.getD [])).1
        match addAt t1.drawClearBalance i (-1) with
        | none => none
        | some b => some { t1 with drawClearBalance := b }
      | none =>
        if opts.WithNextLine then
          let t1 := (t.Write WKind.generic (cr ++ Terminator.clear ++ up)).1
          let t2 := { t1 with cursor := t1.cursor - 1 }
          match addAt t2.drawClearBalance i (-1) with
          | none => none
          | some b => some { t2 with drawClearBalance := b }
        else some t

/-- The loop of `clear`: indices `n - 1` down to `0`. -/
def terminator.clearLoop {σ : Type} : Nat → terminator σ → Option (terminator σ)
  | 0, t => some t
  | n + 1, t =>
    match t.clearLine n with
    | none => none
    | some t1 => terminator.clearLoop n t1

/-- The three statements of `clear` between its guard and its loop: the write of
the repeated sequence, `t.offTheBottom = 0`, `t.cursor -= t.offTheBottom`. -/
def terminator.clearOffTheBottom {σ : Type} (t : terminator σ) : Option (terminator σ) :=
  if t.offTheBottom < 0 then none
  else
    let t1 := (t.Write WKind.erase (Repeat (cr ++ Terminator.clear ++ up) t.offTheBottom.toNat)).1
    let t2 := { t1 with offTheBottom := 0 }
    some { t2 with cursor := t2.cursor - t2.offTheBottom }

/-- Go `(*terminator).clear`. -/
def terminator.clear {σ : Type} (t : terminator σ) : Option (terminator σ) :=
  if t.cursor ≤ 0 then some { t with cursor := 0, offTheBottom := 0 }
  else
    match t.clearOffTheBottom with
    | none => none
    | some t1 => terminator.clearLoop t1.lines.length t1

/-- Go `(*terminator).Draw`. -/
def terminator.Draw {σ : Type} (t : terminator σ) : Option (terminator σ × Option Err) :=
  match t.clear with
  | none => none
  | some t1 => t1.draw

/-- Go `(*terminator).HadInput`. -/
def terminator.HadInput {σ : Type} (t : terminator σ) : terminator σ :=
  { t with cursor := t.cursor + 1, offTheBottom := t.offTheBottom + 1, needToClearInput := true }

/-- Go `(*terminator).AddLine`. -/
def terminator.AddLine {σ : Type} (t : terminator σ) (l : Line σ) : terminator σ :=
  { t with lines := t.lines ++ [l], hiddenLines := t.hiddenLines ++ [false],
           drawClearBalance := t.drawClearBalance ++ [0] }

/-- The loop of `findLine` over the lines from index `i` on. -/
def findFrom {σ : Type} (l : Line σ) : List (Line σ) → Nat → Int
  | [], _ => -1
  | x :: rest, i => if x.addr = l.addr then (i : Int) else findFrom l rest (i + 1)

/-- Go `(*terminator).findLine`. -/
def terminator.findLine {σ : Type} (t : terminator σ) (l : Line σ) : Int :=
  findFrom l t.lines 0

/-- Go `append(xs[:i], xs[i+1:]...)`; `none` when `xs[i+1:]` is out of range. -/
def splice {α : Type} (xs : List α) (i : Nat) : Option (List α) :=
  if i < xs.length then some (xs.take i ++ xs.drop (i + 1)) else none

/-- Go `(*terminator).RemoveLine`. -/
def terminator.RemoveLine {σ : Type} (t : terminator σ) (l : Line σ) : Option (terminator σ) :=
  if t.lines.length ≤ 1 then
    some { t with lines := [], hiddenLines := [], drawClearBalance := [] }
  else
    let i := t.findLine l
    if i < 0 then some t
    else
      match splice t.lines i.toNat, splice t.hiddenLines i.toNat,
            splice t.drawClearBalance i.toNat with
      | some ls, some hs, some bs =>
        some { t with lines := ls, hiddenLines := hs, drawClearBalance := bs }
      | _, _, _ => none

/-- Go `xs[i] = v`; `none` when `i` is out of range. -/
def setAt (xs : List Bool) (i : Nat) (v : Bool) : Option (List Bool) :=
  if i < xs.length then some (xs.set i v) else none

/-- Go `(*terminator).ShowLine`. -/
def terminator.ShowLine {σ : Type} (t : terminator σ) (l : Line σ) : Option (terminator σ) :=
  if t.hiddenLines = [] then some t
  else
    let i := t.findLine l
    if i < 0 then some t
    else
      match setAt t.hiddenLines i.toNat false with
      | none => none
      | some hs => some { t with hiddenLines := hs }

/-- Go `(*terminator).HideLine`. -/
def terminator.HideLine {σ : Type} (t : terminator σ) (l : Line σ) : Option (terminator σ) :=
  let i := t.findLine l
  if i < 0 then some t
  else
    match setAt t.hiddenLines i.toNat true with
    | none => none
    | some hs => some { t with hiddenLines := hs }

/-- A sink whose writes all succeed. -/
def okSink : List Bytes → Bytes → Option Err := fun _ _ => none

/-- The events a run appended to a trace of length `n`. -/
def newEvents (n : Nat) (es : List Event) : List Event := es.drop n

/-- A line built by `LineFromGenerator` whose content function always returns `"X"`. -/
def lineX {σ : Type} (addr : Nat) : Line σ :=
  LineFromGenerator addr (Gen.user (fun e => (some [88], e)))

/-- The loop of the session driver, `for { if err := term.Draw(); err != nil { return } }`,
for `n` rounds: the state after `n` calls of `Draw` that all returned nil. -/
def terminator.Draws {σ : Type} : Nat → terminator σ → Option (terminator σ)
  | 0, t => some t
  | n + 1, t =>
    match terminator.Draws n t with
    | none => none
    | some t1 =>
      match t1.Draw with
      | some (t2, none) => some t2
      | _ => none

/-- A write to the `bytes.Buffer` of the animated closure: `WriteString` of a colour
escape or `WriteByte` of a byte of the message. -/
inductive Tok where
  | esc (c : Color)
  | byte (b : Nat)
deriving DecidableEq, Repr

/-- The bytes one write adds to the buffer. -/
def Tok.bytes : Tok → Bytes
  | Tok.esc c => c
  | Tok.byte b => [b]

/-- Go `buffer.Bytes()` after the writes `ts`. -/
def render : List Tok → Bytes
  | [] => []
  | tk :: ts => tk.bytes ++ render ts

/-- The output with the colour escapes removed. -/
def stripEsc : List Tok → Bytes
  | [] => []
  | Tok.esc _ :: ts => stripEsc ts
  | Tok.byte b :: ts => b :: stripEsc ts

/-- The escape in effect when byte number `i` is written: the last escape before it;
`cur` is the escape in effect at the start. -/
def colourScan : List Tok → Option Color → Nat → Option Color
  | [], _, _ => none
  | Tok.esc c :: ts, _, i => colourScan ts (some c) i
  | Tok.byte _ :: _, cur, 0 => cur
  | Tok.byte _ :: ts, cur, i + 1 => colourScan ts cur i

/-- The colour applied to byte number `i` of an output. -/
def colourOf (ts : List Tok) (i : Nat) : Option Color := colourScan ts none i

/-- Go `colors[k % len(colors)]`: `%` is the truncated remainder; `none` for the
panics (division by zero for an empty palette, negative index). -/
def colorAt (colors : List Color) (k : Int) : Option Color :=
  if colors.length = 0 then none
  else if Int.tmod k (colors.length : Int) < 0 then none
  else colors[(Int.tmod k (colors.length : Int)).toNat]?

/-- The loop `for i, c := range msg` of the animated closure, from index `i` on. -/
def AnimatedLineFromGenerator.loop (colors : List Color) (shift : Int) :
    List Nat → Nat → Option (List Tok)
  | [], _ => some []
  | c :: rest, i =>
    match colorAt colors ((i : Int) + shift),
          AnimatedLineFromGenerator.loop colors shift rest (i + 1) with
    | some col, some ts => some (Tok.byte c :: Tok.esc col :: ts)
    | _, _ => none

/-- The writes of the animated closure to its buffer for a message `msg`.
`int(math.Abs(float64(shift-1)))` is `|shift - 1|`: the conversions are exact on
the values the counter takes. -/
def AnimatedLineFromGenerator.writes (colors : List Color) (shift : Int) (msg : Bytes) :
    Option (List Tok) :=
  match colorAt colors ((shift - 1).natAbs : Int),
        AnimatedLineFromGenerator.loop colors shift msg 0 with
  | some c0, some ts => some (Tok.esc c0 :: ts ++ [Tok.esc Reset])
  | _, _ => none

/-- The closure that `AnimatedLineFromGenerator(g, colors)` hands to
`LineFromGenerator`, as a function of what it captures: its own counter `shift`,
which Go creates with the value 0, and what `g` captures. `none` is a panic. -/
def AnimatedLineFromGenerator.next {σ : Type} (g : σ → Option Bytes × σ) (colors : List Color)
    (st : Int × σ) : Option (Option Bytes × (Int × σ)) :=
  match (g st.2).1 with
  | none => some (none, (st.1, (g st.2).2))
  | some msg =>
    match AnimatedLineFromGenerator.writes colors st.1 msg with
    | none => none
    | some ts => some (some (render ts), (st.1 + 1, (g st.2).2))

/-- Invocation number `k` (from 0) of the animated closure, started in `st`: its
result and the captured state after it. -/
def AnimatedLineFromGenerator.invoke {σ : Type} (g : σ → Option Bytes × σ)
    (colors : List Color) : Nat → Int × σ → Option (Option Bytes × (Int × σ))
  | 0, st => AnimatedLineFromGenerator.next g colors st
  | k + 1, st =>
    match AnimatedLineFromGenerator.next g colors st with
    | none => none
    | some r => AnimatedLineFromGenerator.invoke g colors k r.2

/-- A palette of three colours. -/
def palette3 : List Color := [Red, Green, Blue]

/-- A base function that always returns `"ab"`. -/
def constAB : Unit → Option Bytes × Unit := fun e => (some [97, 98], e)

/-- A failed write of the content of a line. -/
def contentFailed : Event → Bool
  | Event.write WKind.content _ (some _) => true
  | _ => false

/-- What a step of `clear` or `draw` leaves as it is, and the events it appends. -/
structure Frame {σ : Type} (t t1 : terminator σ) (evs : List Event) : Prop where
  Writer : t1.Writer = t.Writer
  lines : t1.lines = t.lines
  hidden : t1.hiddenLines = t.hiddenLines
  len : t1.drawClearBalance.length = t.drawClearBalance.length
  off : t1.offTheBottom = t.offTheBottom
  trace : t1.trace = t.trace ++ evs

/-- The events a draw pass may append for the lines `ls` with hidden flags `hs`. -/
def DrawEv {σ : Type} (ls : List (Line σ)) (hs : List Bool) : Event → Prop
  | Event.next j a => (∃ x, ls[j]? = some x ∧ x.addr = a) ∧ hs[j]? ≠ some true
  | Event.write k _ _ => k = WKind.clearRow ∨ k = WKind.content ∨ k = WKind.newline
  | Event.manual _ _ => False

/-- The events a clear pass may append. -/
def ClearEv : Event → Prop
  | Event.next _ _ => False
  | Event.write k _ _ => k = WKind.erase ∨ k = WKind.cleanup ∨ k = WKind.generic
  | Event.manual _ _ => True

/-- The shape of the events of a draw pass that returned `r`: no content write
failed before the last event, and `r` is an error exactly when the last event is a
failed content write, whose error is `r`. -/
def FailShape {σ : Type} (t : terminator σ) (evs : List Event) (r : Option Err) : Prop :=
  (∀ err, r = some err →
    ∃ pre p, evs = pre ++ [Event.write WKind.content p (some err)]
      ∧ (∀ e ∈ pre, contentFailed e = false)
      ∧ t.Writer (written (t.trace ++ pre)) p = some err)
  ∧ (r = none → ∀ e ∈ evs, contentFailed e = false)

/-- The line at address 1 registered twice. -/
def twiceX : terminator Unit :=
  ((New okSink ()).AddLine (lineX 1)).AddLine (lineX 1)

/-- A sink that fails, with error 1, every write of the generic clear sequence. -/
def failGeneric : List Bytes → Bytes → Option Err :=
  fun _ p => if p = cr ++ clear ++ up then some 1 else none

/-- A sink that fails every write, with error 1. -/
def failAll : List Bytes → Bytes → Option Err := fun _ _ => some 1

/-- A line with `WithNextLine` set whose content function returns nil on every call. -/
def lineNil {σ : Type} (addr : Nat) : Line σ :=
  LineFromGenerator addr (Gen.user (fun e => (none, e)))

/-- A sink that fails, with error 5, every write of the chunk `"X"`. -/
def failX : List Bytes → Bytes → Option Err :=
  fun _ p => if p = [88] then some 5 else none

/-- The state after the first `Draw` of the one-line registry `[lineX 1]` on a sink
that never fails. -/
def drawnX : terminator Unit :=
  { Writer := okSink, lines := [lineX 1], hiddenLines := [false], drawClearBalance := [1],
    cursor := 1, offTheBottom := 0, needToClearInput := false, hasSavedPosition := false,
    env := (),
    trace := [Event.next 0 1, Event.write WKind.clearRow clear none,
              Event.write WKind.content [88] none, Event.write WKind.newline nl none] }

/-- The caller's registration of the lines `ls`, one `AddLine` after the other. -/
def register {σ : Type} (t : terminator σ) (ls : List (Line σ)) : terminator σ :=
  ls.foldl terminator.AddLine t

/-- The number of lines with `WithNextLine` set. -/
def rows {σ : Type} : List (Line σ) → Nat
  | [] => 0
  | l :: ls => (if l.GetOptions.WithNextLine then 1 else 0) + rows ls

/-- A line without manual clean-up whose content function is a closure of the caller
returning the same result on every call, that result being present and not the
spacer marker when the line has `WithNextLine` set. -/
def Steady {σ : Type} (l : Line σ) : Prop :=
  l.GetOptions.ManualCleanup = none
  ∧ ∃ (f : σ → Option Bytes × σ) (r : Option Bytes), l.next = Gen.user f ∧ (∀ e, (f e).1 = r)
    ∧ (l.GetOptions.WithNextLine = true → ∃ p, r = some p ∧ p ≠ spacer)

/-- The states of a cycle over the visible registry `ls` on the sink `w`: the rows of
the lines before index `k` are on the screen and counted, the others are not. -/
def Mid {σ : Type} (ls : List (Line σ)) (w : List Bytes → Bytes → Option Err) (k : Nat)
    (t : terminator σ) : Prop :=
  t.lines = ls ∧ t.Writer = w ∧ t.hiddenLines = List.replicate ls.length false
  ∧ t.drawClearBalance.length = ls.length ∧ t.offTheBottom = 0
  ∧ t.cursor = ((rows (ls.take k) : Nat) : Int)
  ∧ ∀ (j : Nat) (l : Line σ), ls[j]? = some l → l.GetOptions.WithNextLine = true →
      t.drawClearBalance[j]? = some (if j < k then 1 else 0)

/-- A line with `WithNextLine` set, content "X" and a manual clean-up that returns
no bytes. -/
def lineManual : Line Unit :=
  LineFromGeneratorAndOptions 1 (Gen.user (fun e => (some [88], e)))
    { WithNextLine := true, ManualCleanup := some (Cleanup.user (fun e => (some [], e))) }

/-- The palette entry the specification writes `palette[k mod P]`. -/
def paletteAt (colors : List Color) (k : Nat) : Color :=
  colors.getD (k % colors.length) []

/-- The middle of the output the specification gives for the animated wrapper:
`b[i] ++ palette[(i + s) mod P]` for the bytes of `b` from index `i` on. -/
def animatedSpecBody (colors : List Color) (s : Nat) : Bytes → Nat → Bytes
  | [], _ => []
  | c :: rest, i => [c] ++ paletteAt colors (i + s) ++ animatedSpecBody colors s rest (i + 1)

/-- The output the specification gives for the animated wrapper at shift `s` and base
output `b`: `palette[|s - 1| mod P]`, then every byte followed by its colour, then the
reset escape. -/
def animatedSpec (colors : List Color) (s : Nat) (b : Bytes) : Bytes :=
  paletteAt colors ((s : Int) - 1).natAbs ++ animatedSpecBody colors s b 0 ++ Reset

/-- The captured state of the animated closure after `n` invocations started in `st`. -/
def AnimatedLineFromGenerator.after {σ : Type} (g : σ → Option Bytes × σ)
    (colors : List Color) : Nat → Int × σ → Option (Int × σ)
  | 0, st => some st
  | n + 1, st =>
    match AnimatedLineFromGenerator.next g colors st with
    | none => none
    | some r => AnimatedLineFromGenerator.after g colors n r.2

/-- The number of the first `n` calls of the base function `g`, started with the
variables `e`, that return a content. -/
def presentCount {σ : Type} (g : σ → Option Bytes × σ) : Nat → σ → Nat
  | 0, _ => 0
  | n + 1, e => (if (g e).1.isSome then 1 else 0) + presentCount g n (g e).2

/-- A base function that returns the results of a script one after the other, and
nil when the script is used up. -/
def scripted : List (Option Bytes) → Option Bytes × List (Option Bytes)
  | [] => (none, [])
  | r :: rest => (r, rest)

/-- A call the session makes on the renderer, or a change the caller makes to its own
variables between two calls. -/
inductive Op (σ : Type) where
  | AddLine (l : Line σ)
  | RemoveLine (l : Line σ)
  | HideLine (l : Line σ)
  | ShowLine (l : Line σ)
  | HadInput
  | Draw
  | caller (f : σ → σ)

/-- The renderer after one call; the error a `Draw` returns is dropped, the state it
leaves is kept. -/
def terminator.step {σ : Type} (t : terminator σ) : Op σ → Option (terminator σ)
  | Op.AddLine l => some (t.AddLine l)
  | Op.RemoveLine l => t.RemoveLine l
  | Op.HideLine l => t.HideLine l
  | Op.ShowLine l => t.ShowLine l
  | Op.HadInput => some t.HadInput
  | Op.Draw => (t.Draw).map (fun r => r.1)
  | Op.caller f => some { t with env := f t.env }

/-- The renderer after a sequence of calls. -/
def terminator.run {σ : Type} (t : terminator σ) : List (Op σ) → Option (terminator σ)
  | [] => some t
  | op :: ops =>
    match t.step op with
    | none => none
    | some t1 => terminator.run t1 ops

/-- A line whose rows `clear` takes back with the generic sequence: `WithNextLine`
set and no manual clean-up. -/
def plain {σ : Type} (l : Line σ) : Bool :=
  match l.GetOptions.ManualCleanup with
  | none => l.GetOptions.WithNextLine
  | some _ => false

/-- The sum of the clear balances of the plain lines. -/
def owed {σ : Type} : List (Line σ) → List Int → Int
  | l :: ls, b :: bs => (if plain l then b else 0) + owed ls bs
  | _, _ => 0

/-- The invariant of the renderer: parallel slices of one length, counters that are
not negative, and a cursor that covers the clear balances of the plain lines. -/
def Sound {σ : Type} (t : terminator σ) : Prop :=
  t.WF ∧ 0 ≤ t.offTheBottom ∧ (∀ b ∈ t.drawClearBalance, 0 ≤ b)
  ∧ owed t.lines t.drawClearBalance ≤ t.cursor

/-- The indices below `n`, from the highest down, of the lines that have a manual
clean-up and a positive clear balance. -/
def due {σ : Type} (t : terminator σ) : Nat → List Nat
  | 0 => []
  | n + 1 =>
    (match t.lines[n]?, t.drawClearBalance[n]? with
     | some l, some b => if 0 < b ∧ l.GetOptions.ManualCleanup.isSome then [n] else []
     | _, _ => []) ++ due t n

/-- The state after the first `Draw` of the registry that holds the line at address
1 and, after it, the line made by `CreateInputLine('>')`, on a sink that never fails. -/
def drawnBoth : terminator Unit :=
  { Writer := okSink, lines := [lineX 1, (New okSink ()).CreateInputLine 2 62],
    hiddenLines := [false, false], drawClearBalance := [1, 1],
    cursor := 1, offTheBottom := 0, needToClearInput := false, hasSavedPosition := false,
    env := (),
    trace := [Event.next 0 1, Event.write WKind.clearRow clear none,
              Event.write WKind.content [88] none, Event.write WKind.newline nl none,
              Event.next 1 2, Event.write WKind.clearRow clear none,
              Event.write WKind.content [27, 91, 49, 66, 62, 32] none] }

end Terminator

/-! The guessing game, `hangman/hangman.go`.

A Go string is the list of its bytes. The words of the game are ASCII, and for an
ASCII string `range` yields every byte together with its index. The array
`attemptedLetters [26]bool` is a function on its indices, of which the code reads and
writes those below 26 only. `turnCount` is a `uint8`: additions are taken modulo 256. -/

namespace Hangman

/-- A Go string, as its bytes. -/
abbrev Str := List Nat

/-- The byte `'_'`. -/
def underscore : Nat := 95

/-- The byte `' '`. -/
def space : Nat := 32

/-- Go `hangman`. -/
structure hangman where
  attemptedLetters : Nat → Bool
  chosenWord : Str
  currentState : Str
  turnCount : Nat

/-- Go `theWords`: "activated", "activates". -/
def theWords : List Str :=
  [[97, 99, 116, 105, 118, 97, 116, 101, 100], [97, 99, 116, 105, 118, 97, 116, 101, 115]]

/-- Go `strings.Repeat("_ ", n)`. -/
def blank : Nat → Str
  | 0 => []
  | n + 1 => underscore :: space :: blank n

/-- The game `New` builds once it has chosen the word. -/
def newGame (chosenWord : Str) : hangman :=
  { attemptedLetters := fun _ => false, chosenWord := chosenWord,
    currentState := blank chosenWord.length, turnCount := 0 }

/-- Go `New`; `wordIndex` is the result of `rand.Intn(len(theWords))`. -/
def New (wordIndex : Nat) : Option hangman :=
  (theWords[wordIndex]?).map newGame

/-- The loop of `calculateNextState` over the bytes of the word from index `i` on:
the text it adds to `nextState` and whether it set `didRevealAnything`; `none` when
`currentState[i*2]` is out of range. -/
def calculateNextState.loop (currentState : Str) (guess : Nat) : Str → Nat → Option (Str × Bool)
  | [], _ => some ([], false)
  | character :: rest, i =>
    match currentState[i * 2]? with
    | none => none
    | some x =>
      match calculateNextState.loop currentState guess rest (i + 1) with
      | none => none
      | some (tail, revealed) =>
        if x ≠ underscore then some (character :: space :: tail, revealed)
        else if character = guess then some (character :: space :: tail, true)
        else some (underscore :: space :: tail, revealed)

/-- Go `(*hangman).calculateNextState`. -/
def hangman.calculateNextState (h : hangman) (guess : Nat) : Option hangman :=
  match calculateNextState.loop h.currentState guess h.chosenWord 0 with
  | none => none
  | some (nextState, didRevealAnything) =>
    some { attemptedLetters := fun k => if k = guess - 97 then true else h.attemptedLetters k,
           chosenWord := h.chosenWord,
           currentState := nextState,
           turnCount := if didRevealAnything then h.turnCount else (h.turnCount + 1) % 256 }

/-- The first statement of `Guess`: an upper-case letter becomes its lower-case form. -/
def lower (guess : Nat) : Nat :=
  if 65 ≤ guess ∧ guess ≤ 90 then guess + 32 else guess

/-- Go `(*hangman).Guess`: the game after the call, the returned state and the
returned error. -/
def hangman.Guess (h : hangman) (guess : Nat) : Option (hangman × Str × Option String) :=
  if lower guess < 97 ∨ lower guess > 122 then
    some (h, h.currentState, some "invalid character")
  else if h.attemptedLetters (lower guess - 97) then
    some (h, h.currentState, some "already attempted letter")
  else
    match h.calculateNextState (lower guess) with
    | none => none
    | some h1 => some (h1, h1.currentState, none)

/-- Go `(*hangman).HasWon`. -/
def hangman.HasWon (h : hangman) : Bool :=
  !(h.currentState.contains underscore)

/-- Go `(*hangman).IsOver`. -/
def hangman.IsOver (h : hangman) : Bool :=
  decide (h.turnCount > 5) || h.HasWon

/-- Go `(*hangman).GetCurrentState`. -/
def hangman.GetCurrentState (h : hangman) : Str := h.currentState

/-- Go `(*hangman).GetWord`. -/
def hangman.GetWord (h : hangman) : Str := h.chosenWord

/-- A sequence of `Guess` calls, whatever each of them returns. -/
def hangman.guesses (h : hangman) : List Nat → Option hangman
  | [] => some h
  | g :: gs =>
    match h.Guess g with
    | none => none
    | some r => hangman.guesses r.1 gs

/-- The text that shows the word with the letters of `attempted` revealed. -/
def mask (attempted : Nat → Bool) : Str → Str
  | [] => []
  | c :: rest => (if attempted (c - 97) then c else underscore) :: space :: mask attempted rest

/-- The number of indices below `n` that are attempted letters not occurring in the
word. -/
def wrongBelow (attempted : Nat → Bool) (word : Str) : Nat → Nat
  | 0 => 0
  | n + 1 => wrongBelow attempted word n
      + (if attempted n && !(word.contains (n + 97)) then 1 else 0)

/-- A word of lower-case ASCII letters. -/
def Lowercase (word : Str) : Prop := ∀ c ∈ word, 97 ≤ c ∧ c ≤ 122

/-- The byte `g` is an ASCII letter. -/
def isLetter (g : Nat) : Bool :=
  (decide (65 ≤ g) && decide (g ≤ 90)) || (decide (97 ≤ g) && decide (g ≤ 122))

/-- The games that `done`, a sequence of `Guess` calls on a new game for `word`, can
lead to: the state shows the word with the attempted letters revealed, a letter is
attempted exactly when a guess of the sequence was that letter, and the turn count
is the number of attempted letters that do not occur in the word. -/
def Played (word : Str) (done : List Nat) (h : hangman) : Prop :=
  h.chosenWord = word ∧ h.currentState = mask h.attemptedLetters word
  ∧ (∀ k, h.attemptedLetters k = true ↔ (k < 26 ∧ ∃ g ∈ done, lower g = k + 97))
  ∧ h.turnCount = wrongBelow h.attemptedLetters word 26

end Hangman

/-! The client registry of the server, `multiplayer/multiplayer.go`.

A client is the connection it wraps, told apart by an address, and the id it was
given when it was created. A panic is the result `none`. -/

namespace Multiplayer

/-- Go `client`: `Conn` is the address of the connection, `id` the field `id`. -/
structure client where
  Conn : Nat
  id : Int
deriving DecidableEq, Repr

/-- Go `server`. -/
structure server where
  connectedClients : List client
deriving DecidableEq, Repr

/-- Go `CreateServer`. -/
def CreateServer : server := { connectedClients := [] }

/-- Go `createClient`. -/
def createClient (c : Nat) (id : Int) : client := { Conn := c, id := id }

/-- Go `(*client).GetId`. -/
def client.GetId (c : client) : Int := c.id

/-- Go `(*server).AddClient`: the server after the call and the client returned. -/
def server.AddClient (s : server) (c : Nat) : server × client :=
  ({ connectedClients := s.connectedClients ++ [createClient c s.connectedClients.length] },
   createClient c s.connectedClients.length)

/-- Go `(*server).RemoveClient`; `none` when a slice bound is out of range. -/
def server.RemoveClient (s : server) (c : client) : Option server :=
  if s.connectedClients.length = 1 then some { connectedClients := [] }
  else if c.GetId < 0 then none
  else
    match Terminator.splice s.connectedClients c.GetId.toNat with
    | none => none
    | some cs => some { connectedClients := cs }

/-- The server after three clients with the connections 10, 20 and 30 have been
added. -/
def threeClients : server :=
  (((CreateServer.AddClient 10).1.AddClient 20).1.AddClient 30).1

end Multiplayer

namespace Terminator

/-- A sink that never fails is `okSink`. -/
theorem sink_eq_okSink (w : List Bytes → Bytes → Option Err) (hok : ∀ h p, w h p = none) :
    w = okSink := by
  funext h p
  simp [okSink, hok]

/-- C1: a fresh renderer holding one `LineFromGenerator` line with constant content
"X", on a sink that never fails: the first `Draw` writes clear-row, "X", newline
and leaves `cursor = 1`; the second writes carriage return, clear-row, cursor-up,
then clear-row, "X", newline, and leaves `cursor = 1`. -/
theorem c1_two_draws_of_one_line {σ : Type} (w : List Bytes → Bytes → Option Err) (env : σ)
    (addr : Nat) (hok : ∀ h p, w h p = none) :
    ∃ t1 t2 : terminator σ,
      ((New w env).AddLine (lineX addr)).Draw = some (t1, none)
      ∧ written t1.trace = [clear, [88], nl]
      ∧ stream t1.trace = clear ++ [88] ++ nl
      ∧ t1.cursor = 1
      ∧ t1.Draw = some (t2, none)
      ∧ stream (newEvents t1.trace.length t2.trace)
          = (cr ++ clear ++ up) ++ (clear ++ [88] ++ nl)
      ∧ written (newEvents t1.trace.length t2.trace)
          = [[], cr ++ clear ++ up, clear, [88], nl]
      ∧ t2.cursor = 1 := by
  obtain rfl := sink_eq_okSink w hok
  exact ⟨_, _, rfl, rfl, rfl, rfl, rfl, rfl, rfl, rfl⟩

/-- C1 applied to the sink `okSink` and a line at address 7. -/
theorem c1_two_draws_of_one_line_witness :
    (∀ h p, okSink h p = none) ∧ ∃ t1 t2 : terminator Unit,
      ((New okSink ()).AddLine (lineX 7)).Draw = some (t1, none)
      ∧ written t1.trace = [clear, [88], nl]
      ∧ stream t1.trace = clear ++ [88] ++ nl
      ∧ t1.cursor = 1
      ∧ t1.Draw = some (t2, none)
      ∧ stream (newEvents t1.trace.length t2.trace)
          = (cr ++ clear ++ up) ++ (clear ++ [88] ++ nl)
      ∧ written (newEvents t1.trace.length t2.trace)
          = [[], cr ++ clear ++ up, clear, [88], nl]
      ∧ t2.cursor = 1 :=
  ⟨fun _ _ => rfl, c1_two_draws_of_one_line okSink () 7 (fun _ _ => rfl)⟩

/-! ### The registry -/

theorem findFrom_absent {σ : Type} (l : Line σ) :
    ∀ (ls : List (Line σ)) (k : Nat), (∀ x ∈ ls, x.addr ≠ l.addr) → findFrom l ls k = -1 := by
  intro ls
  induction ls with
  | nil => intro k _; rfl
  | cons x rest ih =>
    intro k h
    have hx : x.addr ≠ l.addr := h x (List.mem_cons_self _ _)
    simp only [findFrom, hx, if_false]
    exact ih (k + 1) (fun y hy => h y (List.mem_cons_of_mem _ hy))

theorem findFrom_present {σ : Type} (l : Line σ) :
    ∀ (ls : List (Line σ)) (k : Nat), (∃ x ∈ ls, x.addr = l.addr) →
      ∃ j : Nat, j < ls.length ∧ findFrom l ls k = ((k + j : Nat) : Int)
        ∧ (∃ x, ls[j]? = some x ∧ x.addr = l.addr)
        ∧ ∀ j2 : Nat, j2 < j → ∀ x, ls[j2]? = some x → x.addr ≠ l.addr := by
  intro ls
  induction ls with
  | nil => intro k h; obtain ⟨x, hx, _⟩ := h; cases hx
  | cons y rest ih =>
    intro k h
    by_cases hy : y.addr = l.addr
    · refine ⟨0, by simp, by simp [findFrom, hy], ⟨y, by simp, hy⟩, ?_⟩
      intro j2 hj2; omega
    · have h2 : ∃ x ∈ rest, x.addr = l.addr := by
        obtain ⟨x, hx, hxa⟩ := h
        rcases List.mem_cons.mp hx with rfl | hx
        · exact absurd hxa hy
        · exact ⟨x, hx, hxa⟩
      obtain ⟨j, hj, hf, ⟨x, hx, hxa⟩, hmin⟩ := ih (k + 1) h2
      refine ⟨j + 1, by simp; omega, ?_, ⟨x, by simpa using hx, hxa⟩, ?_⟩
      · simp only [findFrom, hy, if_false, hf]
        congr 1; omega
      · intro j2 hj2 z hz
        cases j2 with
        | zero => simp at hz; subst hz; exact hy
        | succ j3 =>
          simp at hz
          exact hmin j3 (by omega) z hz

theorem findLine_absent {σ : Type} (t : terminator σ) (l : Line σ)
    (h : ∀ x ∈ t.lines, x.addr ≠ l.addr) : t.findLine l = -1 :=
  findFrom_absent l t.lines 0 h

theorem findLine_present {σ : Type} (t : terminator σ) (l : Line σ)
    (h : ∃ x ∈ t.lines, x.addr = l.addr) :
    ∃ j : Nat, j < t.lines.length ∧ t.findLine l = (j : Int)
      ∧ (∃ x, t.lines[j]? = some x ∧ x.addr = l.addr)
      ∧ ∀ j2 : Nat, j2 < j → ∀ x, t.lines[j2]? = some x → x.addr ≠ l.addr := by
  obtain ⟨j, hj, hf, hx, hmin⟩ := findFrom_present l t.lines 0 h
  exact ⟨j, hj, by simpa [terminator.findLine] using hf, hx, hmin⟩

theorem take_append_drop_succ_eq_eraseIdx {α : Type} (xs : List α) (i : Nat) :
    xs.take i ++ xs.drop (i + 1) = xs.eraseIdx i := by
  induction xs generalizing i with
  | nil => simp
  | cons x rest ih =>
    cases i with
    | zero => simp
    | succ j => simp [ih]

/-- C4: `RemoveLine(l)` on a registry that contains `l`. With one line the three
sequences become empty; with `N > 1` lines each of them loses the entry at the first
index of `l` and nothing else (the other entries keep their order), so each has
length `N - 1`. -/
theorem c4_RemoveLine_of_registered {σ : Type} (t : terminator σ) (l : Line σ) (hwf : t.WF)
    (hmem : ∃ x ∈ t.lines, x.addr = l.addr) :
    ∃ (i : Nat) (t1 : terminator σ),
      i < t.lines.length ∧ t.findLine l = (i : Int)
      ∧ (∃ x, t.lines[i]? = some x ∧ x.addr = l.addr)
      ∧ (∀ j : Nat, j < i → ∀ x, t.lines[j]? = some x → x.addr ≠ l.addr)
      ∧ t.RemoveLine l = some t1
      ∧ (t.lines.length = 1 →
          t1.lines = [] ∧ t1.hiddenLines = [] ∧ t1.drawClearBalance = [])
      ∧ (1 < t.lines.length →
          t1.lines = t.lines.eraseIdx i
          ∧ t1.hiddenLines = t.hiddenLines.eraseIdx i
          ∧ t1.drawClearBalance = t.drawClearBalance.eraseIdx i
          ∧ t1.lines.length = t.lines.length - 1
          ∧ t1.hiddenLines.length = t.lines.length - 1
          ∧ t1.drawClearBalance.length = t.lines.length - 1) := by
  obtain ⟨i, hi, hf, hx, hmin⟩ := findLine_present t l hmem
  obtain ⟨hh, hb⟩ := hwf
  by_cases h1 : t.lines.length ≤ 1
  · refine ⟨i, { t with lines := [], hiddenLines := [], drawClearBalance := [] },
      hi, hf, hx, hmin, by simp [terminator.RemoveLine, h1], ?_, ?_⟩
    · intro _; exact ⟨rfl, rfl, rfl⟩
    · intro h; omega
  · have hi2 : i < t.hiddenLines.length := by omega
    have hi3 : i < t.drawClearBalance.length := by omega
    refine ⟨i, { t with lines := t.lines.eraseIdx i, hiddenLines := t.hiddenLines.eraseIdx i,
                        drawClearBalance := t.drawClearBalance.eraseIdx i },
            hi, hf, hx, hmin, ?_, ?_, ?_⟩
    · simp [terminator.RemoveLine, h1, hf, splice, hi, hi2, hi3,
        take_append_drop_succ_eq_eraseIdx]
    · intro h; omega
    · intro _
      refine ⟨rfl, rfl, rfl, ?_, ?_, ?_⟩
      · simp [List.length_eraseIdx, hi]
      · simp [List.length_eraseIdx, hi2]; omega
      · simp [List.length_eraseIdx, hi3]; omega

/-- C4 applied to a registry of two lines from which the second is removed. -/
theorem c4_RemoveLine_of_registered_witness :
    ((New okSink ()).AddLine (lineX 1) |>.AddLine (lineX 2)).WF
    ∧ (∃ x ∈ ((New okSink ()).AddLine (lineX 1) |>.AddLine (lineX 2)).lines,
        x.addr = (lineX 2 : Line Unit).addr)
    ∧ ∃ (i : Nat) (t1 : terminator Unit),
      i < ((New okSink ()).AddLine (lineX 1) |>.AddLine (lineX 2)).lines.length
      ∧ ((New okSink ()).AddLine (lineX 1) |>.AddLine (lineX 2)).findLine (lineX 2) = (i : Int)
      ∧ (∃ x, ((New okSink ()).AddLine (lineX 1) |>.AddLine (lineX 2)).lines[i]? = some x
          ∧ x.addr = (lineX 2 : Line Unit).addr)
      ∧ (∀ j : Nat, j < i → ∀ x,
          ((New okSink ()).AddLine (lineX 1) |>.AddLine (lineX 2)).lines[j]? = some x →
          x.addr ≠ (lineX 2 : Line Unit).addr)
      ∧ ((New okSink ()).AddLine (lineX 1) |>.AddLine (lineX 2)).RemoveLine (lineX 2) = some t1
      ∧ (((New okSink ()).AddLine (lineX 1) |>.AddLine (lineX 2)).lines.length = 1 →
          t1.lines = [] ∧ t1.hiddenLines = [] ∧ t1.drawClearBalance = [])
      ∧ (1 < ((New okSink ()).AddLine (lineX 1) |>.AddLine (lineX 2)).lines.length →
          t1.lines = ((New okSink ()).AddLine (lineX 1) |>.AddLine (lineX 2)).lines.eraseIdx i
          ∧ t1.hiddenLines
              = ((New okSink ()).AddLine (lineX 1) |>.AddLine (lineX 2)).hiddenLines.eraseIdx i
          ∧ t1.drawClearBalance
              = ((New okSink ()).AddLine (lineX 1) |>.AddLine (lineX 2)).drawClearBalance.eraseIdx i
          ∧ t1.lines.length
              = ((New okSink ()).AddLine (lineX 1) |>.AddLine (lineX 2)).lines.length - 1
          ∧ t1.hiddenLines.length
              = ((New okSink ()).AddLine (lineX 1) |>.AddLine (lineX 2)).lines.length - 1
          ∧ t1.drawClearBalance.length
              = ((New okSink ()).AddLine (lineX 1) |>.AddLine (lineX 2)).lines.length - 1) :=
  ⟨⟨rfl, rfl⟩, ⟨lineX 2, by simp [terminator.AddLine, New], rfl⟩,
    c4_RemoveLine_of_registered _ (lineX 2) ⟨rfl, rfl⟩
      ⟨lineX 2, by simp [terminator.AddLine, New], rfl⟩⟩

/-- C5: evaluation at the failing input. The registry holds the one line at address
1; `RemoveLine` of a handle at address 2, which is not registered, empties the three
sequences. -/
theorem c5_RemoveLine_absent_on_single_line :
    ((New okSink ()).AddLine (lineX 1)).lines.map (fun x => x.addr) = [1]
    ∧ ((New okSink ()).AddLine (lineX 1)).findLine (lineX 2) = -1
    ∧ (((New okSink ()).AddLine (lineX 1)).RemoveLine (lineX 2)).map
        (fun t1 => (t1.lines.map (fun x => x.addr), t1.hiddenLines, t1.drawClearBalance))
        = some ([], [], [])
    ∧ ((New okSink ()).AddLine (lineX 1)).hiddenLines = [false]
    ∧ ((New okSink ()).AddLine (lineX 1)).drawClearBalance = [0] := by
  refine ⟨rfl, rfl, rfl, rfl, rfl⟩

/-- Apart from `RemoveLine` on a registry of one line, the three operations leave the
state as it is for a handle that is not registered. -/
theorem absent_handle_noop {σ : Type} (t : terminator σ) (l : Line σ) (hwf : t.WF)
    (habs : ∀ x ∈ t.lines, x.addr ≠ l.addr) :
    t.HideLine l = some t ∧ t.ShowLine l = some t
    ∧ (t.lines.length ≠ 1 → t.RemoveLine l = some t) := by
  have hf := findLine_absent t l habs
  refine ⟨by simp [terminator.HideLine, hf], by simp [terminator.ShowLine, hf], ?_⟩
  intro h1
  by_cases h0 : t.lines.length ≤ 1
  · have hz : t.lines.length = 0 := by omega
    obtain ⟨hh, hb⟩ := hwf
    have e1 : t.lines = [] := List.length_eq_zero.mp hz
    have e2 : t.hiddenLines = [] := List.length_eq_zero.mp (by omega)
    have e3 : t.drawClearBalance = [] := List.length_eq_zero.mp (by omega)
    simp only [terminator.RemoveLine, h0, if_true]
    rw [← e1, ← e2, ← e3]
  · simp [terminator.RemoveLine, h0, hf]

theorem set_set_self {α : Type} (xs : List α) (i : Nat) (a b : α) (h : xs[i]? = some b) :
    (xs.set i a).set i b = xs := by
  induction xs generalizing i with
  | nil => simp
  | cons x rest ih =>
    cases i with
    | zero => simp at h; simp [h]
    | succ j => simp at h; simp [ih j h]

/-- C7: for a registered line whose slot is visible, `ShowLine(l)` after `HideLine(l)`
gives back the state from before the pair, so the next `Draw` does what it would have
done without the pair. -/
theorem c7_ShowLine_after_HideLine {σ : Type} (t : terminator σ) (l : Line σ) (i : Nat)
    (hfind : t.findLine l = (i : Int)) (hvis : t.hiddenLines[i]? = some false) :
    ∃ t1 t2 : terminator σ, t.HideLine l = some t1 ∧ t1.ShowLine l = some t2
      ∧ t2 = t ∧ t2.Draw = t.Draw := by
  have hi : i < t.hiddenLines.length := by
    by_contra hcon
    have : t.hiddenLines[i]? = none := List.getElem?_eq_none (by omega)
    rw [this] at hvis; cases hvis
  have hne : t.hiddenLines.set i true ≠ [] := by
    intro h
    have h2 := congrArg List.length h
    rw [List.length_set, List.length_nil] at h2
    omega
  have hset : (t.hiddenLines.set i true).set i false = t.hiddenLines :=
    set_set_self _ _ _ _ hvis
  refine ⟨{ t with hiddenLines := t.hiddenLines.set i true }, t, ?_, ?_, rfl, rfl⟩
  · simp [terminator.HideLine, hfind, setAt, hi]
  · have hfind2 : ({ t with hiddenLines := t.hiddenLines.set i true } : terminator σ).findLine l
        = (i : Int) := hfind
    simp only [terminator.ShowLine, hne, if_false, hfind2]
    simp [setAt, hi, hset]

/-- C7 applied to a registry of one visible line. -/
theorem c7_ShowLine_after_HideLine_witness :
    ((New okSink ()).AddLine (lineX 1)).findLine (lineX 1) = ((0 : Nat) : Int)
    ∧ ((New okSink ()).AddLine (lineX 1)).hiddenLines[0]? = some false
    ∧ ∃ t1 t2 : terminator Unit,
        ((New okSink ()).AddLine (lineX 1)).HideLine (lineX 1) = some t1
        ∧ t1.ShowLine (lineX 1) = some t2
        ∧ t2 = (New okSink ()).AddLine (lineX 1)
        ∧ t2.Draw = ((New okSink ()).AddLine (lineX 1)).Draw :=
  ⟨rfl, rfl, c7_ShowLine_after_HideLine _ (lineX 1) 0 rfl rfl⟩

/-! ### The rows pushed down by input -/

/-- The three statements after the guard of `clear` set `offTheBottom` to 0 and then
subtract the new value from `cursor`: `cursor` keeps its value. -/
theorem clearOffTheBottom_eq {σ : Type} (t : terminator σ) (h : 0 ≤ t.offTheBottom) :
    ∃ t1, t.clearOffTheBottom = some t1 ∧ t1.cursor = t.cursor ∧ t1.offTheBottom = 0 := by
  have h2 : ¬ t.offTheBottom < 0 := by omega
  simp only [terminator.clearOffTheBottom, h2, if_false]
  exact ⟨_, rfl, by simp [terminator.Write, terminator.record], rfl⟩

/-- C10: evaluation at the failing input. After one `Draw` of a one-line registry
(`cursor = 1`) and one `HadInput` (`cursor = 2`, `offTheBottom = 1`), the erase step
of `clear` leaves `cursor = 2` and `offTheBottom = 0`; the `Draw` ends with
`cursor = 2`, where a `Draw` without the `HadInput` ends with `cursor = 1`. -/
theorem c10_erase_step_keeps_cursor :
    ∃ t1 : terminator Unit,
      ((New okSink ()).AddLine (lineX 1)).Draw = some (t1, none)
      ∧ t1.cursor = 1 ∧ t1.offTheBottom = 0
      ∧ t1.HadInput.cursor = 2 ∧ t1.HadInput.offTheBottom = 1
      ∧ (t1.HadInput.clearOffTheBottom).map (fun t => (t.cursor, t.offTheBottom)) = some (2, 0)
      ∧ (t1.HadInput.Draw).map (fun r => (r.1.cursor, r.1.offTheBottom, r.2)) = some (2, 0, none)
      ∧ (t1.Draw).map (fun r => (r.1.cursor, r.1.offTheBottom, r.2)) = some (1, 0, none) :=
  ⟨_, rfl, rfl, rfl, rfl, rfl, rfl, rfl, rfl⟩

/-! ### The animated wrapper -/

theorem colorAt_natCast (colors : List Color) (n : Nat) (hP : colors ≠ []) :
    colorAt colors (n : Int) = colors[n % colors.length]? := by
  have hlen : colors.length ≠ 0 := fun h => hP (List.length_eq_zero.mp h)
  have h1 : Int.tmod (n : Int) (colors.length : Int) = ((n % colors.length : Nat) : Int) := by
    rw [Int.tmod_eq_emod (by omega) (by omega)]
    norm_cast
  have h2 : ¬ ((n % colors.length : Nat) : Int) < 0 := by omega
  simp only [colorAt, hlen, if_false, h1, h2, Int.toNat_ofNat]

theorem getElem?_mod_isSome (colors : List Color) (n : Nat) (hP : colors ≠ []) :
    ∃ c, colors[n % colors.length]? = some c := by
  have hlen : 0 < colors.length := List.length_pos.mpr hP
  have hlt : n % colors.length < colors.length := Nat.mod_lt _ hlen
  exact ⟨colors[n % colors.length], List.getElem?_eq_getElem hlt⟩

theorem stripEsc_append (xs ys : List Tok) : stripEsc (xs ++ ys) = stripEsc xs ++ stripEsc ys := by
  induction xs with
  | nil => rfl
  | cons x rest ih =>
    cases x with
    | esc c => simpa [stripEsc] using ih
    | byte b => simpa [stripEsc] using ih

theorem animated_loop_spec (colors : List Color) (s : Nat) (hP : colors ≠ []) :
    ∀ (msg : Bytes) (j : Nat),
      ∃ ts, AnimatedLineFromGenerator.loop colors (s : Int) msg j = some ts
        ∧ stripEsc ts = msg
        ∧ (∀ tail cur, msg ≠ [] → colourScan (ts ++ tail) cur 0 = cur)
        ∧ (∀ tail cur i, i + 1 < msg.length →
            colourScan (ts ++ tail) cur (i + 1) = colors[(j + i + s) % colors.length]?) := by
  intro msg
  induction msg with
  | nil =>
    intro j
    exact ⟨[], rfl, rfl, fun _ _ h => absurd rfl h, fun _ _ i h => by simp at h⟩
  | cons c rest ih =>
    intro j
    obtain ⟨ts, hts, hstrip, h0, hsucc⟩ := ih (j + 1)
    obtain ⟨col, hcol⟩ := getElem?_mod_isSome colors (j + s) hP
    have hc : colorAt colors ((j : Int) + (s : Int)) = some col := by
      have := colorAt_natCast colors (j + s) hP
      rw [hcol] at this
      simpa using this
    refine ⟨Tok.byte c :: Tok.esc col :: ts, ?_, ?_, ?_, ?_⟩
    · simp only [AnimatedLineFromGenerator.loop, hc, hts]
    · simp [stripEsc, hstrip]
    · intro tail cur _
      rfl
    · intro tail cur i hi
      simp only [List.cons_append, colourScan, List.append_eq]
      cases i with
      | zero =>
        have hne : rest ≠ [] := by
          intro h; subst h; simp at hi
        rw [h0 tail (some col) hne, ← hcol]
        simp
      | succ i2 =>
        rw [hsucc tail (some col) i2 (by simp at hi; omega)]
        congr 2
        omega

theorem animated_writes_spec (colors : List Color) (s : Nat) (msg : Bytes) (hP : colors ≠ []) :
    ∃ ts, AnimatedLineFromGenerator.writes colors (s : Int) msg = some ts
      ∧ stripEsc ts = msg
      ∧ (0 < msg.length → colourOf ts 0 = colors[((s : Int) - 1).natAbs % colors.length]?)
      ∧ (∀ i, i + 1 < msg.length → colourOf ts (i + 1) = colors[(i + s) % colors.length]?) := by
  obtain ⟨ts, hts, hstrip, h0, hsucc⟩ := animated_loop_spec colors s hP msg 0
  obtain ⟨c0, hc0⟩ := getElem?_mod_isSome colors ((s : Int) - 1).natAbs hP
  have hc : colorAt colors ((((s : Int) - 1).natAbs : Nat) : Int) = some c0 := by
    rw [colorAt_natCast colors _ hP, hc0]
  refine ⟨Tok.esc c0 :: ts ++ [Tok.esc Reset], ?_, ?_, ?_, ?_⟩
  · simp only [AnimatedLineFromGenerator.writes, hc, hts]
  · simp [stripEsc, stripEsc_append, hstrip]
  · intro hpos
    have hne : msg ≠ [] := by
      intro h; subst h; simp at hpos
    simp only [colourOf, List.cons_append, colourScan, List.append_eq]
    rw [h0 _ _ hne, hc0]
  · intro i hi
    simp only [colourOf, List.cons_append, colourScan, List.append_eq]
    rw [hsucc _ _ i hi]
    simp

theorem animated_invoke_spec {σ : Type} (g : σ → Option Bytes × σ) (colors : List Color)
    (b : Bytes) (hP : colors ≠ []) (hg : ∀ e, (g e).1 = some b) :
    ∀ (k s : Nat) (e0 : σ),
      ∃ ts e, AnimatedLineFromGenerator.invoke g colors k ((s : Int), e0)
          = some (some (render ts), (((s + k + 1 : Nat) : Int), e))
        ∧ AnimatedLineFromGenerator.writes colors ((s + k : Nat) : Int) b = some ts := by
  intro k
  induction k with
  | zero =>
    intro s e0
    obtain ⟨ts, hts, _⟩ := animated_writes_spec colors s b hP
    refine ⟨ts, (g e0).2, ?_, by simpa using hts⟩
    simp only [AnimatedLineFromGenerator.invoke, AnimatedLineFromGenerator.next, hg, hts]
    simp
  | succ k ih =>
    intro s e0
    obtain ⟨ts0, hts0, _⟩ := animated_writes_spec colors s b hP
    obtain ⟨ts, e, hinv, hw⟩ := ih (s + 1) (g e0).2
    refine ⟨ts, e, ?_, ?_⟩
    · simp only [AnimatedLineFromGenerator.invoke, AnimatedLineFromGenerator.next, hg, hts0]
      have hcast : ((s : Int) + 1) = (((s + 1 : Nat)) : Int) := by push_cast; rfl
      rw [hcast, hinv]
      congr 4
      push_cast; omega
    · have : s + (k + 1) = s + 1 + k := by omega
      rw [this]; exact hw

/-- C9, as stated, fails: with the palette red, green, blue and the base output "ab",
invocation 1 writes red, 'a', green, 'b', blue, reset, so the colour in effect
at byte 0 is red, which is `palette[0]` and not `palette[(0 + 1) mod 3]`. -/
theorem c9_first_byte_colour_counterexample :
    (AnimatedLineFromGenerator.invoke constAB palette3 1 (0, ())).map (fun r => r.1)
      = some (some (Red ++ [97] ++ Green ++ [98] ++ Blue ++ Reset))
    ∧ AnimatedLineFromGenerator.writes palette3 1 [97, 98]
      = some [Tok.esc Red, Tok.byte 97, Tok.esc Green, Tok.byte 98, Tok.esc Blue, Tok.esc Reset]
    ∧ colourOf [Tok.esc Red, Tok.byte 97, Tok.esc Green, Tok.byte 98, Tok.esc Blue,
        Tok.esc Reset] 0 = some Red
    ∧ palette3[(0 + 1) % palette3.length]? = some Green
    ∧ ¬ (colourOf [Tok.esc Red, Tok.byte 97, Tok.esc Green, Tok.byte 98, Tok.esc Blue,
        Tok.esc Reset] 0 = palette3[(0 + 1) % palette3.length]?) := by
  refine ⟨by decide, by decide, by decide, by decide, by decide⟩

/-- C9, amended: with a non-empty palette of size `P` and a base function that always
returns `b`, invocation `k` (from 0) returns the rendering of the writes `ts`; the
colour in effect at byte `i` is `palette[(i + k - 1) mod P]` when `i + k ≥ 1`, and
`palette[1 mod P]` for byte 0 of invocation 0; removing the escapes from two
consecutive outputs leaves `b`, and the colour of byte `i` in invocation `k + 1` is
the colour of byte `i + 1` in invocation `k`. -/
theorem c9_animated_colours {σ : Type} (g : σ → Option Bytes × σ) (colors : List Color)
    (b : Bytes) (e0 : σ) (k : Nat) (hP : colors ≠ []) (hg : ∀ e, (g e).1 = some b) :
    ∃ (ts ts2 : List Tok) (st st2 : Int × σ),
      AnimatedLineFromGenerator.invoke g colors k (0, e0) = some (some (render ts), st)
      ∧ AnimatedLineFromGenerator.invoke g colors (k + 1) (0, e0) = some (some (render ts2), st2)
      ∧ AnimatedLineFromGenerator.writes colors (k : Int) b = some ts
      ∧ AnimatedLineFromGenerator.writes colors ((k : Int) + 1) b = some ts2
      ∧ stripEsc ts = b ∧ stripEsc ts2 = b
      ∧ (∀ i, i < b.length → 1 ≤ i + k →
          ∃ c, colors[(i + k - 1) % colors.length]? = some c ∧ colourOf ts i = some c)
      ∧ (k = 0 → 0 < b.length →
          ∃ c, colors[1 % colors.length]? = some c ∧ colourOf ts 0 = some c)
      ∧ (∀ i, i + 1 < b.length → colourOf ts2 i = colourOf ts (i + 1)) := by
  obtain ⟨ts, e, hinv, hw⟩ := animated_invoke_spec g colors b hP hg k 0 e0
  obtain ⟨ts2, e2, hinv2, hw2⟩ := animated_invoke_spec g colors b hP hg (k + 1) 0 e0
  simp only [Nat.zero_add, Nat.cast_zero] at hinv hw hinv2 hw2
  obtain ⟨ts3, hw3, hstrip, hzero, hsucc⟩ := animated_writes_spec colors k b hP
  obtain ⟨ts4, hw4, hstrip2, hzero2, hsucc2⟩ := animated_writes_spec colors (k + 1) b hP
  rw [hw] at hw3
  rw [hw2] at hw4
  obtain rfl : ts = ts3 := Option.some.inj hw3
  obtain rfl : ts2 = ts4 := Option.some.inj hw4
  have hk1 : (((k + 1 : Nat) : Int) - 1).natAbs = k := by
    push_cast; simp
  refine ⟨ts, ts2, _, _, hinv, hinv2, hw, by simpa using hw2, hstrip, hstrip2, ?_, ?_, ?_⟩
  · intro i hi hik
    obtain ⟨c, hc⟩ := getElem?_mod_isSome colors (i + k - 1) hP
    refine ⟨c, hc, ?_⟩
    cases i with
    | zero =>
      have hk : ((k : Int) - 1).natAbs = k - 1 := by omega
      rw [hzero (by omega), hk, ← hc]
      simp
    | succ i2 =>
      rw [hsucc i2 hi, ← hc]
      congr 2
      omega
  · intro hk hpos
    subst hk
    obtain ⟨c, hc⟩ := getElem?_mod_isSome colors 1 hP
    refine ⟨c, hc, ?_⟩
    rw [hzero hpos, ← hc]
    simp
  · intro i hi
    cases i with
    | zero =>
      rw [hzero2 (by omega), hk1, hsucc 0 hi]
      simp
    | succ i2 =>
      rw [hsucc2 i2 (by omega), hsucc (i2 + 1) hi]
      congr 2
      omega

/-- C9, amended, applied to the palette red, green, blue, the base output "ab" and
invocation 1. -/
theorem c9_animated_colours_witness :
    palette3 ≠ [] ∧ (∀ e, (constAB e).1 = some [97, 98])
    ∧ ∃ (ts ts2 : List Tok) (st st2 : Int × Unit),
      AnimatedLineFromGenerator.invoke constAB palette3 1 (0, ()) = some (some (render ts), st)
      ∧ AnimatedLineFromGenerator.invoke constAB palette3 (1 + 1) (0, ())
          = some (some (render ts2), st2)
      ∧ AnimatedLineFromGenerator.writes palette3 ((1 : Nat) : Int) [97, 98] = some ts
      ∧ AnimatedLineFromGenerator.writes palette3 (((1 : Nat) : Int) + 1) [97, 98] = some ts2
      ∧ stripEsc ts = [97, 98] ∧ stripEsc ts2 = [97, 98]
      ∧ (∀ i, i < ([97, 98] : Bytes).length → 1 ≤ i + 1 →
          ∃ c, palette3[(i + 1 - 1) % palette3.length]? = some c ∧ colourOf ts i = some c)
      ∧ (1 = 0 → 0 < ([97, 98] : Bytes).length →
          ∃ c, palette3[1 % palette3.length]? = some c ∧ colourOf ts 0 = some c)
      ∧ (∀ i, i + 1 < ([97, 98] : Bytes).length → colourOf ts2 i = colourOf ts (i + 1)) :=
  ⟨by decide, fun _ => rfl,
    c9_animated_colours constAB palette3 [97, 98] () 1 (by decide) (fun _ => rfl)⟩

/-! ### Steps of the render cycle -/

theorem Frame.refl {σ : Type} (t : terminator σ) : Frame t t [] :=
  ⟨rfl, rfl, rfl, rfl, rfl, by simp⟩

theorem Frame.trans {σ : Type} {t t1 t2 : terminator σ} {e1 e2 : List Event}
    (h1 : Frame t t1 e1) (h2 : Frame t1 t2 e2) : Frame t t2 (e1 ++ e2) :=
  ⟨h2.Writer.trans h1.Writer, h2.lines.trans h1.lines, h2.hidden.trans h1.hidden,
    h2.len.trans h1.len, h2.off.trans h1.off, by rw [h2.trace, h1.trace, List.append_assoc]⟩

theorem Write_frame {σ : Type} (t : terminator σ) (k : WKind) (p : Bytes) :
    Frame t (t.Write k p).1 [Event.write k p (t.Writer (written t.trace) p)]
    ∧ (t.Write k p).1.drawClearBalance = t.drawClearBalance
    ∧ (t.Write k p).1.cursor = t.cursor
    ∧ (t.Write k p).1.env = t.env
    ∧ (t.Write k p).1.needToClearInput = t.needToClearInput
    ∧ (t.Write k p).1.hasSavedPosition = t.hasSavedPosition
    ∧ (t.Write k p).2 = t.Writer (written t.trace) p :=
  ⟨⟨rfl, rfl, rfl, rfl, rfl, rfl⟩, rfl, rfl, rfl, rfl, rfl, rfl⟩

theorem Gen_call_frame {σ : Type} (g : Gen σ) (t : terminator σ) :
    Frame t (g.call t).2 [] ∧ (g.call t).2.drawClearBalance = t.drawClearBalance
    ∧ (g.call t).2.cursor = t.cursor := by
  cases g with
  | user f => exact ⟨⟨rfl, rfl, rfl, rfl, rfl, by simp [Gen.call]⟩, rfl, rfl⟩
  | input symbol =>
    refine ⟨⟨?_, ?_, ?_, ?_, ?_, ?_⟩, ?_, ?_⟩ <;>
      by_cases h : t.needToClearInput <;> simp [Gen.call, CreateInputLine.next, h]

theorem Cleanup_call_frame {σ : Type} (g : Cleanup σ) (t : terminator σ) :
    Frame t (g.call t).2 [] ∧ (g.call t).2.drawClearBalance = t.drawClearBalance
    ∧ (g.call t).2.cursor = t.cursor := by
  cases g with
  | user f => exact ⟨⟨rfl, rfl, rfl, rfl, rfl, by simp [Cleanup.call]⟩, rfl, rfl⟩
  | input => exact ⟨⟨rfl, rfl, rfl, rfl, rfl, by simp [Cleanup.call, CreateInputLine.ManualCleanup]⟩,
      rfl, rfl⟩

theorem Next_frame {σ : Type} (l : Line σ) (i : Nat) (t : terminator σ) :
    Frame t (l.Next i t).2 [Event.next i l.addr]
    ∧ (l.Next i t).2.drawClearBalance = t.drawClearBalance
    ∧ (l.Next i t).2.cursor = t.cursor := by
  obtain ⟨hf, hb, hc⟩ := Gen_call_frame l.next (t.record (Event.next i l.addr))
  have h0 : Frame t (t.record (Event.next i l.addr)) [Event.next i l.addr] :=
    ⟨rfl, rfl, rfl, rfl, rfl, rfl⟩
  have := Frame.trans h0 hf
  simp only [List.append_nil] at this
  exact ⟨this, hb, hc⟩

theorem addAt_spec (xs : List Int) (i : Nat) (d : Int) (h : i < xs.length) :
    ∃ ys, addAt xs i d = some ys ∧ ys.length = xs.length
      ∧ ys[i]? = some (xs[i] + d) ∧ ∀ j, j ≠ i → ys[j]? = xs[j]? := by
  refine ⟨xs.set i (xs[i] + d), ?_, by simp, ?_, ?_⟩
  · simp [addAt, List.getElem?_eq_getElem h]
  · simp [List.getElem?_set, h]
  · intro j hj
    have : ¬ i = j := fun e => hj e.symm
    simp [List.getElem?_set, this]

theorem FailShape.nil {σ : Type} (t : terminator σ) : FailShape t [] none := by
  refine ⟨?_, ?_⟩
  · intro err h; cases h
  · intro _ e h; cases h

theorem FailShape.append {σ : Type} {t t1 : terminator σ} {e1 e2 : List Event} {r : Option Err}
    (hW : t1.Writer = t.Writer) (htr : t1.trace = t.trace ++ e1)
    (hok : ∀ e ∈ e1, contentFailed e = false) (h2 : FailShape t1 e2 r) :
    FailShape t (e1 ++ e2) r := by
  refine ⟨?_, ?_⟩
  · intro err hr
    obtain ⟨pre, p, he, hpre, hw⟩ := h2.1 err hr
    refine ⟨e1 ++ pre, p, by rw [he, List.append_assoc], ?_, ?_⟩
    · intro e hmem
      rcases List.mem_append.mp hmem with h | h
      · exact hok e h
      · exact hpre e h
    · rw [← List.append_assoc, ← htr, ← hW]
      exact hw
  · intro hr e hmem
    rcases List.mem_append.mp hmem with h | h
    · exact hok e h
    · exact h2.2 hr e h

theorem drawContent_spec {σ : Type} (t : terminator σ) (i : Nat) (next : Option Bytes)
    (hb : i < t.drawClearBalance.length) :
    ∃ t1 r evs, t.drawContent i next = some (t1, r) ∧ Frame t t1 evs ∧ FailShape t evs r
      ∧ (∀ e ∈ evs, ∃ p err, e = Event.write WKind.content p err)
      ∧ (∀ j, j ≠ i → t1.drawClearBalance[j]? = t.drawClearBalance[j]?)
      ∧ t1.cursor = t.cursor := by
  cases next with
  | none =>
    exact ⟨t, none, [], rfl, Frame.refl t, FailShape.nil t, by simp,
      fun _ _ => rfl, rfl⟩
  | some p =>
    by_cases hsp : p = spacer
    · refine ⟨t, none, [], by simp [terminator.drawContent, hsp], Frame.refl t,
        FailShape.nil t, by simp, fun _ _ => rfl, rfl⟩
    · cases hw : t.Writer (written t.trace) p with
      | some err =>
        refine ⟨(t.Write WKind.content p).1, some err,
          [Event.write WKind.content p (some err)], ?_, ?_, ?_, ?_, fun _ _ => rfl, rfl⟩
        · simp [terminator.drawContent, hsp, terminator.Write, hw]
        · have := (Write_frame t WKind.content p).1
          rw [hw] at this
          exact this
        · refine ⟨?_, ?_⟩
          · intro e2 he2
            cases he2
            exact ⟨[], p, rfl, by simp, by simpa using hw⟩
          · intro h; cases h
        · intro e he
          simp at he
          exact ⟨p, some err, he⟩
      | none =>
        obtain ⟨ys, hys, hlen, _, hother⟩ := addAt_spec t.drawClearBalance i 1 hb
        refine ⟨{ (t.Write WKind.content p).1 with drawClearBalance := ys }, none,
          [Event.write WKind.content p none], ?_, ?_, ?_, ?_, ?_, rfl⟩
        · simp [terminator.drawContent, hsp, terminator.Write, hw, hys]
        · exact ⟨rfl, rfl, rfl, hlen, rfl, by simp [terminator.Write, terminator.record, hw]⟩
        · refine ⟨?_, ?_⟩
          · intro err h; cases h
          · intro _ e he
            simp at he
            subst he
            rfl
        · intro e he
          simp at he
          exact ⟨p, none, he⟩
        · intro j hj
          exact hother j hj

theorem drawLine_spec {σ : Type} (t : terminator σ) (i : Nat) (line : Line σ)
    (hline : t.lines[i]? = some line) (hi : i < t.hiddenLines.length)
    (hb : i < t.drawClearBalance.length) :
    ∃ t1 r evs, t.drawLine i line = some (t1, r) ∧ Frame t t1 evs ∧ FailShape t evs r
      ∧ (∀ e ∈ evs, DrawEv t.lines t.hiddenLines e)
      ∧ (∀ j, j ≠ i → t1.drawClearBalance[j]? = t.drawClearBalance[j]?)
      ∧ (t.hiddenLines[i]? = some true → t1 = t ∧ evs = []) := by
  have hne : t.hiddenLines ≠ [] := by
    intro h; rw [h] at hi; simp at hi
  have hget : t.hiddenLines[i]? = some t.hiddenLines[i] := List.getElem?_eq_getElem hi
  cases hh : t.hiddenLines[i] with
  | true =>
    rw [hh] at hget
    refine ⟨t, none, [], ?_, Frame.refl t, FailShape.nil t, by simp,
      fun _ _ => rfl, fun _ => ⟨rfl, rfl⟩⟩
    simp only [terminator.drawLine, hne, if_false, hget]
  | false =>
    rw [hh] at hget
    obtain ⟨hfN, hbN, hcN⟩ := Next_frame line i t
    have hfW := Write_frame (line.Next i t).2 WKind.clearRow Terminator.clear
    obtain ⟨hfW1, hbW, hcW, -⟩ := hfW
    have hf1 := Frame.trans hfN hfW1
    have hb1 : i < ((line.Next i t).2.Write WKind.clearRow Terminator.clear).1.drawClearBalance.length := by
      rw [hbW, hbN]; exact hb
    obtain ⟨t2, r, evs, hdc, hf2, hshape, hev, hother, hcur⟩ :=
      drawContent_spec ((line.Next i t).2.Write WKind.clearRow Terminator.clear).1 i
        (line.Next i t).1 hb1
    have hok1 : ∀ e ∈ [Event.next i line.addr] ++
        [Event.write WKind.clearRow Terminator.clear
          ((line.Next i t).2.Writer (written (line.Next i t).2.trace) Terminator.clear)],
        contentFailed e = false := by
      intro e he
      simp at he
      rcases he with rfl | rfl <;> rfl
    have hdraw1 : ∀ e ∈ [Event.next i line.addr] ++
        [Event.write WKind.clearRow Terminator.clear
          ((line.Next i t).2.Writer (written (line.Next i t).2.trace) Terminator.clear)],
        DrawEv t.lines t.hiddenLines e := by
      intro e he
      simp at he
      rcases he with rfl | rfl
      · exact ⟨⟨line, hline, rfl⟩, by rw [hget]; simp⟩
      · exact Or.inl rfl
    have hdraw2 : ∀ e ∈ evs, DrawEv t.lines t.hiddenLines e := by
      intro e he
      obtain ⟨p, err, rfl⟩ := hev e he
      exact Or.inr (Or.inl rfl)
    have hbal2 : ∀ j, j ≠ i → t2.drawClearBalance[j]? = t.drawClearBalance[j]? := by
      intro j hj
      rw [hother j hj, hbW, hbN]
    have hnot : t.hiddenLines[i]? = some true → False := by
      rw [hget]; simp
    cases r with
    | some err =>
      refine ⟨t2, some err, _, ?_, Frame.trans hf1 hf2, FailShape.append hf1.Writer hf1.trace hok1 hshape,
        ?_, hbal2, fun h => (hnot h).elim⟩
      · simp only [terminator.drawLine, hne, if_false, hget, hdc]
      · intro e he
        rcases List.mem_append.mp he with h | h
        · exact hdraw1 e h
        · exact hdraw2 e h
    | none =>
      by_cases hwnl : line.GetOptions.WithNextLine = true
      · obtain ⟨hfW2, hbW2, -⟩ := Write_frame t2 WKind.newline nl
        have hf3 : Frame t2 { (t2.Write WKind.newline nl).1 with
            cursor := (t2.Write WKind.newline nl).1.cursor + 1 }
            [Event.write WKind.newline nl (t2.Writer (written t2.trace) nl)] :=
          ⟨rfl, rfl, rfl, rfl, rfl, rfl⟩
        refine ⟨{ (t2.Write WKind.newline nl).1 with
                  cursor := (t2.Write WKind.newline nl).1.cursor + 1 }, none, _, ?_,
          Frame.trans (Frame.trans hf1 hf2) hf3, ?_, ?_, ?_, fun h => (hnot h).elim⟩
        · simp only [terminator.drawLine, hne, if_false, hget, hdc, hwnl, if_true]
        · refine ⟨(fun err h => by cases h), ?_⟩
          intro _ e he
          rcases List.mem_append.mp he with h | h
          · rcases List.mem_append.mp h with h | h
            · exact hok1 e h
            · exact hshape.2 rfl e h
          · simp at h
            subst h
            rfl
        · intro e he
          rcases List.mem_append.mp he with h | h
          · rcases List.mem_append.mp h with h | h
            · exact hdraw1 e h
            · exact hdraw2 e h
          · simp at h
            subst h
            exact Or.inr (Or.inr rfl)
        · intro j hj
          show (t2.Write WKind.newline nl).1.drawClearBalance[j]? = _
          rw [hbW2]
          exact hbal2 j hj
      · refine ⟨t2, none, _, ?_, Frame.trans hf1 hf2, FailShape.append hf1.Writer hf1.trace hok1 hshape,
          ?_, hbal2, fun h => (hnot h).elim⟩
        · simp only [terminator.drawLine, hne, if_false, hget, hdc, hwnl]
          simp
        · intro e he
          rcases List.mem_append.mp he with h | h
          · exact hdraw1 e h
          · exact hdraw2 e h

theorem drop_eq_cons {α : Type} (xs : List α) (i : Nat) (a : α) (rest : List α)
    (h : xs.drop i = a :: rest) : xs[i]? = some a ∧ xs.drop (i + 1) = rest := by
  induction xs generalizing i with
  | nil => simp at h
  | cons x more ih =>
    cases i with
    | zero =>
      simp at h
      simp [h.1, h.2]
    | succ j =>
      simp at h
      simpa using ih j h

theorem drawFrom_spec {σ : Type} :
    ∀ (ls : List (Line σ)) (i : Nat) (t : terminator σ),
      t.lines.drop i = ls → i + ls.length ≤ t.hiddenLines.length →
      i + ls.length ≤ t.drawClearBalance.length →
      ∃ t1 r evs, terminator.drawFrom ls i t = some (t1, r) ∧ Frame t t1 evs
        ∧ FailShape t evs r
        ∧ (∀ e ∈ evs, DrawEv t.lines t.hiddenLines e)
        ∧ (∀ j : Nat, t.hiddenLines[j]? = some true →
            t1.drawClearBalance[j]? = t.drawClearBalance[j]?) := by
  intro ls
  induction ls with
  | nil =>
    intro i t _ _ _
    exact ⟨t, none, [], rfl, Frame.refl t, FailShape.nil t, by simp, fun _ _ => rfl⟩
  | cons line rest ih =>
    intro i t hdrop hh hb
    obtain ⟨hline, hdrop2⟩ := drop_eq_cons t.lines i line rest hdrop
    simp only [List.length_cons] at hh hb
    obtain ⟨t1, r, evs, hstep, hf, hshape, hev, hother, hhid⟩ :=
      drawLine_spec t i line hline (by omega) (by omega)
    have hbal1 : ∀ j : Nat, t.hiddenLines[j]? = some true →
        t1.drawClearBalance[j]? = t.drawClearBalance[j]? := by
      intro j hj
      by_cases hji : j = i
      · subst hji
        rw [(hhid hj).1]
      · exact hother j hji
    cases r with
    | some err =>
      refine ⟨t1, some err, evs, ?_, hf, hshape, hev, hbal1⟩
      simp only [terminator.drawFrom, hstep]
    | none =>
      obtain ⟨t2, r2, evs2, hrest, hf2, hshape2, hev2, hbal2⟩ :=
        ih (i + 1) t1 (by rw [hf.lines]; exact hdrop2) (by rw [hf.hidden]; omega)
          (by rw [hf.len]; omega)
      refine ⟨t2, r2, evs ++ evs2, ?_, Frame.trans hf hf2,
        FailShape.append hf.Writer hf.trace (hshape.2 rfl) hshape2, ?_, ?_⟩
      · simp only [terminator.drawFrom, hstep, hrest]
      · intro e he
        rcases List.mem_append.mp he with h | h
        · exact hev e h
        · have := hev2 e h
          rw [hf.lines, hf.hidden] at this
          exact this
      · intro j hj
        rw [hbal2 j (by rw [hf.hidden]; exact hj)]
        exact hbal1 j hj

theorem draw_spec {σ : Type} (t : terminator σ) (hwf : t.WF) :
    ∃ t1 r evs, t.draw = some (t1, r) ∧ Frame t t1 evs ∧ FailShape t evs r
      ∧ (∀ e ∈ evs, DrawEv t.lines t.hiddenLines e)
      ∧ (∀ j : Nat, t.hiddenLines[j]? = some true →
          t1.drawClearBalance[j]? = t.drawClearBalance[j]?) := by
  obtain ⟨hh, hb⟩ := hwf
  exact drawFrom_spec t.lines 0 t (by simp) (by omega) (by omega)

theorem clearLine_spec {σ : Type} (t : terminator σ) (i : Nat) (hi : i < t.lines.length)
    (hb : t.drawClearBalance.length = t.lines.length) :
    ∃ t1 evs, t.clearLine i = some t1 ∧ Frame t t1 evs ∧ (∀ e ∈ evs, ClearEv e)
      ∧ (∀ (j : Nat) (b : Int), t.drawClearBalance[j]? = some b →
          ∃ b1, t1.drawClearBalance[j]? = some b1 ∧ b1 ≤ b) := by
  have hib : i < t.drawClearBalance.length := by omega
  have hne : t.drawClearBalance ≠ [] := by
    intro h; rw [h] at hib; simp at hib
  have hgetb : t.drawClearBalance[i]? = some t.drawClearBalance[i] :=
    List.getElem?_eq_getElem hib
  have hgetl : t.lines[i]? = some t.lines[i] := List.getElem?_eq_getElem hi
  have hsame : ∀ (j : Nat) (b : Int), t.drawClearBalance[j]? = some b →
      ∃ b1, t.drawClearBalance[j]? = some b1 ∧ b1 ≤ b := fun j b h => ⟨b, h, le_refl b⟩
  have hdec : ∀ (ys : List Int), ys[i]? = some (t.drawClearBalance[i] + -1) →
      (∀ j : Nat, j ≠ i → ys[j]? = t.drawClearBalance[j]?) →
      ∀ (j : Nat) (b : Int), t.drawClearBalance[j]? = some b → ∃ b1, ys[j]? = some b1 ∧ b1 ≤ b := by
    intro ys hys hother j b hj
    by_cases hji : j = i
    · subst hji
      rw [hgetb] at hj
      cases hj
      exact ⟨_, hys, by omega⟩
    · exact ⟨b, by rw [hother j hji]; exact hj, le_refl b⟩
  by_cases hskip : t.drawClearBalance[i] ≤ 0
  · refine ⟨t, [], ?_, Frame.refl t, by simp, hsame⟩
    simp [terminator.clearLine, hne, hgetb, hskip]
  · cases hmc : t.lines[i].GetOptions.ManualCleanup with
    | some mc =>
      obtain ⟨hfC, hbC, -⟩ := Cleanup_call_frame mc (t.record (Event.manual i t.lines[i].addr))
      have h0 : Frame t (t.record (Event.manual i t.lines[i].addr))
          [Event.manual i t.lines[i].addr] := ⟨rfl, rfl, rfl, rfl, rfl, rfl⟩
      obtain ⟨hfW, hbW, -⟩ := Write_frame (mc.call (t.record (Event.manual i t.lines[i].addr))).2
        WKind.cleanup ((mc.call (t.record (Event.manual i t.lines[i].addr))).1.getD [])
      have hbeq : ((mc.call (t.record (Event.manual i t.lines[i].addr))).2.Write WKind.cleanup
          ((mc.call (t.record (Event.manual i t.lines[i].addr))).1.getD [])).1.drawClearBalance
          = t.drawClearBalance := by
        rw [hbW, hbC]; rfl
      obtain ⟨ys, hys, hlen, hat, hother⟩ := addAt_spec t.drawClearBalance i (-1) hib
      have hf := Frame.trans (Frame.trans h0 hfC) hfW
      refine ⟨{ ((mc.call (t.record (Event.manual i t.lines[i].addr))).2.Write WKind.cleanup
          ((mc.call (t.record (Event.manual i t.lines[i].addr))).1.getD [])).1 with
          drawClearBalance := ys }, _, ?_,
        ⟨hf.Writer, hf.lines, hf.hidden, hlen, hf.off, hf.trace⟩, ?_, hdec ys hat hother⟩
      · simp only [terminator.clearLine, hne, if_false, hgetb, hgetl, hmc, hbeq, hys]
        simp [hskip]
      · intro e he
        simp at he
        rcases he with rfl | rfl
        · trivial
        · exact Or.inr (Or.inl rfl)
    | none =>
      by_cases hwnl : t.lines[i].GetOptions.WithNextLine = true
      · obtain ⟨hfW, hbW, -⟩ := Write_frame t WKind.generic (cr ++ Terminator.clear ++ up)
        obtain ⟨ys, hys, hlen, hat, hother⟩ := addAt_spec t.drawClearBalance i (-1) hib
        refine ⟨{ (t.Write WKind.generic (cr ++ Terminator.clear ++ up)).1 with
            cursor := (t.Write WKind.generic (cr ++ Terminator.clear ++ up)).1.cursor - 1,
            drawClearBalance := ys }, _, ?_,
          ⟨hfW.Writer, hfW.lines, hfW.hidden, hlen, hfW.off, hfW.trace⟩, ?_, hdec ys hat hother⟩
        · simp only [terminator.clearLine, hne, if_false, hgetb, hgetl, hmc, hwnl, if_true]
          have : (t.Write WKind.generic (cr ++ Terminator.clear ++ up)).1.drawClearBalance
              = t.drawClearBalance := rfl
          simp only [this, hys]
          simp [hskip]
        · intro e he
          simp at he
          subst he
          exact Or.inr (Or.inr rfl)
      · refine ⟨t, [], ?_, Frame.refl t, by simp, hsame⟩
        simp [terminator.clearLine, hne, hgetb, hskip, hgetl, hmc, hwnl]

theorem clearLoop_spec {σ : Type} :
    ∀ (n : Nat) (t : terminator σ), n ≤ t.lines.length →
      t.drawClearBalance.length = t.lines.length →
      ∃ t1 evs, terminator.clearLoop n t = some t1 ∧ Frame t t1 evs ∧ (∀ e ∈ evs, ClearEv e)
        ∧ (∀ (j : Nat) (b : Int), t.drawClearBalance[j]? = some b →
            ∃ b1, t1.drawClearBalance[j]? = some b1 ∧ b1 ≤ b) := by
  intro n
  induction n with
  | zero =>
    intro t _ _
    exact ⟨t, [], rfl, Frame.refl t, by simp, fun j b h => ⟨b, h, le_refl b⟩⟩
  | succ n ih =>
    intro t hn hb
    obtain ⟨t1, evs, hstep, hf, hev, hmono⟩ := clearLine_spec t n (by omega) hb
    obtain ⟨t2, evs2, hrest, hf2, hev2, hmono2⟩ :=
      ih t1 (by rw [hf.lines]; omega) (by rw [hf.len, hf.lines]; exact hb)
    refine ⟨t2, evs ++ evs2, ?_, Frame.trans hf hf2, ?_, ?_⟩
    · simp only [terminator.clearLoop, hstep, hrest]
    · intro e he
      rcases List.mem_append.mp he with h | h
      · exact hev e h
      · exact hev2 e h
    · intro j b hj
      obtain ⟨b1, h1, hle1⟩ := hmono j b hj
      obtain ⟨b2, h2, hle2⟩ := hmono2 j b1 h1
      exact ⟨b2, h2, le_trans hle2 hle1⟩

theorem clearOffTheBottom_spec {σ : Type} (t : terminator σ) (h : 0 ≤ t.offTheBottom) :
    ∃ t1, t.clearOffTheBottom = some t1 ∧ t1.Writer = t.Writer ∧ t1.lines = t.lines
      ∧ t1.hiddenLines = t.hiddenLines ∧ t1.drawClearBalance = t.drawClearBalance
      ∧ t1.cursor = t.cursor ∧ t1.offTheBottom = 0
      ∧ t1.trace = t.trace ++ [Event.write WKind.erase
          (Repeat (cr ++ Terminator.clear ++ up) t.offTheBottom.toNat)
          (t.Writer (written t.trace)
            (Repeat (cr ++ Terminator.clear ++ up) t.offTheBottom.toNat))]
      ∧ t1.env = t.env ∧ t1.needToClearInput = t.needToClearInput
      ∧ t1.hasSavedPosition = t.hasSavedPosition := by
  have h2 : ¬ t.offTheBottom < 0 := by omega
  simp only [terminator.clearOffTheBottom, h2, if_false]
  exact ⟨_, rfl, rfl, rfl, rfl, rfl, by simp [terminator.Write, terminator.record], rfl, rfl,
    rfl, rfl, rfl⟩

theorem ClearEv_not_failed (e : Event) (h : ClearEv e) : contentFailed e = false := by
  cases e with
  | write k p err =>
    rcases h with rfl | rfl | rfl <;> rfl
  | next j a => rfl
  | manual j a => rfl

theorem clear_spec {σ : Type} (t : terminator σ) (hwf : t.WF) (hoff : 0 ≤ t.offTheBottom) :
    ∃ t1 evs, t.clear = some t1 ∧ t1.Writer = t.Writer ∧ t1.lines = t.lines
      ∧ t1.hiddenLines = t.hiddenLines
      ∧ t1.drawClearBalance.length = t.drawClearBalance.length
      ∧ t1.offTheBottom = 0 ∧ t1.trace = t.trace ++ evs ∧ (∀ e ∈ evs, ClearEv e)
      ∧ (∀ (j : Nat) (b : Int), t.drawClearBalance[j]? = some b →
          ∃ b1, t1.drawClearBalance[j]? = some b1 ∧ b1 ≤ b) := by
  obtain ⟨hh, hb⟩ := hwf
  by_cases hc : t.cursor ≤ 0
  · refine ⟨{ t with cursor := 0, offTheBottom := 0 }, [], ?_, rfl, rfl, rfl, rfl, rfl,
      by simp, by simp, fun j b h => ⟨b, h, le_refl b⟩⟩
    simp only [terminator.clear, hc, if_true]
  · obtain ⟨t0, he, hW0, hl0, hh0, hb0, -, hoff0, htr0, -⟩ := clearOffTheBottom_spec t hoff
    obtain ⟨t2, evs, hloop, hf, hev, hmono⟩ := clearLoop_spec t0.lines.length t0 (le_refl _)
      (by rw [hb0, hl0]; exact hb)
    refine ⟨t2, Event.write WKind.erase (Repeat (cr ++ Terminator.clear ++ up)
        t.offTheBottom.toNat) (t.Writer (written t.trace)
          (Repeat (cr ++ Terminator.clear ++ up) t.offTheBottom.toNat)) :: evs, ?_,
      hf.Writer.trans hW0, hf.lines.trans hl0, hf.hidden.trans hh0,
      hf.len.trans (by rw [hb0]), hf.off.trans hoff0, ?_, ?_, ?_⟩
    · simp only [terminator.clear, hc, if_false, he, hloop]
    · rw [hf.trace, htr0]
      simp
    · intro e hmem
      rcases List.mem_cons.mp hmem with h | h
      · subst h
        exact Or.inl rfl
      · exact hev e h
    · intro j b hj
      exact hmono j b (by rw [hb0]; exact hj)

theorem Draw_spec {σ : Type} (t : terminator σ) (hwf : t.WF) (hoff : 0 ≤ t.offTheBottom) :
    ∃ t1 r evs, t.Draw = some (t1, r) ∧ t1.Writer = t.Writer ∧ t1.lines = t.lines
      ∧ t1.hiddenLines = t.hiddenLines
      ∧ t1.drawClearBalance.length = t.drawClearBalance.length
      ∧ t1.offTheBottom = 0 ∧ t1.trace = t.trace ++ evs ∧ FailShape t evs r
      ∧ (∀ e ∈ evs, ClearEv e ∨ DrawEv t.lines t.hiddenLines e)
      ∧ (∀ (j : Nat) (b : Int), t.hiddenLines[j]? = some true →
          t.drawClearBalance[j]? = some b →
          ∃ b1, t1.drawClearBalance[j]? = some b1 ∧ b1 ≤ b) := by
  obtain ⟨t1, evs1, hclear, hW1, hl1, hh1, hlen1, hoff1, htr1, hev1, hmono1⟩ :=
    clear_spec t hwf hoff
  have hwf1 : t1.WF := by
    obtain ⟨hh, hb⟩ := hwf
    exact ⟨by rw [hh1, hl1]; exact hh, by rw [hlen1, hl1]; exact hb⟩
  obtain ⟨t2, r, evs2, hdraw, hf2, hshape2, hev2, hbal2⟩ := draw_spec t1 hwf1
  refine ⟨t2, r, evs1 ++ evs2, ?_, hf2.Writer.trans hW1, hf2.lines.trans hl1,
    hf2.hidden.trans hh1, hf2.len.trans hlen1, hf2.off.trans hoff1, ?_, ?_, ?_, ?_⟩
  · simp only [terminator.Draw, hclear, hdraw]
  · rw [hf2.trace, htr1, List.append_assoc]
  · exact FailShape.append hW1 htr1 (fun e he => ClearEv_not_failed e (hev1 e he)) hshape2
  · intro e he
    rcases List.mem_append.mp he with h | h
    · exact Or.inl (hev1 e h)
    · have := hev2 e h
      rw [hl1, hh1] at this
      exact Or.inr this
  · intro j b hj hb
    obtain ⟨b1, hb1, hle⟩ := hmono1 j b hb
    refine ⟨b1, ?_, hle⟩
    rw [hbal2 j (by rw [hh1]; exact hj)]
    exact hb1

/-! ### Failures of the sink -/

/-- C3: evaluation at the failing input. With a sink that fails every write of the
generic clear sequence, the second `Draw` of a one-line registry makes that failing
write in its clear pass, goes on to write clear-row, "X" and newline, and returns nil,
where the claim has it return the failure and write nothing more. With a sink that
fails every write, the `Draw` of the registry holding only `Spacer()` makes two
failing writes (clear-row, newline) and returns nil. -/
theorem c3_failed_write_ignored :
    (∃ t1 t2 : terminator Unit,
      ((New failGeneric ()).AddLine (lineX 1)).Draw = some (t1, none)
      ∧ t1.Draw = some (t2, none)
      ∧ newEvents t1.trace.length t2.trace
        = [Event.write WKind.erase [] none,
           Event.write WKind.generic (cr ++ clear ++ up) (some 1),
           Event.next 0 1,
           Event.write WKind.clearRow clear none,
           Event.write WKind.content [88] none,
           Event.write WKind.newline nl none])
    ∧ (∃ t1 : terminator Unit,
      ((New failAll ()).AddLine (Spacer 1)).Draw = some (t1, none)
      ∧ t1.trace
        = [Event.next 0 1,
           Event.write WKind.clearRow clear (some 1),
           Event.write WKind.newline nl (some 1)]) :=
  ⟨⟨_, _, rfl, rfl, rfl⟩, ⟨_, rfl, rfl⟩⟩

/-- The one write whose failure `Draw` does return is the write of a line's content
(the only `Write` call whose error the code looks at). For every state whose three
sequences have one length, `Draw` returns; if it returns an error, the last thing it
did was a write of a line's content, that write failed with this error, and no content
write failed before; if it returns nil, no content write of the cycle failed. -/
theorem Draw_returns_content_failure {σ : Type} (t : terminator σ) (hwf : t.WF)
    (hoff : 0 ≤ t.offTheBottom) :
    ∃ t1 r evs, t.Draw = some (t1, r) ∧ t1.trace = t.trace ++ evs
      ∧ (∀ err, r = some err →
          ∃ pre p, evs = pre ++ [Event.write WKind.content p (some err)]
            ∧ (∀ e ∈ pre, contentFailed e = false)
            ∧ t.Writer (written (t.trace ++ pre)) p = some err)
      ∧ (r = none → ∀ e ∈ evs, contentFailed e = false) := by
  obtain ⟨t1, r, evs, hD, -, -, -, -, -, htr, hshape, -, -⟩ := Draw_spec t hwf hoff
  exact ⟨t1, r, evs, hD, htr, hshape.1, hshape.2⟩

/-- The failure of a content write, on a one-line registry and a sink that fails the
write of the content. -/
theorem Draw_returns_content_failure_eval :
    ((New failX ()).AddLine (lineX 1)).WF
    ∧ 0 ≤ ((New failX ()).AddLine (lineX 1)).offTheBottom
    ∧ ∃ t1 r evs, ((New failX ()).AddLine (lineX 1)).Draw = some (t1, r)
      ∧ t1.trace = ((New failX ()).AddLine (lineX 1)).trace ++ evs
      ∧ (∀ err, r = some err →
          ∃ pre p, evs = pre ++ [Event.write WKind.content p (some err)]
            ∧ (∀ e ∈ pre, contentFailed e = false)
            ∧ ((New failX ()).AddLine (lineX 1)).Writer
                (written (((New failX ()).AddLine (lineX 1)).trace ++ pre)) p = some err)
      ∧ (r = none → ∀ e ∈ evs, contentFailed e = false) :=
  ⟨⟨rfl, rfl⟩, by decide,
    Draw_returns_content_failure ((New failX ()).AddLine (lineX 1)) ⟨rfl, rfl⟩ (by decide)⟩

/-- That state does return the failure of its content write. -/
theorem failX_Draw_eval :
    (((New failX ()).AddLine (lineX 1)).Draw).map (fun r => (r.1.trace, r.1.cursor, r.2))
      = some ([Event.next 0 1, Event.write WKind.clearRow clear none,
               Event.write WKind.content [88] (some 5)], 0, some 5) := by
  rfl

/-! ### Hidden lines -/

/-- C6, as stated, fails: when the handle at address 1 is registered twice,
`HideLine` hides its first slot only, and the next `Draw` calls its content function
for the slot at index 1. -/
theorem c6_twice_registered_counterexample :
    twiceX.lines.map (fun x => x.addr) = [1, 1]
    ∧ ∃ t1 t2 : terminator Unit,
      twiceX.HideLine (lineX 1) = some t1
      ∧ t1.hiddenLines = [true, false]
      ∧ t1.Draw = some (t2, none)
      ∧ newEvents t1.trace.length t2.trace
        = [Event.next 1 1, Event.write WKind.clearRow clear none,
           Event.write WKind.content [88] none, Event.write WKind.newline nl none]
      ∧ Event.next 1 (lineX 1 : Line Unit).addr ∈ newEvents t1.trace.length t2.trace :=
  ⟨rfl, _, _, rfl, rfl, rfl, rfl, by decide⟩

/-- C6, amended: for a line `l` registered at exactly one index `i`, `HideLine(l)`
followed by `Draw()` never calls the content function of `l` during that `Draw`, the
clear balance of `l` after the `Draw` is not greater than before, and the registry
keeps its lines in their order. -/
theorem c6_hidden_line_not_drawn {σ : Type} (t : terminator σ) (l : Line σ) (i : Nat)
    (hwf : t.WF) (hoff : 0 ≤ t.offTheBottom)
    (hreg : ∃ x, t.lines[i]? = some x ∧ x.addr = l.addr)
    (huniq : ∀ (j : Nat) (x : Line σ), t.lines[j]? = some x → x.addr = l.addr → j = i) :
    ∃ t1 t2 r, t.HideLine l = some t1 ∧ t1.Draw = some (t2, r)
      ∧ (∀ j : Nat, Event.next j l.addr ∉ newEvents t1.trace.length t2.trace)
      ∧ (∃ b b2 : Int, t.drawClearBalance[i]? = some b ∧ t2.drawClearBalance[i]? = some b2
          ∧ b2 ≤ b)
      ∧ t1.lines = t.lines ∧ t2.lines = t.lines := by
  obtain ⟨hh, hb⟩ := hwf
  obtain ⟨x, hx, hxa⟩ := hreg
  have hi : i < t.lines.length := by
    by_contra hcon
    rw [List.getElem?_eq_none (by omega)] at hx
    cases hx
  obtain ⟨j, hj, hfind, ⟨y, hy, hya⟩, -⟩ := findLine_present t l ⟨x, List.getElem?_mem hx, hxa⟩
  have hji : j = i := huniq j y hy hya
  subst hji
  have hih : j < t.hiddenLines.length := by omega
  have hib : j < t.drawClearBalance.length := by omega
  have hhide : t.HideLine l = some { t with hiddenLines := t.hiddenLines.set j true } := by
    simp [terminator.HideLine, hfind, setAt, hih]
  have hwf1 : ({ t with hiddenLines := t.hiddenLines.set j true } : terminator σ).WF :=
    ⟨by simp only [List.length_set]; exact hh, hb⟩
  obtain ⟨t2, r, evs, hD, -, hl2, -, -, -, htr, -, hev, hbal⟩ :=
    Draw_spec { t with hiddenLines := t.hiddenLines.set j true } hwf1 hoff
  have hhid : (t.hiddenLines.set j true)[j]? = some true := by
    simp [List.getElem?_set, hih]
  refine ⟨_, t2, r, hhide, hD, ?_, ?_, rfl, hl2⟩
  · intro k hmem
    have hmem2 : Event.next k l.addr ∈ evs := by
      simpa [newEvents, htr] using hmem
    rcases hev _ hmem2 with hc | hd
    · exact hc
    · obtain ⟨⟨z, hz, hza⟩, hnot⟩ := hd
      have hkj : k = j := huniq k z hz hza
      subst hkj
      exact hnot hhid
  · obtain ⟨b1, hb1, hle⟩ := hbal j t.drawClearBalance[j] hhid (List.getElem?_eq_getElem hib)
    exact ⟨t.drawClearBalance[j], b1, List.getElem?_eq_getElem hib, hb1, hle⟩

/-- C6, amended, applied to a registry of one line. -/
theorem c6_hidden_line_not_drawn_witness :
    ((New okSink ()).AddLine (lineX 1)).WF
    ∧ 0 ≤ ((New okSink ()).AddLine (lineX 1)).offTheBottom
    ∧ (∃ x, ((New okSink ()).AddLine (lineX 1)).lines[0]? = some x
        ∧ x.addr = (lineX 1 : Line Unit).addr)
    ∧ (∀ (j : Nat) (x : Line Unit), ((New okSink ()).AddLine (lineX 1)).lines[j]? = some x →
        x.addr = (lineX 1 : Line Unit).addr → j = 0)
    ∧ ∃ t1 t2 r, ((New okSink ()).AddLine (lineX 1)).HideLine (lineX 1) = some t1
      ∧ t1.Draw = some (t2, r)
      ∧ (∀ j : Nat, Event.next j (lineX 1 : Line Unit).addr
          ∉ newEvents t1.trace.length t2.trace)
      ∧ (∃ b b2 : Int, ((New okSink ()).AddLine (lineX 1)).drawClearBalance[0]? = some b
          ∧ t2.drawClearBalance[0]? = some b2 ∧ b2 ≤ b)
      ∧ t1.lines = ((New okSink ()).AddLine (lineX 1)).lines
      ∧ t2.lines = ((New okSink ()).AddLine (lineX 1)).lines :=
  have huniq : ∀ (j : Nat) (x : Line Unit), ((New okSink ()).AddLine (lineX 1)).lines[j]? = some x →
      x.addr = (lineX 1 : Line Unit).addr → j = 0 := by
    intro j x hx _
    cases j with
    | zero => rfl
    | succ k => simp [terminator.AddLine, New] at hx
  ⟨⟨rfl, rfl⟩, by decide, ⟨lineX 1, rfl, rfl⟩, huniq,
    c6_hidden_line_not_drawn ((New okSink ()).AddLine (lineX 1)) (lineX 1) 0 ⟨rfl, rfl⟩
      (by decide) ⟨lineX 1, rfl, rfl⟩ huniq⟩

/-! ### Input between two draws -/

theorem stream_append (xs ys : List Event) : stream (xs ++ ys) = stream xs ++ stream ys := by
  induction xs with
  | nil => rfl
  | cons x rest ih =>
    cases x with
    | write k p err => simp [stream, ih]
    | next j a => simpa [stream] using ih
    | manual j a => simpa [stream] using ih

theorem countKind_append (k : WKind) (xs ys : List Event) :
    countKind k (xs ++ ys) = countKind k xs + countKind k ys := by
  induction xs with
  | nil => simp [countKind]
  | cons x rest ih =>
    cases x with
    | write k1 p err => simp [countKind, ih]; omega
    | next j a => simpa [countKind] using ih
    | manual j a => simpa [countKind] using ih

theorem newEvents_append (xs ys : List Event) : newEvents xs.length (xs ++ ys) = ys := by
  simp [newEvents]

/-- The state `drawnX` is the state after the first `Draw` of the registry `[lineX 1]`. -/
theorem drawnX_eq : ((New okSink ()).AddLine (lineX 1)).Draw = some (drawnX, none) := rfl

theorem rows_append {σ : Type} (xs ys : List (Line σ)) : rows (xs ++ ys) = rows xs + rows ys := by
  induction xs with
  | nil => simp [rows]
  | cons x rest ih => simp [rows, ih]; omega

theorem rows_take_succ {σ : Type} (ls : List (Line σ)) (i : Nat) (line : Line σ)
    (h : ls[i]? = some line) :
    rows (ls.take (i + 1)) = rows (ls.take i) + (if line.GetOptions.WithNextLine then 1 else 0) := by
  rw [List.take_succ, rows_append, h]
  simp [rows]

theorem rows_eq_zero {σ : Type} (ls : List (Line σ)) (h : rows ls = 0) :
    ∀ l ∈ ls, ¬ l.GetOptions.WithNextLine = true := by
  induction ls with
  | nil => intro l hl; cases hl
  | cons x rest ih =>
    intro l hl
    simp only [rows] at h
    rcases List.mem_cons.mp hl with rfl | hl
    · intro hw
      rw [hw] at h
      simp at h
    · exact ih (by omega) l hl

theorem register_spec {σ : Type} (ls : List (Line σ)) :
    ∀ t : terminator σ,
      (register t ls).lines = t.lines ++ ls
      ∧ (register t ls).hiddenLines = t.hiddenLines ++ List.replicate ls.length false
      ∧ (register t ls).drawClearBalance = t.drawClearBalance ++ List.replicate ls.length 0
      ∧ (register t ls).Writer = t.Writer ∧ (register t ls).cursor = t.cursor
      ∧ (register t ls).offTheBottom = t.offTheBottom ∧ (register t ls).trace = t.trace := by
  induction ls with
  | nil => intro t; simp [register]
  | cons l rest ih =>
    intro t
    obtain ⟨h1, h2, h3, h4, h5, h6, h7⟩ := ih (t.AddLine l)
    have e : register t (l :: rest) = register (t.AddLine l) rest := rfl
    rw [e]
    refine ⟨?_, ?_, ?_, h4, h5, h6, h7⟩
    · rw [h1]; simp [terminator.AddLine]
    · rw [h2]; simp [terminator.AddLine, List.replicate_succ]
    · rw [h3]; simp [terminator.AddLine, List.replicate_succ]

theorem Mid_fresh {σ : Type} (ls : List (Line σ)) (w : List Bytes → Bytes → Option Err)
    (env : σ) : Mid ls w 0 (register (New w env) ls) := by
  obtain ⟨h1, h2, h3, h4, h5, h6, -⟩ := register_spec ls (New w env)
  refine ⟨by rw [h1]; rfl, by rw [h4]; rfl, by rw [h2]; rfl, by rw [h3]; simp [New],
    by rw [h6]; rfl, by rw [h5]; simp [rows, New], ?_⟩
  intro j l hj _
  have hlt : j < ls.length := by
    by_contra hcon
    rw [List.getElem?_eq_none (by omega)] at hj
    cases hj
  rw [h3]
  simp [New, List.getElem?_replicate, hlt]

theorem Mid_index {σ : Type} {ls : List (Line σ)} {j : Nat} {l : Line σ} (h : ls[j]? = some l) :
    j < ls.length := by
  by_contra hcon
  rw [List.getElem?_eq_none (by omega)] at h
  cases h

/-- From `Mid k` to `Mid (k + 1)`: the step of `draw` for the line at index `k`. -/
theorem Mid_up {σ : Type} {ls : List (Line σ)} {w : List Bytes → Bytes → Option Err} {k : Nat}
    {t t1 : terminator σ} {line : Line σ} (hm : Mid ls w k t) (hline : ls[k]? = some line)
    (hl : t1.lines = t.lines) (hW : t1.Writer = t.Writer) (hh : t1.hiddenLines = t.hiddenLines)
    (hoff : t1.offTheBottom = t.offTheBottom)
    (hlen : t1.drawClearBalance.length = t.drawClearBalance.length)
    (hother : ∀ j : Nat, j ≠ k → t1.drawClearBalance[j]? = t.drawClearBalance[j]?)
    (hat : line.GetOptions.WithNextLine = true →
      ∀ b, t.drawClearBalance[k]? = some b → t1.drawClearBalance[k]? = some (b + 1))
    (hcur : t1.cursor = t.cursor + (if line.GetOptions.WithNextLine then 1 else 0)) :
    Mid ls w (k + 1) t1 := by
  obtain ⟨m1, m2, m3, m4, m5, m6, m7⟩ := hm
  refine ⟨hl.trans m1, hW.trans m2, hh.trans m3, hlen.trans m4, hoff.trans m5, ?_, ?_⟩
  · rw [hcur, m6, rows_take_succ ls k line hline]
    split <;> simp
  · intro j l hj hw
    by_cases hjk : j = k
    · subst hjk
      rw [hline] at hj
      cases hj
      have := hat hw _ (m7 j line hline hw)
      simpa using this
    · rw [hother j hjk, m7 j l hj hw]
      have : (j < k) = (j < k + 1) := by
        apply propext; constructor <;> intro h <;> omega
      simp only [this]

/-- From `Mid (k + 1)` to `Mid k`: the step of `clear` for the line at index `k`. -/
theorem Mid_down {σ : Type} {ls : List (Line σ)} {w : List Bytes → Bytes → Option Err} {k : Nat}
    {t t1 : terminator σ} {line : Line σ} (hm : Mid ls w (k + 1) t) (hline : ls[k]? = some line)
    (hl : t1.lines = t.lines) (hW : t1.Writer = t.Writer) (hh : t1.hiddenLines = t.hiddenLines)
    (hoff : t1.offTheBottom = t.offTheBottom)
    (hlen : t1.drawClearBalance.length = t.drawClearBalance.length)
    (hother : ∀ j : Nat, j ≠ k → t1.drawClearBalance[j]? = t.drawClearBalance[j]?)
    (hat : line.GetOptions.WithNextLine = true →
      ∀ b, t.drawClearBalance[k]? = some b → t1.drawClearBalance[k]? = some (b + -1))
    (hcur : t1.cursor = t.cursor - (if line.GetOptions.WithNextLine then 1 else 0)) :
    Mid ls w k t1 := by
  obtain ⟨m1, m2, m3, m4, m5, m6, m7⟩ := hm
  refine ⟨hl.trans m1, hW.trans m2, hh.trans m3, hlen.trans m4, hoff.trans m5, ?_, ?_⟩
  · rw [hcur, m6, rows_take_succ ls k line hline]
    split <;> simp
  · intro j l hj hw
    by_cases hjk : j = k
    · subst hjk
      rw [hline] at hj
      cases hj
      have := hat hw _ (m7 j line hline hw)
      simpa using this
    · rw [hother j hjk, m7 j l hj hw]
      have : (j < k + 1) = (j < k) := by
        apply propext; constructor <;> intro h <;> omega
      simp only [this]

theorem drawLine_steady {σ : Type} (ls : List (Line σ)) (w : List Bytes → Bytes → Option Err)
    (k : Nat) (t : terminator σ) (line : Line σ) (hok : ∀ h p, w h p = none)
    (hm : Mid ls w k t) (hline : ls[k]? = some line) (hst : Steady line) :
    ∃ t1 evs, t.drawLine k line = some (t1, none) ∧ Mid ls w (k + 1) t1
      ∧ t1.trace = t.trace ++ evs
      ∧ countKind WKind.newline evs = (if line.GetOptions.WithNextLine then 1 else 0) := by
  have hk : k < ls.length := Mid_index hline
  obtain ⟨m1, m2, m3, m4, m5, m6, m7⟩ := id hm
  have hhid : t.hiddenLines[k]? = some false := by
    rw [m3]; simp [List.getElem?_replicate, hk]
  have hne : t.hiddenLines ≠ [] := by
    intro h; rw [h] at hhid; simp at hhid
  have hib : k < t.drawClearBalance.length := by omega
  obtain ⟨hmc, f, r, hnext, hstatic, hwnl⟩ := hst
  have hWr : ∀ h p, t.Writer h p = none := by rw [m2]; exact hok
  obtain ⟨ys, hys, hlen, hat, hother⟩ := addAt_spec t.drawClearBalance k 1 hib
  have hat2 : ∀ b, t.drawClearBalance[k]? = some b → ys[k]? = some (b + 1) := by
    intro b hb
    rw [List.getElem?_eq_getElem hib] at hb
    cases hb
    exact hat
  by_cases hw : line.GetOptions.WithNextLine = true
  · obtain ⟨p, hr, hp⟩ := hwnl hw
    have hfp : ∀ e, (f e).1 = some p := fun e => (hstatic e).trans hr
    refine ⟨{ t with
              env := (f t.env).2, drawClearBalance := ys, cursor := t.cursor + 1,
              trace := t.trace ++ [Event.next k line.addr,
                Event.write WKind.clearRow Terminator.clear none,
                Event.write WKind.content p none, Event.write WKind.newline nl none] },
      _, ?_, ?_, rfl, ?_⟩
    · simp [terminator.drawLine, terminator.drawContent, Line.Next, Gen.call, terminator.Write,
        terminator.record, hne, hhid, hnext, hfp, hp, hWr, hys, hw]
    · exact Mid_up hm hline rfl rfl rfl rfl hlen hother (fun _ => hat2) (by simp [hw])
    · simp [countKind, hw]
  · have hcur : t.cursor = t.cursor + (if line.GetOptions.WithNextLine = true then 1 else 0) := by
      simp [hw]
    have hnow : line.GetOptions.WithNextLine = true → ∀ b : Int,
        t.drawClearBalance[k]? = some b → t.drawClearBalance[k]? = some (b + 1) :=
      fun h => absurd h hw
    cases hr : r with
    | none =>
      have hfp : ∀ e, (f e).1 = none := fun e => (hstatic e).trans hr
      refine ⟨{ t with
                env := (f t.env).2,
                trace := t.trace ++ [Event.next k line.addr,
                  Event.write WKind.clearRow Terminator.clear none] }, _, ?_, ?_, rfl, ?_⟩
      · simp [terminator.drawLine, terminator.drawContent, Line.Next, Gen.call, terminator.Write,
          terminator.record, hne, hhid, hnext, hfp, hWr, hw]
      · exact Mid_up hm hline rfl rfl rfl rfl rfl (fun _ _ => rfl) hnow hcur
      · simp [countKind, hw]
    | some p =>
      have hfp : ∀ e, (f e).1 = some p := fun e => (hstatic e).trans hr
      by_cases hp : p = spacer
      · refine ⟨{ t with
                  env := (f t.env).2,
                  trace := t.trace ++ [Event.next k line.addr,
                    Event.write WKind.clearRow Terminator.clear none] }, _, ?_, ?_, rfl, ?_⟩
        · simp [terminator.drawLine, terminator.drawContent, Line.Next, Gen.call, terminator.Write,
            terminator.record, hne, hhid, hnext, hfp, hp, hWr, hw]
        · exact Mid_up hm hline rfl rfl rfl rfl rfl (fun _ _ => rfl) hnow hcur
        · simp [countKind, hw]
      · refine ⟨{ t with
                  env := (f t.env).2, drawClearBalance := ys,
                  trace := t.trace ++ [Event.next k line.addr,
                    Event.write WKind.clearRow Terminator.clear none,
                    Event.write WKind.content p none] }, _, ?_, ?_, rfl, ?_⟩
        · simp [terminator.drawLine, terminator.drawContent, Line.Next, Gen.call, terminator.Write,
            terminator.record, hne, hhid, hnext, hfp, hp, hWr, hys, hw]
        · exact Mid_up hm hline rfl rfl rfl rfl hlen hother (fun h => absurd h hw) hcur
        · simp [countKind, hw]

theorem drawFrom_steady {σ : Type} (ls : List (Line σ)) (w : List Bytes → Bytes → Option Err)
    (hok : ∀ h p, w h p = none) (hst : ∀ l ∈ ls, Steady l) :
    ∀ (rest : List (Line σ)) (k : Nat) (t : terminator σ), ls.drop k = rest → Mid ls w k t →
      ∃ t1 evs, terminator.drawFrom rest k t = some (t1, none) ∧ Mid ls w ls.length t1
        ∧ t1.trace = t.trace ++ evs
        ∧ countKind WKind.newline evs + rows (ls.take k) = rows ls := by
  intro rest
  induction rest with
  | nil =>
    intro k t hdrop hm
    have hk : ls.length ≤ k := List.drop_eq_nil_iff.mp hdrop
    have htake : ls.take k = ls := List.take_of_length_le hk
    have htake2 : ls.take ls.length = ls := List.take_length ls
    refine ⟨t, [], rfl, ?_, by simp, by simp [countKind, htake]⟩
    obtain ⟨m1, m2, m3, m4, m5, m6, m7⟩ := hm
    refine ⟨m1, m2, m3, m4, m5, by rw [m6, htake, htake2], ?_⟩
    intro j l hj hwl
    rw [m7 j l hj hwl]
    have hj2 : j < ls.length := Mid_index hj
    have h1 : j < k := by omega
    simp [h1, hj2]
  | cons line more ih =>
    intro k t hdrop hm
    obtain ⟨hline, hdrop2⟩ := drop_eq_cons ls k line more hdrop
    obtain ⟨t1, evs, hstep, hm1, htr, hcnt⟩ :=
      drawLine_steady ls w k t line hok hm hline (hst line (List.getElem?_mem hline))
    obtain ⟨t2, evs2, hrest, hm2, htr2, hcnt2⟩ := ih (k + 1) t1 hdrop2 hm1
    refine ⟨t2, evs ++ evs2, ?_, hm2, by rw [htr2, htr, List.append_assoc], ?_⟩
    · simp only [terminator.drawFrom, hstep, hrest]
    · rw [rows_take_succ ls k line hline] at hcnt2
      have hca : countKind WKind.newline (evs ++ evs2)
          = countKind WKind.newline evs + countKind WKind.newline evs2 := countKind_append _ _ _
      rw [hca, hcnt]
      omega

theorem clearLine_steady {σ : Type} (ls : List (Line σ)) (w : List Bytes → Bytes → Option Err)
    (k : Nat) (t : terminator σ) (line : Line σ) (hok : ∀ h p, w h p = none)
    (hm : Mid ls w (k + 1) t) (hline : ls[k]? = some line) (hst : Steady line) :
    ∃ t1 evs, t.clearLine k = some t1 ∧ Mid ls w k t1 ∧ t1.trace = t.trace ++ evs
      ∧ stream evs = (if line.GetOptions.WithNextLine then cr ++ clear ++ up else [])
      ∧ countKind WKind.generic evs = (if line.GetOptions.WithNextLine then 1 else 0) := by
  have hk : k < ls.length := Mid_index hline
  obtain ⟨m1, m2, m3, m4, m5, m6, m7⟩ := id hm
  have hib : k < t.drawClearBalance.length := by omega
  have hne : t.drawClearBalance ≠ [] := by
    intro h; rw [h] at hib; simp at hib
  have hgetb : t.drawClearBalance[k]? = some t.drawClearBalance[k] :=
    List.getElem?_eq_getElem hib
  have hgetl : t.lines[k]? = some line := by rw [m1]; exact hline
  obtain ⟨hmc, -⟩ := hst
  have hWr : ∀ h p, t.Writer h p = none := by rw [m2]; exact hok
  obtain ⟨ys, hys, hlen, hat, hother⟩ := addAt_spec t.drawClearBalance k (-1) hib
  have hat2 : ∀ b, t.drawClearBalance[k]? = some b → ys[k]? = some (b + -1) := by
    intro b hb
    rw [hgetb] at hb
    cases hb
    exact hat
  by_cases hw : line.GetOptions.WithNextLine = true
  · have hb1 : t.drawClearBalance[k]? = some 1 := by
      have h1 := m7 k line hline hw
      simpa using h1
    refine ⟨{ t with
              cursor := t.cursor - 1, drawClearBalance := ys,
              trace := t.trace ++ [Event.write WKind.generic (cr ++ Terminator.clear ++ up) none] },
      _, ?_, ?_, rfl, ?_, ?_⟩
    · simp [terminator.clearLine, hne, hb1, hgetl, hmc, hw, terminator.Write, terminator.record,
        hWr, hys]
    · exact Mid_down hm hline rfl rfl rfl rfl hlen hother (fun _ => hat2) (by simp [hw])
    · simp [stream, hw]
    · simp [countKind, hw]
  · have hmid : Mid ls w k t :=
      Mid_down hm hline rfl rfl rfl rfl rfl (fun _ _ => rfl) (fun h => absurd h hw)
        (by simp [hw])
    refine ⟨t, [], ?_, hmid, by simp, by simp [stream, hw], by simp [countKind, hw]⟩
    by_cases hskip : t.drawClearBalance[k] ≤ 0
    · simp [terminator.clearLine, hne, hgetb, hskip]
    · simp [terminator.clearLine, hne, hgetb, hskip, hgetl, hmc, hw]

theorem clearLoop_steady {σ : Type} (ls : List (Line σ)) (w : List Bytes → Bytes → Option Err)
    (hok : ∀ h p, w h p = none) (hst : ∀ l ∈ ls, Steady l) :
    ∀ (n : Nat) (t : terminator σ), n ≤ ls.length → Mid ls w n t →
      ∃ t1 evs, terminator.clearLoop n t = some t1 ∧ Mid ls w 0 t1 ∧ t1.trace = t.trace ++ evs
        ∧ stream evs = Repeat (cr ++ clear ++ up) (rows (ls.take n))
        ∧ countKind WKind.generic evs = rows (ls.take n) := by
  intro n
  induction n with
  | zero =>
    intro t _ hm
    exact ⟨t, [], rfl, hm, by simp, by simp [stream, rows, Repeat], by simp [countKind, rows]⟩
  | succ n ih =>
    intro t hn hm
    have hline : ls[n]? = some ls[n] := List.getElem?_eq_getElem (by omega)
    obtain ⟨t1, evs, hstep, hm1, htr, hs, hc⟩ :=
      clearLine_steady ls w n t ls[n] hok hm hline (hst _ (List.getElem?_mem hline))
    obtain ⟨t2, evs2, hrest, hm2, htr2, hs2, hc2⟩ := ih t1 (by omega) hm1
    refine ⟨t2, evs ++ evs2, ?_, hm2, by rw [htr2, htr, List.append_assoc], ?_, ?_⟩
    · simp only [terminator.clearLoop, hstep, hrest]
    · rw [stream_append, hs, hs2, rows_take_succ ls n ls[n] hline]
      by_cases hw : ls[n].GetOptions.WithNextLine = true
      · simp [hw, Repeat]
      · simp [hw]
    · rw [countKind_append, hc, hc2, rows_take_succ ls n ls[n] hline]
      omega

theorem clear_steady {σ : Type} (ls : List (Line σ)) (w : List Bytes → Bytes → Option Err)
    (hok : ∀ h p, w h p = none) (hst : ∀ l ∈ ls, Steady l) (t : terminator σ)
    (hm : Mid ls w ls.length t ∨ Mid ls w 0 t) :
    ∃ t1 evs, t.clear = some t1 ∧ Mid ls w 0 t1 ∧ t1.trace = t.trace ++ evs
      ∧ (Mid ls w ls.length t →
          stream evs = Repeat (cr ++ clear ++ up) (rows ls)
          ∧ countKind WKind.generic evs = rows ls) := by
  have htake : ls.take ls.length = ls := List.take_length ls
  have hzero : ∀ (m1 : t.lines = ls) (m2 : t.Writer = w)
      (m3 : t.hiddenLines = List.replicate ls.length false)
      (m4 : t.drawClearBalance.length = ls.length)
      (hbal : ∀ (j : Nat) (l : Line σ), ls[j]? = some l → l.GetOptions.WithNextLine = true →
        t.drawClearBalance[j]? = some 0),
      Mid ls w 0 ({ t with cursor := 0, offTheBottom := 0 } : terminator σ) := by
    intro m1 m2 m3 m4 hbal
    refine ⟨m1, m2, m3, m4, rfl, by simp [rows], ?_⟩
    intro j l hj hw
    simpa using hbal j l hj hw
  rcases hm with hm | hm
  · obtain ⟨m1, m2, m3, m4, m5, m6, m7⟩ := id hm
    rw [htake] at m6
    by_cases hr : rows ls = 0
    · have hc : t.cursor ≤ 0 := by rw [m6, hr]; simp
      refine ⟨{ t with cursor := 0, offTheBottom := 0 }, [], ?_, ?_, by simp, ?_⟩
      · simp only [terminator.clear, hc, if_true]
      · exact hzero m1 m2 m3 m4 (fun j l hj hw =>
          absurd hw (rows_eq_zero ls hr l (List.getElem?_mem hj)))
      · intro _
        simp [stream, countKind, hr, Repeat]
    · have hc : ¬ t.cursor ≤ 0 := by rw [m6]; omega
      obtain ⟨t0, he, hW0, hl0, hh0, hb0, hc0, hoff0, htr0, -⟩ :=
        clearOffTheBottom_spec t (by rw [m5])
      have hm0 : Mid ls w ls.length t0 :=
        ⟨hl0.trans m1, hW0.trans m2, hh0.trans m3, by rw [hb0]; exact m4, hoff0,
          by rw [hc0, m6, htake], by rw [hb0]; exact m7⟩
      obtain ⟨t1, evs, hloop, hm1, htr1, hs, hcn⟩ :=
        clearLoop_steady ls w hok hst ls.length t0 (le_refl _) hm0
      have hlen0 : t0.lines.length = ls.length := by rw [hl0, m1]
      refine ⟨t1, Event.write WKind.erase (Repeat (cr ++ Terminator.clear ++ up)
          t.offTheBottom.toNat) (t.Writer (written t.trace)
            (Repeat (cr ++ Terminator.clear ++ up) t.offTheBottom.toNat)) :: evs,
        ?_, hm1, by rw [htr1, htr0]; simp, ?_⟩
      · simp only [terminator.clear, hc, if_false, he, hlen0, hloop]
      · intro _
        rw [htake] at hs hcn
        refine ⟨?_, ?_⟩
        · simp [stream, hs, m5, Repeat]
        · simp [countKind, hcn]
  · obtain ⟨m1, m2, m3, m4, m5, m6, m7⟩ := id hm
    have hc : t.cursor ≤ 0 := by rw [m6]; simp [rows]
    refine ⟨{ t with cursor := 0, offTheBottom := 0 }, [], ?_, ?_, by simp, ?_⟩
    · simp only [terminator.clear, hc, if_true]
    · exact hzero m1 m2 m3 m4 (fun j l hj hw => by simpa using m7 j l hj hw)
    · intro hfull
      obtain ⟨-, -, -, -, -, n6, -⟩ := hfull
      rw [htake, m6] at n6
      have hr : rows ls = 0 := by
        have : ((rows ls : Nat) : Int) = 0 := by rw [← n6]; simp [rows]
        exact_mod_cast this
      simp [stream, countKind, hr, Repeat]

theorem draw_steady {σ : Type} (ls : List (Line σ)) (w : List Bytes → Bytes → Option Err)
    (hok : ∀ h p, w h p = none) (hst : ∀ l ∈ ls, Steady l) (t : terminator σ)
    (hm : Mid ls w 0 t) :
    ∃ b evs, t.draw = some (b, none) ∧ Mid ls w ls.length b ∧ b.trace = t.trace ++ evs
      ∧ countKind WKind.newline evs = rows ls := by
  obtain ⟨b, evs, hd, hmb, htr, hcnt⟩ :=
    drawFrom_steady ls w hok hst ls 0 t (by simp) hm
  refine ⟨b, evs, ?_, hmb, htr, by simpa [rows] using hcnt⟩
  simp only [terminator.draw, hm.1, hd]

theorem Draw_steady {σ : Type} (ls : List (Line σ)) (w : List Bytes → Bytes → Option Err)
    (hok : ∀ h p, w h p = none) (hst : ∀ l ∈ ls, Steady l) (t : terminator σ)
    (hm : Mid ls w ls.length t ∨ Mid ls w 0 t) :
    ∃ a1 b e1 e2, t.clear = some a1 ∧ a1.draw = some (b, none) ∧ t.Draw = some (b, none)
      ∧ Mid ls w ls.length b ∧ a1.trace = t.trace ++ e1 ∧ b.trace = a1.trace ++ e2
      ∧ countKind WKind.newline e2 = rows ls
      ∧ (Mid ls w ls.length t →
          stream e1 = Repeat (cr ++ clear ++ up) (rows ls)
          ∧ countKind WKind.generic e1 = rows ls) := by
  obtain ⟨a1, e1, hc, hm1, htr1, hfull⟩ := clear_steady ls w hok hst t hm
  obtain ⟨b, e2, hd, hmb, htr2, hcnt⟩ := draw_steady ls w hok hst a1 hm1
  refine ⟨a1, b, e1, e2, hc, hd, ?_, hmb, htr1, htr2, hcnt, hfull⟩
  simp only [terminator.Draw, hc, hd]

theorem Draws_steady {σ : Type} (ls : List (Line σ)) (w : List Bytes → Bytes → Option Err)
    (env : σ) (hok : ∀ h p, w h p = none) (hst : ∀ l ∈ ls, Steady l) :
    ∀ n : Nat, ∃ t, terminator.Draws n (register (New w env) ls) = some t
      ∧ (Mid ls w ls.length t ∨ Mid ls w 0 t) ∧ (1 ≤ n → Mid ls w ls.length t) := by
  intro n
  induction n with
  | zero =>
    exact ⟨_, rfl, Or.inr (Mid_fresh ls w env), fun h => absurd h (by decide)⟩
  | succ n ih =>
    obtain ⟨t, hn, hm, -⟩ := ih
    obtain ⟨a1, b, e1, e2, -, -, hD, hmb, -⟩ := Draw_steady ls w hok hst t hm
    refine ⟨b, ?_, Or.inl hmb, fun _ => hmb⟩
    simp only [terminator.Draws, hn, hD]

theorem Mid_full_cursor {σ : Type} {ls : List (Line σ)} {w : List Bytes → Bytes → Option Err}
    {t : terminator σ} (hm : Mid ls w ls.length t) : t.cursor = ((rows ls : Nat) : Int) := by
  obtain ⟨-, -, -, -, -, m6, -⟩ := hm
  rw [m6, List.take_length]

/-- A registry of one visible line with static content "X", `WithNextLine` set and a
manual clean-up that clears nothing. The first `Draw` writes one newline and leaves
`cursor = 1`; the clear pass of the second writes no cursor-up sequence, and the
second `Draw` leaves `cursor = 2`. -/
theorem manual_cleanup_registry_drifts :
    ∃ t1 c1 t2 : terminator Unit,
      (register (New okSink ()) [lineManual]).Draw = some (t1, none)
      ∧ countKind WKind.newline t1.trace = 1 ∧ t1.cursor = 1
      ∧ t1.clear = some c1
      ∧ stream (newEvents t1.trace.length c1.trace) = []
      ∧ countKind WKind.generic (newEvents t1.trace.length c1.trace) = 0
      ∧ t1.Draw = some (t2, none) ∧ t2.cursor = 2 ∧ t2.cursor ≠ t1.cursor :=
  ⟨_, _, _, rfl, rfl, rfl, rfl, rfl, rfl, rfl, rfl, by decide⟩

/-- C2: evaluation at the failing input. On a fresh renderer with a sink that never
fails, the registry holding only `Spacer()` and the registry holding only a line whose
content function always returns nil: the first `Draw` writes one newline, leaves
`cursor = 1` and the clear balance at 0; the clear pass of the second `Draw` writes no
cursor-up sequence (no byte at all), where the claim has it write one; and `cursor` is
2 after the second `Draw` and 3 after the third, where the claim has it stay at 1. -/
theorem c2_spacer_registry_drifts :
    (∃ t1 c1 t2 t3 : terminator Unit,
      (register (New okSink ()) [Spacer 1]).Draw = some (t1, none)
      ∧ countKind WKind.newline t1.trace = 1 ∧ t1.cursor = 1 ∧ t1.drawClearBalance = [0]
      ∧ t1.clear = some c1
      ∧ stream (newEvents t1.trace.length c1.trace) = []
      ∧ countKind WKind.generic (newEvents t1.trace.length c1.trace) = 0
      ∧ t1.Draw = some (t2, none) ∧ t2.cursor = 2
      ∧ t2.Draw = some (t3, none) ∧ t3.cursor = 3)
    ∧ (∃ t1 c1 t2 t3 : terminator Unit,
      (register (New okSink ()) [lineNil 1]).Draw = some (t1, none)
      ∧ countKind WKind.newline t1.trace = 1 ∧ t1.cursor = 1 ∧ t1.drawClearBalance = [0]
      ∧ t1.clear = some c1
      ∧ stream (newEvents t1.trace.length c1.trace) = []
      ∧ countKind WKind.generic (newEvents t1.trace.length c1.trace) = 0
      ∧ t1.Draw = some (t2, none) ∧ t2.cursor = 2
      ∧ t2.Draw = some (t3, none) ∧ t3.cursor = 3) :=
  ⟨⟨_, _, _, _, rfl, rfl, rfl, rfl, rfl, rfl, rfl, rfl, rfl, rfl, rfl⟩,
    ⟨_, _, _, _, rfl, rfl, rfl, rfl, rfl, rfl, rfl, rfl, rfl, rfl, rfl⟩⟩

/-- Where the no-drift property does hold: a fresh renderer on a sink that never
fails, with a registry of visible lines that have no manual clean-up and static
content functions whose result is present and not the spacer marker on every line
with `WithNextLine` set. For
every `m`, `Draw` number `m + 1` and `Draw` number `m + 2` return nil; the clear pass
of `Draw` number `m + 2` writes exactly as many generic clear sequences (carriage
return, clear row, cursor up), and nothing else, as the draw pass of `Draw` number
`m + 1` wrote newlines; and `cursor` after both equals `cursor` after the first
`Draw`. -/
theorem no_drift_steady {σ : Type} (w : List Bytes → Bytes → Option Err) (env : σ)
    (ls : List (Line σ)) (m : Nat) (hok : ∀ h p, w h p = none) (hst : ∀ l ∈ ls, Steady l) :
    ∃ t1 a a1 b b1 c : terminator σ,
      terminator.Draws 1 (register (New w env) ls) = some t1
      ∧ terminator.Draws m (register (New w env) ls) = some a
      ∧ a.clear = some a1 ∧ a1.draw = some (b, none)
      ∧ terminator.Draws (m + 1) (register (New w env) ls) = some b
      ∧ b.clear = some b1 ∧ b1.draw = some (c, none)
      ∧ terminator.Draws (m + 2) (register (New w env) ls) = some c
      ∧ stream (newEvents b.trace.length b1.trace)
          = Repeat (cr ++ clear ++ up)
              (countKind WKind.newline (newEvents a1.trace.length b.trace))
      ∧ countKind WKind.generic (newEvents b.trace.length b1.trace)
          = countKind WKind.newline (newEvents a1.trace.length b.trace)
      ∧ b.cursor = t1.cursor ∧ c.cursor = t1.cursor := by
  obtain ⟨t1, h1, -, hm1⟩ := Draws_steady ls w env hok hst 1
  obtain ⟨a, ha, hma, -⟩ := Draws_steady ls w env hok hst m
  obtain ⟨a1, b, e1, e2, hac, had, haD, hmb, htra1, htrb, hcnt, -⟩ :=
    Draw_steady ls w hok hst a hma
  obtain ⟨b1, c, f1, f2, hbc, hbd, hbD, hmc, htrb1, htrc, -, hfull⟩ :=
    Draw_steady ls w hok hst b (Or.inl hmb)
  obtain ⟨hs, hg⟩ := hfull hmb
  have hb : terminator.Draws (m + 1) (register (New w env) ls) = some b := by
    simp only [terminator.Draws, ha, haD]
  have hc : terminator.Draws (m + 2) (register (New w env) ls) = some c := by
    show terminator.Draws (m + 1 + 1) (register (New w env) ls) = some c
    simp only [terminator.Draws, ha, haD, hbD]
  have hn1 : newEvents a1.trace.length b.trace = e2 := by
    rw [htrb]; exact newEvents_append _ _
  have hn2 : newEvents b.trace.length b1.trace = f1 := by
    rw [htrb1]; exact newEvents_append _ _
  refine ⟨t1, a, a1, b, b1, c, h1, ha, hac, had, hb, hbc, hbd, hc, ?_, ?_, ?_, ?_⟩
  · rw [hn1, hn2, hs, hcnt]
  · rw [hn1, hn2, hg, hcnt]
  · rw [Mid_full_cursor hmb, Mid_full_cursor (hm1 (le_refl 1))]
  · rw [Mid_full_cursor hmc, Mid_full_cursor (hm1 (le_refl 1))]

theorem Steady_lineX {σ : Type} (addr : Nat) : Steady (lineX addr : Line σ) :=
  ⟨rfl, fun e => (some [88], e), some [88], rfl, fun _ => rfl, fun _ => ⟨[88], rfl, by decide⟩⟩

/-- No drift on a registry of two lines with content "X": the second and the third
`Draw`. -/
theorem no_drift_steady_eval :
    (∀ h p, okSink h p = none) ∧ (∀ l ∈ [(lineX 1 : Line Unit), lineX 2], Steady l)
    ∧ ∃ t1 a a1 b b1 c : terminator Unit,
      terminator.Draws 1 (register (New okSink ()) [lineX 1, lineX 2]) = some t1
      ∧ terminator.Draws 1 (register (New okSink ()) [lineX 1, lineX 2]) = some a
      ∧ a.clear = some a1 ∧ a1.draw = some (b, none)
      ∧ terminator.Draws (1 + 1) (register (New okSink ()) [lineX 1, lineX 2]) = some b
      ∧ b.clear = some b1 ∧ b1.draw = some (c, none)
      ∧ terminator.Draws (1 + 2) (register (New okSink ()) [lineX 1, lineX 2]) = some c
      ∧ stream (newEvents b.trace.length b1.trace)
          = Repeat (cr ++ clear ++ up)
              (countKind WKind.newline (newEvents a1.trace.length b.trace))
      ∧ countKind WKind.generic (newEvents b.trace.length b1.trace)
          = countKind WKind.newline (newEvents a1.trace.length b.trace)
      ∧ b.cursor = t1.cursor ∧ c.cursor = t1.cursor :=
  have hst : ∀ l ∈ [(lineX 1 : Line Unit), lineX 2], Steady l := by
    intro l hl
    simp at hl
    rcases hl with rfl | rfl
    · exact Steady_lineX 1
    · exact Steady_lineX 2
  ⟨fun _ _ => rfl, hst,
    no_drift_steady okSink () [lineX 1, lineX 2] 1 (fun _ _ => rfl) hst⟩

/-! ### The closures of the input line -/

/-- C16: the line made by `CreateInputLine(symbol)` has `WithNextLine = false`. One
call of its content function returns cursor-down, the symbol, a space, then
clear-to-end iff `needToClearInput` was set, then cursor-restore iff
`hasSavedPosition` was set and `needToClearInput` was not; afterwards
`needToClearInput` is false, `hasSavedPosition` is false if `needToClearInput` was set
and unchanged otherwise, and nothing else changes. Its manual clean-up returns save,
cursor-down, carriage return, clear-row, cursor-up, cursor-up and sets
`hasSavedPosition`. -/
theorem c16_input_line_closures {σ : Type} (t0 t : terminator σ) (addr : Nat) (symbol : Int) :
    (t0.CreateInputLine addr symbol).GetOptions.WithNextLine = false
    ∧ (t0.CreateInputLine addr symbol).next = Gen.input symbol
    ∧ (t0.CreateInputLine addr symbol).GetOptions.ManualCleanup = some Cleanup.input
    ∧ ((Gen.input symbol).call t).1
        = some (down ++ encodeRune symbol ++ [32]
            ++ (if t.needToClearInput then clearToEnd else [])
            ++ (if t.hasSavedPosition && !t.needToClearInput then restore else []))
    ∧ ((Gen.input symbol).call t).2
        = { t with needToClearInput := false,
                   hasSavedPosition := if t.needToClearInput then false
                                       else t.hasSavedPosition }
    ∧ (Cleanup.input.call t).1 = some (save ++ down ++ cr ++ clear ++ up ++ up)
    ∧ (Cleanup.input.call t).2 = { t with hasSavedPosition := true } := by
  refine ⟨rfl, rfl, rfl, ?_, ?_, rfl, rfl⟩
  · cases hn : t.needToClearInput <;> cases hs : t.hasSavedPosition <;>
      simp [Gen.call, CreateInputLine.next, hn, hs]
  · cases t with
    | mk W ls hs bs c o n s e tr =>
      cases n <;> simp [Gen.call, CreateInputLine.next]

/-- The prompt `'>'` is written as the one byte 62. -/
theorem encodeRune_prompt : encodeRune 62 = [62] := by decide

/-! ### The output of the animated wrapper -/

theorem colorAt_eq_paletteAt (colors : List Color) (n : Nat) (hP : colors ≠ []) :
    colorAt colors (n : Int) = some (paletteAt colors n) := by
  rw [colorAt_natCast colors n hP]
  have hlen : 0 < colors.length := List.length_pos.mpr hP
  have hlt : n % colors.length < colors.length := Nat.mod_lt _ hlen
  simp [paletteAt, List.getD, List.getElem?_eq_getElem hlt]

theorem animated_loop_render (colors : List Color) (s : Nat) (hP : colors ≠ []) :
    ∀ (msg : Bytes) (j : Nat),
      ∃ ts, AnimatedLineFromGenerator.loop colors (s : Int) msg j = some ts
        ∧ render ts = animatedSpecBody colors s msg j := by
  intro msg
  induction msg with
  | nil => intro j; exact ⟨[], rfl, rfl⟩
  | cons c rest ih =>
    intro j
    obtain ⟨ts, hts, hr⟩ := ih (j + 1)
    have hc : colorAt colors ((j : Int) + (s : Int)) = some (paletteAt colors (j + s)) := by
      have := colorAt_eq_paletteAt colors (j + s) hP
      simpa using this
    refine ⟨Tok.byte c :: Tok.esc (paletteAt colors (j + s)) :: ts, ?_, ?_⟩
    · simp only [AnimatedLineFromGenerator.loop, hc, hts]
    · simp [render, Tok.bytes, animatedSpecBody, hr]

theorem render_append (xs ys : List Tok) : render (xs ++ ys) = render xs ++ render ys := by
  induction xs with
  | nil => rfl
  | cons x rest ih => simp [render, ih]

theorem animated_writes_render (colors : List Color) (s : Nat) (msg : Bytes) (hP : colors ≠ []) :
    ∃ ts, AnimatedLineFromGenerator.writes colors (s : Int) msg = some ts
      ∧ render ts = animatedSpec colors s msg := by
  obtain ⟨ts, hts, hr⟩ := animated_loop_render colors s hP msg 0
  have hc := colorAt_eq_paletteAt colors ((s : Int) - 1).natAbs hP
  refine ⟨Tok.esc (paletteAt colors ((s : Int) - 1).natAbs) :: ts ++ [Tok.esc Reset], ?_, ?_⟩
  · simp only [AnimatedLineFromGenerator.writes, hc, hts]
  · simp [render, render_append, Tok.bytes, animatedSpec, hr]

/-- C14: with a non-empty palette of size `P`, the closure returned by
`AnimatedLineFromGenerator`, called at shift `s ≥ 0` when the base function returns
`b`, returns `palette[|s - 1| mod P]`, then each byte `b[i]` followed by
`palette[(i + s) mod P]`, then the reset escape; every palette index is in range (the
call does not panic); when the base function returns nil the closure returns nil. -/
theorem c14_animated_output {σ : Type} (g : σ → Option Bytes × σ) (colors : List Color)
    (s : Nat) (e : σ) (hP : colors ≠ []) :
    (∀ b, (g e).1 = some b →
      AnimatedLineFromGenerator.next g colors ((s : Int), e)
        = some (some (animatedSpec colors s b), ((s : Int) + 1, (g e).2)))
    ∧ ((g e).1 = none →
      AnimatedLineFromGenerator.next g colors ((s : Int), e) = some (none, ((s : Int), (g e).2)))
    ∧ ((s : Int) - 1).natAbs % colors.length < colors.length
    ∧ (∀ i : Nat, (i + s) % colors.length < colors.length)
    ∧ (∀ k : Nat, colors[k % colors.length]? = some (paletteAt colors k)) := by
  have hlen : 0 < colors.length := List.length_pos.mpr hP
  refine ⟨?_, ?_, Nat.mod_lt _ hlen, fun i => Nat.mod_lt _ hlen, ?_⟩
  · intro b hb
    obtain ⟨ts, hts, hr⟩ := animated_writes_render colors s b hP
    simp only [AnimatedLineFromGenerator.next, hb, hts, hr]
  · intro hn
    simp only [AnimatedLineFromGenerator.next, hn]
  · intro k
    have hlt : k % colors.length < colors.length := Nat.mod_lt _ hlen
    simp [paletteAt, List.getD, List.getElem?_eq_getElem hlt]

/-- C14 applied to the palette red, green, blue, shift 2 and the base output "ab". -/
theorem c14_animated_output_witness :
    palette3 ≠ []
    ∧ (∀ b, (constAB ()).1 = some b →
      AnimatedLineFromGenerator.next constAB palette3 (((2 : Nat) : Int), ())
        = some (some (animatedSpec palette3 2 b), (((2 : Nat) : Int) + 1, (constAB ()).2)))
    ∧ ((constAB ()).1 = none →
      AnimatedLineFromGenerator.next constAB palette3 (((2 : Nat) : Int), ())
        = some (none, (((2 : Nat) : Int), (constAB ()).2)))
    ∧ (((2 : Nat) : Int) - 1).natAbs % palette3.length < palette3.length
    ∧ (∀ i : Nat, (i + 2) % palette3.length < palette3.length)
    ∧ (∀ k : Nat, palette3[k % palette3.length]? = some (paletteAt palette3 k)) :=
  ⟨by decide, c14_animated_output constAB palette3 2 () (by decide)⟩

/-- The output the specification gives at shift 2 for "ab" on red, green, blue. -/
theorem animatedSpec_eval :
    animatedSpec palette3 2 [97, 98] = Green ++ [97] ++ Blue ++ [98] ++ Red ++ Reset := by
  decide

/-! ### The counter of the animated wrapper -/

theorem next_shift {σ : Type} (g : σ → Option Bytes × σ) (colors : List Color) (s : Nat) (e : σ)
    (hP : colors ≠ []) :
    ∃ r, AnimatedLineFromGenerator.next g colors ((s : Int), e)
      = some (r, (((s + (if (g e).1.isSome then 1 else 0) : Nat) : Int), (g e).2)) := by
  cases hb : (g e).1 with
  | none =>
    refine ⟨none, ?_⟩
    simp [AnimatedLineFromGenerator.next, hb]
  | some b =>
    obtain ⟨ts, hts, -⟩ := animated_writes_spec colors s b hP
    refine ⟨some (render ts), ?_⟩
    simp [AnimatedLineFromGenerator.next, hb, hts]

theorem after_shift {σ : Type} (g : σ → Option Bytes × σ) (colors : List Color)
    (hP : colors ≠ []) :
    ∀ (n s : Nat) (e : σ),
      ∃ st, AnimatedLineFromGenerator.after g colors n ((s : Int), e) = some st
        ∧ st.1 = ((s + presentCount g n e : Nat) : Int) := by
  intro n
  induction n with
  | zero => intro s e; exact ⟨_, rfl, by simp [presentCount]⟩
  | succ n ih =>
    intro s e
    obtain ⟨r, hr⟩ := next_shift g colors s e hP
    obtain ⟨st, hst, h1⟩ := ih (s + (if (g e).1.isSome then 1 else 0)) (g e).2
    refine ⟨st, ?_, ?_⟩
    · simp only [AnimatedLineFromGenerator.after, hr, hst]
    · rw [h1]
      simp only [presentCount]
      congr 1
      omega

/-- C15, as stated, fails: with a base function that returns nil on its first call and
"a" on its second, the counter is still 0 after invocation 0, and invocation 1
writes the colours of shift 0 (green, 'a', red, reset), not those of shift 1. -/
theorem c15_nil_result_counterexample :
    AnimatedLineFromGenerator.after scripted palette3 1 (0, [none, some [97]])
      = some (0, [some [97]])
    ∧ AnimatedLineFromGenerator.invoke scripted palette3 1 (0, [none, some [97]])
      = some (some (Green ++ [97] ++ Red ++ Reset), (1, []))
    ∧ AnimatedLineFromGenerator.writes palette3 0 [97]
      = some [Tok.esc Green, Tok.byte 97, Tok.esc Red, Tok.esc Reset]
    ∧ AnimatedLineFromGenerator.writes palette3 1 [97]
      = some [Tok.esc Red, Tok.byte 97, Tok.esc Green, Tok.esc Reset] := by
  refine ⟨by decide, by decide, by decide, by decide⟩

/-- C15, amended: with a non-empty palette, one invocation of the closure adds 1 to
the counter when the base function returns a content and leaves it as it is when
the base function returns nil; started at 0, the counter used by invocation `n`
(from 0) is the number of earlier invocations whose base result was present. -/
theorem c15_shift_counts_present_results {σ : Type} (g : σ → Option Bytes × σ)
    (colors : List Color) (e0 : σ) (n : Nat) (hP : colors ≠ []) :
    (∃ st, AnimatedLineFromGenerator.after g colors n (0, e0) = some st
      ∧ st.1 = ((presentCount g n e0 : Nat) : Int))
    ∧ (∀ (s : Nat) (e : σ), ∃ r, AnimatedLineFromGenerator.next g colors ((s : Int), e)
        = some (r, (((s + (if (g e).1.isSome then 1 else 0) : Nat) : Int), (g e).2))) := by
  refine ⟨?_, fun s e => next_shift g colors s e hP⟩
  obtain ⟨st, hst, h1⟩ := after_shift g colors hP n 0 e0
  refine ⟨st, by simpa using hst, ?_⟩
  rw [h1]
  simp

/-- C15, amended, applied to the palette red, green, blue and the script nil, "a",
nil: the counter after three invocations. -/
theorem c15_shift_counts_present_results_witness :
    palette3 ≠ []
    ∧ (∃ st, AnimatedLineFromGenerator.after scripted palette3 3 (0, [none, some [97], none])
          = some st
        ∧ st.1 = ((presentCount scripted 3 [none, some [97], none] : Nat) : Int))
    ∧ (∀ (s : Nat) (e : List (Option Bytes)),
        ∃ r, AnimatedLineFromGenerator.next scripted palette3 ((s : Int), e)
          = some (r, (((s + (if (scripted e).1.isSome then 1 else 0) : Nat) : Int),
              (scripted e).2))) :=
  ⟨by decide, c15_shift_counts_present_results scripted palette3 [none, some [97], none] 3
    (by decide)⟩

/-- The script nil, "a", nil holds one present result. -/
theorem presentCount_eval : presentCount scripted 3 [none, some [97], none] = 1 := by
  decide

/-! ### The invariants of the renderer and the clear pass -/

/-- What one round of the loop of `clear` does, case by case. -/
theorem clearLine_cases {σ : Type} (t : terminator σ) (i : Nat) (hi : i < t.lines.length)
    (hb : t.drawClearBalance.length = t.lines.length) :
    ∃ t1 evs l b, t.clearLine i = some t1 ∧ Frame t t1 evs
      ∧ t.lines[i]? = some l ∧ t.drawClearBalance[i]? = some b
      ∧ (∀ j : Nat, j ≠ i → t1.drawClearBalance[j]? = t.drawClearBalance[j]?)
      ∧ ((b ≤ 0 ∧ evs = [] ∧ t1.cursor = t.cursor ∧ t1.drawClearBalance[i]? = some b)
        ∨ (0 < b ∧ (∃ mc err, l.GetOptions.ManualCleanup = some mc
              ∧ evs = [Event.manual i l.addr,
                  Event.write WKind.cleanup
                    ((mc.call (t.record (Event.manual i l.addr))).1.getD []) err])
            ∧ t1.cursor = t.cursor ∧ t1.drawClearBalance[i]? = some (b + -1))
        ∨ (0 < b ∧ l.GetOptions.ManualCleanup = none ∧ l.GetOptions.WithNextLine = true
            ∧ (∃ err, evs = [Event.write WKind.generic (cr ++ clear ++ up) err])
            ∧ t1.cursor = t.cursor - 1 ∧ t1.drawClearBalance[i]? = some (b + -1))
        ∨ (0 < b ∧ l.GetOptions.ManualCleanup = none ∧ l.GetOptions.WithNextLine = false
            ∧ evs = [] ∧ t1.cursor = t.cursor ∧ t1.drawClearBalance[i]? = some b)) := by
  have hib : i < t.drawClearBalance.length := by omega
  have hne : t.drawClearBalance ≠ [] := by
    intro h; rw [h] at hib; simp at hib
  have hgetb : t.drawClearBalance[i]? = some t.drawClearBalance[i] :=
    List.getElem?_eq_getElem hib
  have hgetl : t.lines[i]? = some t.lines[i] := List.getElem?_eq_getElem hi
  by_cases hskip : t.drawClearBalance[i] ≤ 0
  · refine ⟨t, [], _, _, ?_, Frame.refl t, hgetl, hgetb, fun _ _ => rfl,
      Or.inl ⟨hskip, rfl, rfl, hgetb⟩⟩
    simp [terminator.clearLine, hne, hgetb, hskip]
  · have hpos : 0 < t.drawClearBalance[i] := by omega
    cases hmc : t.lines[i].GetOptions.ManualCleanup with
    | some mc =>
      obtain ⟨hfC, hbC, hcC⟩ := Cleanup_call_frame mc (t.record (Event.manual i t.lines[i].addr))
      have h0 : Frame t (t.record (Event.manual i t.lines[i].addr))
          [Event.manual i t.lines[i].addr] := ⟨rfl, rfl, rfl, rfl, rfl, rfl⟩
      obtain ⟨hfW, hbW, hcW, -⟩ :=
        Write_frame (mc.call (t.record (Event.manual i t.lines[i].addr))).2
          WKind.cleanup ((mc.call (t.record (Event.manual i t.lines[i].addr))).1.getD [])
      have hbeq : ((mc.call (t.record (Event.manual i t.lines[i].addr))).2.Write WKind.cleanup
          ((mc.call (t.record (Event.manual i t.lines[i].addr))).1.getD [])).1.drawClearBalance
          = t.drawClearBalance := by
        rw [hbW, hbC]; rfl
      have hceq : ((mc.call (t.record (Event.manual i t.lines[i].addr))).2.Write WKind.cleanup
          ((mc.call (t.record (Event.manual i t.lines[i].addr))).1.getD [])).1.cursor
          = t.cursor := by
        rw [hcW, hcC]; rfl
      obtain ⟨ys, hys, hlen, hat, hother⟩ := addAt_spec t.drawClearBalance i (-1) hib
      have hf := Frame.trans (Frame.trans h0 hfC) hfW
      refine ⟨{ ((mc.call (t.record (Event.manual i t.lines[i].addr))).2.Write WKind.cleanup
          ((mc.call (t.record (Event.manual i t.lines[i].addr))).1.getD [])).1 with
          drawClearBalance := ys }, _, _, _, ?_,
        ⟨hf.Writer, hf.lines, hf.hidden, hlen, hf.off, hf.trace⟩, hgetl, hgetb, hother,
        Or.inr (Or.inl ⟨hpos, ⟨mc, _, hmc, rfl⟩, hceq, hat⟩)⟩
      simp only [terminator.clearLine, hne, if_false, hgetb, hgetl, hmc, hbeq, hys]
      simp [hskip]
    | none =>
      by_cases hwnl : t.lines[i].GetOptions.WithNextLine = true
      · obtain ⟨hfW, hbW, -⟩ := Write_frame t WKind.generic (cr ++ Terminator.clear ++ up)
        obtain ⟨ys, hys, hlen, hat, hother⟩ := addAt_spec t.drawClearBalance i (-1) hib
        refine ⟨{ (t.Write WKind.generic (cr ++ Terminator.clear ++ up)).1 with
            cursor := (t.Write WKind.generic (cr ++ Terminator.clear ++ up)).1.cursor - 1,
            drawClearBalance := ys }, _, _, _, ?_,
          ⟨hfW.Writer, hfW.lines, hfW.hidden, hlen, hfW.off, hfW.trace⟩, hgetl, hgetb, hother,
          Or.inr (Or.inr (Or.inl ⟨hpos, hmc, hwnl, ⟨_, rfl⟩, rfl, hat⟩))⟩
        simp only [terminator.clearLine, hne, if_false, hgetb, hgetl, hmc, hwnl, if_true]
        have : (t.Write WKind.generic (cr ++ Terminator.clear ++ up)).1.drawClearBalance
            = t.drawClearBalance := rfl
        simp only [this, hys]
        simp [hskip]
      · have hwf : t.lines[i].GetOptions.WithNextLine = false := by
          cases h : t.lines[i].GetOptions.WithNextLine
          · rfl
          · exact absurd h hwnl
        refine ⟨t, [], _, _, ?_, Frame.refl t, hgetl, hgetb, fun _ _ => rfl,
          Or.inr (Or.inr (Or.inr ⟨hpos, hmc, hwf, rfl, rfl, hgetb⟩))⟩
        simp [terminator.clearLine, hne, hgetb, hskip, hgetl, hmc, hwnl]

theorem owed_nonneg {σ : Type} :
    ∀ (ls : List (Line σ)) (bs : List Int), (∀ b ∈ bs, 0 ≤ b) → 0 ≤ owed ls bs := by
  intro ls
  induction ls with
  | nil => intro bs _; simp [owed]
  | cons l ls ih =>
    intro bs h
    cases bs with
    | nil => simp [owed]
    | cons b bs =>
      have h1 : 0 ≤ b := h b (by simp)
      have h2 := ih bs (fun x hx => h x (by simp [hx]))
      simp only [owed]
      split <;> omega

theorem owed_set {σ : Type} :
    ∀ (ls : List (Line σ)) (bs : List Int) (i : Nat) (l : Line σ) (b b1 : Int),
      ls[i]? = some l → bs[i]? = some b →
      owed ls (bs.set i b1) = owed ls bs + (if plain l = true then b1 - b else 0) := by
  intro ls
  induction ls with
  | nil => intro bs i l b b1 hl; simp at hl
  | cons x ls ih =>
    intro bs i l b b1 hl hb
    cases bs with
    | nil => simp at hb
    | cons y bs =>
      cases i with
      | zero =>
        simp at hl hb
        subst hl; subst hb
        simp only [List.set_cons_zero, owed]
        split <;> omega
      | succ j =>
        simp at hl hb
        have := ih bs j l b b1 hl hb
        simp only [List.set_cons_succ, owed, this]
        omega

theorem owed_append_zero {σ : Type} (l : Line σ) :
    ∀ (ls : List (Line σ)) (bs : List Int), bs.length = ls.length →
      owed (ls ++ [l]) (bs ++ [0]) = owed ls bs := by
  intro ls
  induction ls with
  | nil =>
    intro bs h
    cases bs with
    | nil => simp [owed]
    | cons b bs => simp at h
  | cons x ls ih =>
    intro bs h
    cases bs with
    | nil => simp at h
    | cons b bs =>
      simp at h
      simp only [List.cons_append, owed, List.append_eq, ih bs h]

theorem owed_splice_le {σ : Type} :
    ∀ (ls : List (Line σ)) (bs : List Int) (i : Nat), (∀ b ∈ bs, 0 ≤ b) →
      owed (ls.take i ++ ls.drop (i + 1)) (bs.take i ++ bs.drop (i + 1)) ≤ owed ls bs := by
  intro ls
  induction ls with
  | nil => intro bs i _; simp [owed]
  | cons x ls ih =>
    intro bs i h
    cases bs with
    | nil => simp [owed]
    | cons b bs =>
      have h1 : 0 ≤ b := h b (by simp)
      have h2 : ∀ y ∈ bs, 0 ≤ y := fun y hy => h y (by simp [hy])
      cases i with
      | zero =>
        simp only [List.take_zero, List.nil_append, List.drop_succ_cons, List.drop_zero, owed]
        split <;> omega
      | succ j =>
        have := ih bs j h2
        simp only [List.take_succ_cons, List.drop_succ_cons, List.cons_append, owed,
          List.append_eq]
        omega

theorem eq_set_of_getElem? (xs ys : List Int) (i : Nat) (v : Int)
    (hlen : ys.length = xs.length) (hat : ys[i]? = some v)
    (hother : ∀ j : Nat, j ≠ i → ys[j]? = xs[j]?) : ys = xs.set i v := by
  apply List.ext_getElem?
  intro j
  by_cases hj : j = i
  · subst hj
    have hlt : j < ys.length := by
      by_contra hc
      rw [List.getElem?_eq_none (by omega)] at hat
      cases hat
    rw [hat, List.getElem?_set_self (by omega)]
  · rw [hother j hj, List.getElem?_set_ne (fun e => hj e.symm)]

/-- A step that leaves the registry as it is and moves one clear balance keeps the
invariant, when the cursor moves at least as far as the balances it covers. -/
theorem Sound_update {σ : Type} {t t1 : terminator σ} {evs : List Event} {i : Nat}
    {l : Line σ} {b b1 : Int} (hs : Sound t) (hf : Frame t t1 evs)
    (hl : t.lines[i]? = some l) (hb : t.drawClearBalance[i]? = some b)
    (hb1 : t1.drawClearBalance[i]? = some b1)
    (hother : ∀ j : Nat, j ≠ i → t1.drawClearBalance[j]? = t.drawClearBalance[j]?)
    (h0 : 0 ≤ b1)
    (hc : (if plain l = true then b1 - b else 0) ≤ t1.cursor - t.cursor) : Sound t1 := by
  obtain ⟨⟨hh, hlen⟩, hoff, hnn, howed⟩ := hs
  have heq := eq_set_of_getElem? t.drawClearBalance t1.drawClearBalance i b1 hf.len hb1 hother
  refine ⟨⟨by rw [hf.hidden, hf.lines]; exact hh, by rw [hf.len, hf.lines]; exact hlen⟩,
    by rw [hf.off]; exact hoff, ?_, ?_⟩
  · intro x hx
    rw [heq] at hx
    rcases List.mem_or_eq_of_mem_set hx with h | h
    · exact hnn x h
    · rw [h]; exact h0
  · rw [hf.lines, heq, owed_set t.lines t.drawClearBalance i l b b1 hl hb]
    omega

theorem plain_WithNextLine {σ : Type} (l : Line σ) (h : plain l = true) :
    l.GetOptions.WithNextLine = true := by
  unfold plain at h
  split at h
  · exact h
  · cases h

theorem plain_no_cleanup {σ : Type} (l : Line σ) (h : plain l = true) :
    l.GetOptions.ManualCleanup = none := by
  unfold plain at h
  split at h
  · assumption
  · cases h

/-- The clear loop keeps the invariant, one round at a time. -/
theorem clearLine_Sound {σ : Type} (t : terminator σ) (i : Nat) (hi : i < t.lines.length)
    (hs : Sound t) :
    ∃ t1 evs, t.clearLine i = some t1 ∧ Frame t t1 evs ∧ Sound t1 := by
  obtain ⟨t1, evs, l, b, hstep, hf, hl, hb, hother, hcase⟩ := clearLine_cases t i hi hs.1.2
  have hb0 : 0 ≤ b := hs.2.2.1 b (List.getElem?_mem hb)
  refine ⟨t1, evs, hstep, hf, ?_⟩
  rcases hcase with ⟨-, -, hc, hb1⟩ | ⟨hpos, ⟨mc, err, hmc, -⟩, hc, hb1⟩
    | ⟨hpos, hmc, hw, -, hc, hb1⟩ | ⟨-, -, -, -, hc, hb1⟩
  · refine Sound_update hs hf hl hb hb1 hother hb0 ?_
    rw [hc]; split <;> omega
  · refine Sound_update hs hf hl hb hb1 hother (by omega) ?_
    have hnp : ¬ plain l = true := by
      intro hp
      rw [plain_no_cleanup l hp] at hmc
      cases hmc
    rw [hc, if_neg hnp]; omega
  · refine Sound_update hs hf hl hb hb1 hother (by omega) ?_
    have hp : plain l = true := by
      unfold plain
      rw [hmc]
      exact hw
    rw [hc, if_pos hp]; omega
  · refine Sound_update hs hf hl hb hb1 hother hb0 ?_
    rw [hc]; split <;> omega

theorem clearLoop_Sound {σ : Type} :
    ∀ (n : Nat) (t : terminator σ), n ≤ t.lines.length → Sound t →
      ∃ t1 evs, terminator.clearLoop n t = some t1 ∧ Frame t t1 evs ∧ Sound t1 := by
  intro n
  induction n with
  | zero =>
    intro t _ hs
    exact ⟨t, [], rfl, Frame.refl t, hs⟩
  | succ n ih =>
    intro t hn hs
    obtain ⟨t1, evs, hstep, hf, hs1⟩ := clearLine_Sound t n (by omega) hs
    obtain ⟨t2, evs2, hrest, hf2, hs2⟩ := ih t1 (by rw [hf.lines]; omega) hs1
    exact ⟨t2, evs ++ evs2, by simp only [terminator.clearLoop, hstep, hrest],
      Frame.trans hf hf2, hs2⟩

/-- Go `clear` keeps the invariant and returns. -/
theorem clear_Sound {σ : Type} (t : terminator σ) (hs : Sound t) :
    ∃ t1, t.clear = some t1 ∧ Sound t1 ∧ t1.lines = t.lines := by
  by_cases hc : t.cursor ≤ 0
  · refine ⟨{ t with cursor := 0, offTheBottom := 0 }, ?_, ?_, rfl⟩
    · simp only [terminator.clear, hc, if_true]
    · obtain ⟨hwf, hoff, hnn, howed⟩ := hs
      exact ⟨hwf, le_refl _, hnn, le_trans howed hc⟩
  · obtain ⟨t0, he, hW0, hl0, hh0, hb0, hc0, hoff0, -⟩ := clearOffTheBottom_spec t hs.2.1
    have hs0 : Sound t0 := by
      obtain ⟨⟨hh, hlen⟩, hoff, hnn, howed⟩ := hs
      refine ⟨⟨by rw [hh0, hl0]; exact hh, by rw [hb0, hl0]; exact hlen⟩,
        by rw [hoff0], by rw [hb0]; exact hnn, by rw [hl0, hb0, hc0]; exact howed⟩
    obtain ⟨t2, evs, hloop, hf, hs2⟩ := clearLoop_Sound t0.lines.length t0 (le_refl _) hs0
    exact ⟨t2, by simp only [terminator.clear, hc, if_false, he, hloop], hs2,
      hf.lines.trans hl0⟩

theorem drawContent_cases {σ : Type} (t : terminator σ) (i : Nat) (next : Option Bytes)
    (b : Int) (hb : t.drawClearBalance[i]? = some b) :
    ∃ t1 r evs db, t.drawContent i next = some (t1, r) ∧ Frame t t1 evs
      ∧ t1.cursor = t.cursor ∧ t1.drawClearBalance[i]? = some (b + db)
      ∧ (∀ j : Nat, j ≠ i → t1.drawClearBalance[j]? = t.drawClearBalance[j]?)
      ∧ (db = 0 ∨ db = 1) ∧ (r ≠ none → db = 0) := by
  have hib : i < t.drawClearBalance.length := by
    by_contra hc
    rw [List.getElem?_eq_none (by omega)] at hb
    cases hb
  have hbi : t.drawClearBalance[i] = b := by
    rw [List.getElem?_eq_getElem hib] at hb
    exact Option.some.inj hb
  have hb00 : t.drawClearBalance[i]? = some (b + 0) := by rw [hb, add_zero]
  cases next with
  | none =>
    exact ⟨t, none, [], 0, rfl, Frame.refl t, rfl, hb00, fun _ _ => rfl, Or.inl rfl,
      fun _ => rfl⟩
  | some p =>
    by_cases hsp : p = spacer
    · exact ⟨t, none, [], 0, by simp [terminator.drawContent, hsp], Frame.refl t, rfl, hb00,
        fun _ _ => rfl, Or.inl rfl, fun _ => rfl⟩
    · cases hw : t.Writer (written t.trace) p with
      | some err =>
        refine ⟨(t.Write WKind.content p).1, some err, _, 0, ?_, (Write_frame t WKind.content p).1,
          rfl, hb00, fun _ _ => rfl, Or.inl rfl, fun _ => rfl⟩
        simp [terminator.drawContent, hsp, terminator.Write, hw]
      | none =>
        obtain ⟨ys, hys, hlen, hat, hother⟩ := addAt_spec t.drawClearBalance i 1 hib
        rw [hbi] at hat
        refine ⟨{ (t.Write WKind.content p).1 with drawClearBalance := ys }, none,
          [Event.write WKind.content p none], 1, ?_, ?_, rfl, hat, hother, Or.inr rfl,
          fun h => absurd rfl h⟩
        · simp [terminator.drawContent, hsp, terminator.Write, hw, hys]
        · exact ⟨rfl, rfl, rfl, hlen, rfl, by simp [terminator.Write, terminator.record, hw]⟩

/-- One round of the draw loop keeps the invariant. -/
theorem drawLine_Sound {σ : Type} (t : terminator σ) (i : Nat) (line : Line σ)
    (hline : t.lines[i]? = some line) (hs : Sound t) :
    ∃ t1 r evs, t.drawLine i line = some (t1, r) ∧ Frame t t1 evs ∧ Sound t1 := by
  have hil : i < t.lines.length := by
    by_contra hc
    rw [List.getElem?_eq_none (by omega)] at hline
    cases hline
  have hi : i < t.hiddenLines.length := by rw [hs.1.1]; exact hil
  have hib : i < t.drawClearBalance.length := by rw [hs.1.2]; exact hil
  have hne : t.hiddenLines ≠ [] := by
    intro h; rw [h] at hi; simp at hi
  have hget : t.hiddenLines[i]? = some t.hiddenLines[i] := List.getElem?_eq_getElem hi
  have hgetb : t.drawClearBalance[i]? = some t.drawClearBalance[i] :=
    List.getElem?_eq_getElem hib
  have hb0 : 0 ≤ t.drawClearBalance[i] := hs.2.2.1 _ (List.getElem?_mem hgetb)
  cases hh : t.hiddenLines[i] with
  | true =>
    rw [hh] at hget
    exact ⟨t, none, [], by simp only [terminator.drawLine, hne, if_false, hget],
      Frame.refl t, hs⟩
  | false =>
    rw [hh] at hget
    obtain ⟨hfN, hbN, hcN⟩ := Next_frame line i t
    obtain ⟨hfW1, hbW, hcW, -⟩ := Write_frame (line.Next i t).2 WKind.clearRow Terminator.clear
    have hf1 := Frame.trans hfN hfW1
    have hb1 : ((line.Next i t).2.Write WKind.clearRow Terminator.clear).1.drawClearBalance[i]?
        = some t.drawClearBalance[i] := by
      rw [hbW, hbN]; exact hgetb
    obtain ⟨t2, r, evs, db, hdc, hf2, hcur, hat, hother, hdb, hr⟩ :=
      drawContent_cases ((line.Next i t).2.Write WKind.clearRow Terminator.clear).1 i
        (line.Next i t).1 _ hb1
    have hcur2 : t2.cursor = t.cursor := by rw [hcur, hcW, hcN]
    have hbal2 : ∀ j : Nat, j ≠ i → t2.drawClearBalance[j]? = t.drawClearBalance[j]? := by
      intro j hj
      rw [hother j hj, hbW, hbN]
    cases r with
    | some err =>
      have hdb0 : db = 0 := hr (by simp)
      refine ⟨t2, some err, _, by simp only [terminator.drawLine, hne, if_false, hget, hdc],
        Frame.trans hf1 hf2, ?_⟩
      refine Sound_update hs (Frame.trans hf1 hf2) hline hgetb hat hbal2 (by omega) ?_
      rw [hcur2, hdb0]; split <;> omega
    | none =>
      by_cases hwnl : line.GetOptions.WithNextLine = true
      · obtain ⟨hfW2, hbW2, -⟩ := Write_frame t2 WKind.newline nl
        have hf3 : Frame t2 { (t2.Write WKind.newline nl).1 with
            cursor := (t2.Write WKind.newline nl).1.cursor + 1 }
            [Event.write WKind.newline nl (t2.Writer (written t2.trace) nl)] :=
          ⟨rfl, rfl, rfl, rfl, rfl, rfl⟩
        have hf := Frame.trans (Frame.trans hf1 hf2) hf3
        refine ⟨{ (t2.Write WKind.newline nl).1 with
                  cursor := (t2.Write WKind.newline nl).1.cursor + 1 }, none, _,
          by simp only [terminator.drawLine, hne, if_false, hget, hdc, hwnl, if_true], hf, ?_⟩
        have hat3 : ({ (t2.Write WKind.newline nl).1 with
            cursor := (t2.Write WKind.newline nl).1.cursor + 1 } : terminator σ).drawClearBalance[i]?
            = some (t.drawClearBalance[i] + db) := by
          show (t2.Write WKind.newline nl).1.drawClearBalance[i]? = _
          rw [hbW2]; exact hat
        refine Sound_update hs hf hline hgetb hat3 ?_
          (by rcases hdb with h | h <;> omega) ?_
        · intro j hj
          show (t2.Write WKind.newline nl).1.drawClearBalance[j]? = _
          rw [hbW2]; exact hbal2 j hj
        · show _ ≤ (t2.Write WKind.newline nl).1.cursor + 1 - t.cursor
          have : (t2.Write WKind.newline nl).1.cursor = t2.cursor := rfl
          rw [this, hcur2]
          rcases hdb with h | h <;> split <;> omega
      · refine ⟨t2, none, _, ?_, Frame.trans hf1 hf2, ?_⟩
        · simp only [terminator.drawLine, hne, if_false, hget, hdc, hwnl]
          simp
        · refine Sound_update hs (Frame.trans hf1 hf2) hline hgetb hat hbal2
            (by rcases hdb with h | h <;> omega) ?_
          have hnp : ¬ plain line = true := fun hp => hwnl (plain_WithNextLine line hp)
          rw [hcur2, if_neg hnp]; omega

theorem drawFrom_Sound {σ : Type} :
    ∀ (ls : List (Line σ)) (i : Nat) (t : terminator σ),
      t.lines.drop i = ls → Sound t →
      ∃ t1 r evs, terminator.drawFrom ls i t = some (t1, r) ∧ Frame t t1 evs ∧ Sound t1 := by
  intro ls
  induction ls with
  | nil =>
    intro i t _ hs
    exact ⟨t, none, [], rfl, Frame.refl t, hs⟩
  | cons line rest ih =>
    intro i t hdrop hs
    obtain ⟨hline, hdrop2⟩ := drop_eq_cons t.lines i line rest hdrop
    obtain ⟨t1, r, evs, hstep, hf, hs1⟩ := drawLine_Sound t i line hline hs
    cases r with
    | some err =>
      exact ⟨t1, some err, evs, by simp only [terminator.drawFrom, hstep], hf, hs1⟩
    | none =>
      obtain ⟨t2, r2, evs2, hrest, hf2, hs2⟩ :=
        ih (i + 1) t1 (by rw [hf.lines]; exact hdrop2) hs1
      exact ⟨t2, r2, evs ++ evs2, by simp only [terminator.drawFrom, hstep, hrest],
        Frame.trans hf hf2, hs2⟩

/-- Go `Draw` returns and keeps the invariant, whatever the sink answers. -/
theorem Draw_Sound {σ : Type} (t : terminator σ) (hs : Sound t) :
    ∃ t1 r, t.Draw = some (t1, r) ∧ Sound t1 ∧ t1.lines = t.lines := by
  obtain ⟨t1, hclear, hs1, hl1⟩ := clear_Sound t hs
  obtain ⟨t2, r, evs, hdraw, hf, hs2⟩ := drawFrom_Sound t1.lines 0 t1 (by simp) hs1
  exact ⟨t2, r, by simp only [terminator.Draw, hclear]; exact hdraw, hs2, hf.lines.trans hl1⟩

theorem findLine_range {σ : Type} (t : terminator σ) (l : Line σ) :
    t.findLine l = -1 ∨ ∃ j : Nat, j < t.lines.length ∧ t.findLine l = (j : Int) := by
  by_cases h : ∃ x ∈ t.lines, x.addr = l.addr
  · obtain ⟨j, hj, hf, -⟩ := findLine_present t l h
    exact Or.inr ⟨j, hj, hf⟩
  · refine Or.inl (findLine_absent t l ?_)
    intro x hx hxa
    exact h ⟨x, hx, hxa⟩

theorem Sound_New {σ : Type} (w : List Bytes → Bytes → Option Err) (env : σ) :
    Sound (New w env) :=
  ⟨⟨rfl, rfl⟩, le_refl _, (fun b hb => by cases hb), le_refl _⟩

theorem Sound_cursor {σ : Type} (t : terminator σ) (hs : Sound t) : 0 ≤ t.cursor :=
  le_trans (owed_nonneg t.lines t.drawClearBalance hs.2.2.1) hs.2.2.2

/-- Every call on the renderer returns and keeps the invariant. -/
theorem step_Sound {σ : Type} (t : terminator σ) (hs : Sound t) (op : Op σ) :
    ∃ t1, t.step op = some t1 ∧ Sound t1 := by
  have hcur := Sound_cursor t hs
  obtain ⟨⟨hh, hlen⟩, hoff, hnn, howed⟩ := hs
  cases op with
  | AddLine l =>
    refine ⟨t.AddLine l, rfl, ⟨?_, ?_⟩, hoff, ?_, ?_⟩
    · simp [terminator.AddLine, hh]
    · simp [terminator.AddLine, hlen]
    · intro b hb
      simp only [terminator.AddLine, List.mem_append, List.mem_singleton] at hb
      rcases hb with h | h
      · exact hnn b h
      · rw [h]
    · show owed (t.lines ++ [l]) (t.drawClearBalance ++ [0]) ≤ t.cursor
      rw [owed_append_zero l t.lines t.drawClearBalance hlen]
      exact howed
  | RemoveLine l =>
    by_cases h1 : t.lines.length ≤ 1
    · refine ⟨{ t with lines := [], hiddenLines := [], drawClearBalance := [] }, ?_,
        ⟨rfl, rfl⟩, hoff, (fun b hb => by cases hb), hcur⟩
      simp [terminator.step, terminator.RemoveLine, h1]
    · rcases findLine_range t l with hf | ⟨i, hi, hf⟩
      · exact ⟨t, by simp [terminator.step, terminator.RemoveLine, h1, hf],
          ⟨hh, hlen⟩, hoff, hnn, howed⟩
      · have hi2 : i < t.hiddenLines.length := by omega
        have hi3 : i < t.drawClearBalance.length := by omega
        refine ⟨{ t with lines := t.lines.take i ++ t.lines.drop (i + 1),
                         hiddenLines := t.hiddenLines.take i ++ t.hiddenLines.drop (i + 1),
                         drawClearBalance :=
                           t.drawClearBalance.take i ++ t.drawClearBalance.drop (i + 1) },
          ?_, ⟨?_, ?_⟩, hoff, ?_, ?_⟩
        · simp [terminator.step, terminator.RemoveLine, h1, hf, splice, hi, hi2, hi3]
        · simp only [List.length_append, List.length_take, List.length_drop]
          omega
        · simp only [List.length_append, List.length_take, List.length_drop]
          omega
        · intro b hb
          simp only [List.mem_append] at hb
          rcases hb with h | h
          · exact hnn b (List.mem_of_mem_take h)
          · exact hnn b (List.mem_of_mem_drop h)
        · exact le_trans (owed_splice_le t.lines t.drawClearBalance i hnn) howed
  | HideLine l =>
    rcases findLine_range t l with hf | ⟨i, hi, hf⟩
    · exact ⟨t, by simp [terminator.step, terminator.HideLine, hf], ⟨hh, hlen⟩, hoff, hnn, howed⟩
    · have hi2 : i < t.hiddenLines.length := by omega
      refine ⟨{ t with hiddenLines := t.hiddenLines.set i true }, ?_, ⟨?_, hlen⟩, hoff, hnn,
        howed⟩
      · simp [terminator.step, terminator.HideLine, hf, setAt, hi2]
      · simp [hh]
  | ShowLine l =>
    by_cases hnil : t.hiddenLines = []
    · exact ⟨t, by simp [terminator.step, terminator.ShowLine, hnil], ⟨hh, hlen⟩, hoff, hnn,
        howed⟩
    · rcases findLine_range t l with hf | ⟨i, hi, hf⟩
      · exact ⟨t, by simp [terminator.step, terminator.ShowLine, hnil, hf], ⟨hh, hlen⟩, hoff,
          hnn, howed⟩
      · have hi2 : i < t.hiddenLines.length := by omega
        refine ⟨{ t with hiddenLines := t.hiddenLines.set i false }, ?_, ⟨?_, hlen⟩, hoff, hnn,
          howed⟩
        · simp [terminator.step, terminator.ShowLine, hnil, hf, setAt, hi2]
        · simp [hh]
  | HadInput =>
    refine ⟨t.HadInput, rfl, ⟨hh, hlen⟩, ?_, hnn, ?_⟩
    · show 0 ≤ t.offTheBottom + 1
      omega
    · show owed t.lines t.drawClearBalance ≤ t.cursor + 1
      omega
  | Draw =>
    obtain ⟨t1, r, hD, hs1, -⟩ := Draw_Sound t ⟨⟨hh, hlen⟩, hoff, hnn, howed⟩
    exact ⟨t1, by simp [terminator.step, hD], hs1⟩
  | caller f =>
    exact ⟨{ t with env := f t.env }, rfl, ⟨hh, hlen⟩, hoff, hnn, howed⟩

/-- Every sequence of calls returns and keeps the invariant. -/
theorem run_Sound {σ : Type} :
    ∀ (ops : List (Op σ)) (t : terminator σ), Sound t →
      ∃ t1, t.run ops = some t1 ∧ Sound t1 := by
  intro ops
  induction ops with
  | nil => intro t hs; exact ⟨t, rfl, hs⟩
  | cons op ops ih =>
    intro t hs
    obtain ⟨t1, hstep, hs1⟩ := step_Sound t hs op
    obtain ⟨t2, hrun, hs2⟩ := ih t1 hs1
    exact ⟨t2, by simp only [terminator.run, hstep, hrun], hs2⟩

theorem drawnBoth_eq :
    (((New okSink ()).AddLine (lineX 1)).AddLine ((New okSink ()).CreateInputLine 2 62)).Draw
      = some (drawnBoth, none) := rfl

/-- C11: in every state reached from `New(w)` by calls of `AddLine`, `RemoveLine`,
`HideLine`, `ShowLine`, `HadInput` and `Draw`, whatever the sink answers to the writes
and whatever the caller does to its own variables between the calls, the sequences
`lines`, `hiddenLines` and `drawClearBalance` have one length, every index below
`len(lines)` is in range in `hiddenLines` and in `drawClearBalance`, and a `Draw` from
that state makes no access out of range: it returns. -/
theorem c11_parallel_slices (σ : Type) (w : List Bytes → Bytes → Option Err) (env : σ)
    (ops : List (Op σ)) :
    ∃ t : terminator σ, (New w env).run ops = some t
      ∧ t.hiddenLines.length = t.lines.length
      ∧ t.drawClearBalance.length = t.lines.length
      ∧ (∀ i : Nat, i < t.lines.length →
          (t.hiddenLines[i]?).isSome = true ∧ (t.drawClearBalance[i]?).isSome = true)
      ∧ ∃ r, t.Draw = some r := by
  obtain ⟨t, hrun, hs⟩ := run_Sound ops (New w env) (Sound_New w env)
  obtain ⟨t1, r, hD, -, -⟩ := Draw_Sound t hs
  refine ⟨t, hrun, hs.1.1, hs.1.2, ?_, ⟨(t1, r), hD⟩⟩
  intro i hi
  have h1 : i < t.hiddenLines.length := by rw [hs.1.1]; exact hi
  have h2 : i < t.drawClearBalance.length := by rw [hs.1.2]; exact hi
  rw [List.getElem?_eq_getElem h1, List.getElem?_eq_getElem h2]
  exact ⟨rfl, rfl⟩

/-- C12: in every state reached from `New(w)` by calls of `AddLine`, `RemoveLine`,
`HideLine`, `ShowLine`, `HadInput` and `Draw` (the options of a line are part of the
line and do not change), `cursor >= 0` and `drawClearBalance[i] >= 0` at every index
`i`. -/
theorem c12_counters_not_negative (σ : Type) (w : List Bytes → Bytes → Option Err) (env : σ)
    (ops : List (Op σ)) :
    ∃ t : terminator σ, (New w env).run ops = some t
      ∧ 0 ≤ t.cursor
      ∧ ∀ (i : Nat) (b : Int), t.drawClearBalance[i]? = some b → 0 ≤ b := by
  obtain ⟨t, hrun, hs⟩ := run_Sound ops (New w env) (Sound_New w env)
  exact ⟨t, hrun, Sound_cursor t hs, fun i b hb => hs.2.2.1 b (List.getElem?_mem hb)⟩

/-- The clear pass from `drawnBoth`: the producer of the input line (index 1) is
called, then the generic sequence is written for the plain line (index 0); both clear
balances end at 0 and `cursor` at 0. -/
theorem drawnBoth_clear_eval :
    due drawnBoth 2 = [1]
    ∧ (drawnBoth.clear).map (fun t1 =>
        (newEvents drawnBoth.trace.length t1.trace, t1.drawClearBalance, t1.cursor))
      = some ([Event.write WKind.erase [] none, Event.manual 1 2,
               Event.write WKind.cleanup (save ++ down ++ cr ++ clear ++ up ++ up) none,
               Event.write WKind.generic (cr ++ clear ++ up) none], [0, 0], 0) := by
  refine ⟨by decide, rfl⟩

/-- A session of calls from `New`, evaluated: two lines registered, drawn, one key
pressed, drawn again, the first line removed. -/
theorem run_eval :
    ((New okSink ()).run [Op.AddLine (lineX 1), Op.AddLine ((New okSink ()).CreateInputLine 2 62),
        Op.Draw, Op.HadInput, Op.Draw, Op.RemoveLine (lineX 1)]).map
      (fun t => (t.lines.map (fun l => l.addr), t.hiddenLines, t.drawClearBalance, t.cursor))
      = some ([2], [false], [1], 2) := by
  rfl

end Terminator

/-! The guessing game: what a sequence of guesses leads to. -/

namespace Hangman

theorem mask_length (att : Nat → Bool) (w : Str) : (mask att w).length = 2 * w.length := by
  induction w with
  | nil => rfl
  | cons c rest ih => simp [mask, ih]; omega

theorem mask_append (att : Nat → Bool) (u w : Str) : mask att (u ++ w) = mask att u ++ mask att w := by
  induction u with
  | nil => rfl
  | cons c rest ih => simp [mask, ih]

theorem blank_eq_mask (w : Str) : blank w.length = mask (fun _ => false) w := by
  induction w with
  | nil => rfl
  | cons c rest ih => simp [blank, mask, ih]

theorem mask_getElem (att : Nat → Bool) (w : Str) (i : Nat) (c : Nat) (h : w[i]? = some c) :
    (mask att w)[2 * i]? = some (if att (c - 97) then c else underscore)
    ∧ (mask att w)[2 * i + 1]? = some space := by
  induction w generalizing i with
  | nil => simp at h
  | cons x rest ih =>
    cases i with
    | zero =>
      simp at h
      subst h
      simp [mask]
    | succ j =>
      simp at h
      obtain ⟨h1, h2⟩ := ih j h
      have e1 : 2 * (j + 1) = (2 * j + 1) + 1 := by omega
      have e2 : 2 * (j + 1) + 1 = (2 * j + 1 + 1) + 1 := by omega
      refine ⟨?_, ?_⟩
      · show (mask att (x :: rest))[2 * (j + 1)]? = _
        rw [e1]
        simp only [mask, List.getElem?_cons_succ]
        exact h1
      · show (mask att (x :: rest))[2 * (j + 1) + 1]? = _
        rw [e2]
        simp only [mask, List.getElem?_cons_succ]
        exact h2

theorem contains_true_iff (w : Str) (x : Nat) : w.contains x = true ↔ x ∈ w := by
  simp [List.contains]

theorem contains_false_iff (w : Str) (x : Nat) : w.contains x = false ↔ x ∉ w := by
  simp [List.contains]

theorem mask_contains_underscore (att : Nat → Bool) (w : Str) (hw : Lowercase w) :
    (mask att w).contains underscore = true ↔ ∃ c ∈ w, att (c - 97) = false := by
  induction w with
  | nil => simp [mask]
  | cons x rest ih =>
    have hx : 97 ≤ x ∧ x ≤ 122 := hw x (List.mem_cons_self _ _)
    have hrest : Lowercase rest := fun c hc => hw c (List.mem_cons_of_mem _ hc)
    have ih2 := ih hrest
    rw [contains_true_iff] at ih2 ⊢
    have h2 : underscore ≠ space := by decide
    cases hatt : att (x - 97)
    · simp [mask, hatt]
    · have h1 : underscore ≠ x := by simp only [underscore]; omega
      simp only [mask, hatt, if_true, List.mem_cons, h1, h2, false_or, ih2]
      constructor
      · rintro ⟨c, hc, hcf⟩
        exact ⟨c, Or.inr hc, hcf⟩
      · rintro ⟨c, hc | hc, hcf⟩
        · subst hc; rw [hatt] at hcf; cases hcf
        · exact ⟨c, hc, hcf⟩

theorem loop_spec (att : Nat → Bool) (g : Nat) (hg : 97 ≤ g) (hatt : att (g - 97) = false) :
    ∀ (rest pre : Str), Lowercase (pre ++ rest) →
      calculateNextState.loop (mask att (pre ++ rest)) g rest pre.length
        = some (mask (fun k => if k = g - 97 then true else att k) rest, rest.contains g) := by
  intro rest
  induction rest with
  | nil => intro pre _; rfl
  | cons c more ih =>
    intro pre hw
    have hc : 97 ≤ c ∧ c ≤ 122 := hw c (by simp)
    have hidx : (mask att (pre ++ c :: more))[pre.length * 2]?
        = some (if att (c - 97) then c else underscore) := by
      have hget : (pre ++ c :: more)[pre.length]? = some c := by
        rw [List.getElem?_append_right (le_refl _)]
        simp
      have := (mask_getElem att (pre ++ c :: more) pre.length c hget).1
      rw [Nat.mul_comm]
      exact this
    have hrec := ih (pre ++ [c]) (by simpa using hw)
    simp only [List.append_assoc, List.singleton_append, List.length_append,
      List.length_singleton] at hrec
    simp only [calculateNextState.loop, hidx, hrec]
    cases hac : att (c - 97)
    · by_cases hcg : c = g
      · subst hcg
        simp [mask, underscore]
      · have hne : ¬ c - 97 = g - 97 := by omega
        have hne2 : ¬ g = c := fun h => hcg h.symm
        simp [mask, hcg, hne, hac, List.contains_cons, hne2]
    · have hcu : c ≠ underscore := by simp [underscore]; omega
      have hcg : ¬ g = c := by
        intro h; subst h; rw [hatt] at hac; cases hac
      simp [mask, hac, hcu, List.contains_cons, hcg]

theorem wrongBelow_le (att : Nat → Bool) (w : Str) (n : Nat) : wrongBelow att w n ≤ n := by
  induction n with
  | zero => simp [wrongBelow]
  | succ n ih =>
    simp only [wrongBelow]
    split <;> omega

theorem wrongBelow_update (att : Nat → Bool) (w : Str) (i : Nat) (hatt : att i = false) (n : Nat) :
    wrongBelow (fun k => if k = i then true else att k) w n
      = wrongBelow att w n + (if i < n ∧ w.contains (i + 97) = false then 1 else 0) := by
  induction n with
  | zero => simp [wrongBelow]
  | succ n ih =>
    simp only [wrongBelow, ih]
    by_cases hni : n = i
    · subst hni
      cases hc : w.contains (n + 97) <;> simp [hatt, hc]
    · have h1 : (i < n + 1) = (i < n) := by
        apply propext; constructor <;> intro h <;> omega
      simp only [hni, if_false, h1]
      omega

theorem isLetter_iff (g : Nat) : isLetter g = true ↔ (97 ≤ lower g ∧ lower g ≤ 122) := by
  unfold isLetter lower
  by_cases h : 65 ≤ g ∧ g ≤ 90
  · simp [h]
  · simp only [h, if_false]
    simp only [Bool.or_eq_true, Bool.and_eq_true, decide_eq_true_eq]
    constructor
    · rintro (h1 | h1)
      · exact absurd h1 h
      · exact h1
    · intro h1; exact Or.inr h1

theorem isLetter_false_iff (g : Nat) : isLetter g = false ↔ (lower g < 97 ∨ lower g > 122) := by
  have := isLetter_iff g
  cases hl : isLetter g
  · rw [hl] at this
    simp at this
    simp
    by_contra hcon
    push_neg at hcon
    have := this hcon.1
    omega
  · rw [hl] at this
    have h2 := this.mp rfl
    simp
    omega

theorem Played_new (word : Str) : Played word [] (newGame word) := by
  refine ⟨rfl, blank_eq_mask word, ?_, ?_⟩
  · intro k
    simp [newGame]
  · have hz : ∀ n, wrongBelow (fun _ => false) word n = 0 := by
      intro n
      induction n with
      | zero => rfl
      | succ n ih => simp [wrongBelow, ih]
    simp [newGame, hz]

theorem Guess_step (word : Str) (done : List Nat) (h : hangman) (g : Nat) (hw : Lowercase word)
    (hp : Played word done h) :
    ∃ h1 err, h.Guess g = some (h1, h1.currentState, err) ∧ Played word (done ++ [g]) h1
      ∧ (isLetter g = false → h1 = h ∧ err = some "invalid character")
      ∧ (isLetter g = true → h.attemptedLetters (lower g - 97) = true →
          h1 = h ∧ err = some "already attempted letter")
      ∧ (isLetter g = true → h.attemptedLetters (lower g - 97) = false → err = none)
      ∧ h1.turnCount = h.turnCount
          + (if isLetter g = true ∧ h.attemptedLetters (lower g - 97) = false
                ∧ word.contains (lower g) = false then 1 else 0)
      ∧ (∀ k, h.attemptedLetters k = true → h1.attemptedLetters k = true) := by
  obtain ⟨p1, p2, p3, p4⟩ := hp
  have hsame : ∀ (hcond : ∀ k, lower g = k + 97 → k < 26 → h.attemptedLetters k = true),
      Played word (done ++ [g]) h := by
    intro hcond
    refine ⟨p1, p2, ?_, p4⟩
    intro k
    rw [p3 k]
    constructor
    · rintro ⟨hk, g2, hg2, he⟩
      exact ⟨hk, g2, List.mem_append_left _ hg2, he⟩
    · rintro ⟨hk, g2, hg2, he⟩
      rcases List.mem_append.mp hg2 with hm | hm
      · exact ⟨hk, g2, hm, he⟩
      · simp at hm
        subst hm
        exact (p3 k).mp (hcond k he hk)
  cases hl : isLetter g
  · have hr := (isLetter_false_iff g).mp hl
    refine ⟨h, some "invalid character", ?_, ?_, fun _ => ⟨rfl, rfl⟩, (fun h0 => by cases h0),
      (fun h0 => by cases h0), by simp, fun _ hk => hk⟩
    · simp [hangman.Guess, hr]
    · apply hsame
      intro k he hk
      omega
  · have hr := (isLetter_iff g).mp hl
    have hnr : ¬ (lower g < 97 ∨ lower g > 122) := by omega
    cases ha : h.attemptedLetters (lower g - 97)
    · have hloop := loop_spec h.attemptedLetters (lower g) hr.1 ha word [] (by simpa using hw)
      simp only [List.nil_append, List.length_nil] at hloop
      have hcur : h.currentState = mask h.attemptedLetters h.chosenWord := by rw [p1]; exact p2
      have hcalc : ∃ h1, h.calculateNextState (lower g) = some h1
          ∧ h1.attemptedLetters = (fun k => if k = lower g - 97 then true
              else h.attemptedLetters k)
          ∧ h1.chosenWord = word
          ∧ h1.currentState = mask (fun k => if k = lower g - 97 then true
              else h.attemptedLetters k) word
          ∧ h1.turnCount = (if word.contains (lower g) then h.turnCount
              else (h.turnCount + 1) % 256) :=
        ⟨{ attemptedLetters := fun k => if k = lower g - 97 then true
              else h.attemptedLetters k,
           chosenWord := h.chosenWord,
           currentState := mask (fun k => if k = lower g - 97 then true
              else h.attemptedLetters k) word,
           turnCount := if word.contains (lower g) then h.turnCount
              else (h.turnCount + 1) % 256 },
          by simp only [hangman.calculateNextState, hcur, p1, hloop], rfl, p1, rfl, rfl⟩
      obtain ⟨h1, hc, e1, e2, e3, e4⟩ := hcalc
      have hle : h.turnCount ≤ 26 := by rw [p4]; exact wrongBelow_le _ _ _
      have hupd := wrongBelow_update h.attemptedLetters word (lower g - 97) ha 26
      have hidx : lower g - 97 + 97 = lower g := by omega
      rw [hidx] at hupd
      have hlt : lower g - 97 < 26 := by omega
      have htc : h1.turnCount = h.turnCount + (if word.contains (lower g) = false then 1 else 0) := by
        rw [e4]
        cases hcw : word.contains (lower g)
        · simp
          omega
        · simp
      refine ⟨h1, none, ?_, ⟨e2, by rw [e3, e1], ?_, ?_⟩, (fun h0 => by cases h0),
        (fun _ h0 => by cases h0), fun _ _ => rfl, ?_, ?_⟩
      · simp [hangman.Guess, hnr, ha, hc]
      · intro k
        rw [e1]
        by_cases hk : k = lower g - 97
        · subst hk
          simp only [if_true, true_iff]
          exact ⟨hlt, g, by simp, by omega⟩
        · simp only [hk, if_false]
          rw [p3 k]
          constructor
          · rintro ⟨hk2, g2, hg2, he⟩
            exact ⟨hk2, g2, List.mem_append_left _ hg2, he⟩
          · rintro ⟨hk2, g2, hg2, he⟩
            rcases List.mem_append.mp hg2 with hm | hm
            · exact ⟨hk2, g2, hm, he⟩
            · simp at hm
              subst hm
              omega
      · rw [htc, e1, hupd, ← p4]
        simp [hlt]
      · rw [htc]
        simp [ha]
      · intro k hk
        rw [e1]
        simp only
        split
        · rfl
        · exact hk
    · refine ⟨h, some "already attempted letter", ?_, ?_, (fun h0 => by cases h0),
        fun _ _ => ⟨rfl, rfl⟩, (fun _ h0 => by cases h0), by simp, fun _ hk => hk⟩
      · simp [hangman.Guess, hnr, ha]
      · apply hsame
        intro k he hk
        have : k = lower g - 97 := by omega
        rw [this]; exact ha

theorem guesses_append (h : hangman) (xs ys : List Nat) :
    h.guesses (xs ++ ys) = (h.guesses xs).bind (fun h1 => h1.guesses ys) := by
  induction xs generalizing h with
  | nil => rfl
  | cons x rest ih =>
    simp only [List.cons_append, hangman.guesses]
    cases h.Guess x with
    | none => rfl
    | some r => exact ih r.1

theorem guesses_Played (word : Str) (hw : Lowercase word) :
    ∀ (gs done : List Nat) (h : hangman), Played word done h →
      ∃ h1, h.guesses gs = some h1 ∧ Played word (done ++ gs) h1
        ∧ (∀ k, h.attemptedLetters k = true → h1.attemptedLetters k = true) := by
  intro gs
  induction gs with
  | nil => intro done h hp; exact ⟨h, rfl, by simpa using hp, fun _ hk => hk⟩
  | cons g rest ih =>
    intro done h hp
    obtain ⟨h1, err, hG, hp1, -, -, -, -, hmono⟩ := Guess_step word done h g hw hp
    obtain ⟨h2, hrest, hp2, hmono2⟩ := ih (done ++ [g]) h1 hp1
    refine ⟨h2, ?_, by simpa using hp2, fun k hk => hmono2 k (hmono k hk)⟩
    simp only [hangman.guesses, hG, hrest]

theorem loop_total (cur : Str) (g : Nat) :
    ∀ (rest : Str) (i : Nat), 2 * (i + rest.length) ≤ cur.length →
      ∃ r, calculateNextState.loop cur g rest i = some r := by
  intro rest
  induction rest with
  | nil => intro i _; exact ⟨_, rfl⟩
  | cons c more ih =>
    intro i hlen
    simp only [List.length_cons] at hlen
    obtain ⟨r, hr⟩ := ih (i + 1) (by omega)
    have hi : i * 2 < cur.length := by omega
    simp only [calculateNextState.loop, List.getElem?_eq_getElem hi, hr]
    split
    · exact ⟨_, rfl⟩
    · split
      · exact ⟨_, rfl⟩
      · exact ⟨_, rfl⟩

theorem lower_lower (g : Nat) : lower (lower g) = lower g := by
  unfold lower
  by_cases h : 65 ≤ g ∧ g ≤ 90
  · have h2 : ¬ (65 ≤ g + 32 ∧ g + 32 ≤ 90) := by omega
    rw [if_pos h, if_neg h2]
  · rw [if_neg h, if_neg h]

theorem Guess_lower (h : hangman) (g : Nat) : h.Guess g = h.Guess (lower g) := by
  simp only [hangman.Guess, lower_lower]

theorem Played_reveal (word : Str) (done : List Nat) (h : hangman) (hp : Played word done h)
    (i c : Nat) (hc : word[i]? = some c) :
    h.currentState[2 * i]? = some (if h.attemptedLetters (c - 97) then c else underscore)
    ∧ h.currentState[2 * i + 1]? = some space := by
  obtain ⟨-, p2, -, -⟩ := hp
  rw [p2]
  exact mask_getElem h.attemptedLetters word i c hc

/-- C17: for every word of lower-case ASCII letters and every sequence of `Guess`
calls on a new game, the state has length `2 * len(word)`; its byte `2i` is `word[i]`
if that letter has been guessed (its `attemptedLetters` entry is set, which is the
case exactly when a guess of the sequence was that letter) and `'_'` otherwise, and
its byte `2i + 1` is a space; `HasWon()` holds exactly when every letter of the word
has been guessed; and further guesses never mask a revealed position. -/
theorem c17_reveal_invariant (word : Str) (gs : List Nat) (hw : Lowercase word) :
    ∃ h, (newGame word).guesses gs = some h
      ∧ h.chosenWord = word
      ∧ h.currentState.length = 2 * word.length
      ∧ (∀ k, h.attemptedLetters k = true ↔ (k < 26 ∧ ∃ g ∈ gs, lower g = k + 97))
      ∧ (∀ (i c : Nat), word[i]? = some c →
          h.currentState[2 * i]? = some (if h.attemptedLetters (c - 97) then c else underscore)
          ∧ h.currentState[2 * i + 1]? = some space)
      ∧ (h.HasWon = true ↔ ∀ c ∈ word, h.attemptedLetters (c - 97) = true)
      ∧ (∀ more : List Nat, ∃ h2, h.guesses more = some h2
          ∧ ∀ (i c : Nat), word[i]? = some c → h.currentState[2 * i]? = some c →
              h2.currentState[2 * i]? = some c) := by
  obtain ⟨h, hg, hp, -⟩ := guesses_Played word hw gs [] (newGame word) (Played_new word)
  simp only [List.nil_append] at hp
  obtain ⟨p1, p2, p3, p4⟩ := id hp
  refine ⟨h, hg, p1, by rw [p2, mask_length], p3, Played_reveal word gs h hp, ?_, ?_⟩
  · have hm := mask_contains_underscore h.attemptedLetters word hw
    simp only [hangman.HasWon, p2, Bool.not_eq_true']
    constructor
    · intro hno c hc
      cases hatt : h.attemptedLetters (c - 97)
      · have : (mask h.attemptedLetters word).contains underscore = true :=
          hm.mpr ⟨c, hc, hatt⟩
        rw [hno] at this
        cases this
      · rfl
    · intro hall
      cases hcon : (mask h.attemptedLetters word).contains underscore
      · rfl
      · obtain ⟨c, hc, hf⟩ := hm.mp hcon
        rw [hall c hc] at hf
        cases hf
  · intro more
    obtain ⟨h2, hg2, hp2, hmono⟩ := guesses_Played word hw more gs h hp
    refine ⟨h2, hg2, ?_⟩
    intro i c hc hrev
    have hcl : 97 ≤ c ∧ c ≤ 122 := hw c (List.getElem?_mem hc)
    have h1 := (Played_reveal word gs h hp i c hc).1
    rw [h1] at hrev
    have hatt : h.attemptedLetters (c - 97) = true := by
      cases ha : h.attemptedLetters (c - 97)
      · rw [ha] at hrev
        simp [underscore] at hrev
        omega
      · rfl
    rw [(Played_reveal word (gs ++ more) h2 hp2 i c hc).1, hmono _ hatt]
    rfl

/-- C17 applied to the word "activated" and the guesses 'a', 'Z', 'a', '?', 't'. -/
theorem c17_reveal_invariant_witness :
    Lowercase [97, 99, 116, 105, 118, 97, 116, 101, 100]
    ∧ ∃ h, (newGame [97, 99, 116, 105, 118, 97, 116, 101, 100]).guesses [97, 90, 97, 63, 116]
          = some h
      ∧ h.chosenWord = [97, 99, 116, 105, 118, 97, 116, 101, 100]
      ∧ h.currentState.length = 2 * [97, 99, 116, 105, 118, 97, 116, 101, 100].length
      ∧ (∀ k, h.attemptedLetters k = true
          ↔ (k < 26 ∧ ∃ g ∈ [97, 90, 97, 63, 116], lower g = k + 97))
      ∧ (∀ (i c : Nat), [97, 99, 116, 105, 118, 97, 116, 101, 100][i]? = some c →
          h.currentState[2 * i]? = some (if h.attemptedLetters (c - 97) then c else underscore)
          ∧ h.currentState[2 * i + 1]? = some space)
      ∧ (h.HasWon = true
          ↔ ∀ c ∈ [97, 99, 116, 105, 118, 97, 116, 101, 100], h.attemptedLetters (c - 97) = true)
      ∧ (∀ more : List Nat, ∃ h2, h.guesses more = some h2
          ∧ ∀ (i c : Nat), [97, 99, 116, 105, 118, 97, 116, 101, 100][i]? = some c →
              h.currentState[2 * i]? = some c → h2.currentState[2 * i]? = some c) :=
  have hw : Lowercase [97, 99, 116, 105, 118, 97, 116, 101, 100] := by
    intro c hc
    simp at hc
    omega
  ⟨hw, c17_reveal_invariant [97, 99, 116, 105, 118, 97, 116, 101, 100] [97, 90, 97, 63, 116] hw⟩

/-- The game on "activated" after the guesses 'a', 'Z', 'a', '?', 't' shows
"a _ t _ _ a t _ _ " and has counted one wrong letter. -/
theorem guesses_eval :
    ((newGame [97, 99, 116, 105, 118, 97, 116, 101, 100]).guesses [97, 90, 97, 63, 116]).map
        (fun h => (h.currentState, h.turnCount, h.HasWon, h.IsOver))
      = some ([97, 32, 95, 32, 116, 32, 95, 32, 95, 32, 97, 32, 116, 32, 95, 32, 95, 32],
              1, false, false) := by
  decide

/-- C18: for every game state whose `currentState` has the length `2 * len(word)` and
every byte `g`, `Guess(g)` returns the error "invalid character" when `g` is not an
ASCII letter, the error "already attempted letter" when the entry of the lower-case
form of `g` in `attemptedLetters` is set, and no error otherwise; with an error it
returns the unchanged state and leaves the game as it was; an upper-case letter is
treated like its lower-case form. In a game played from a new game the entry of a
letter is set exactly when an earlier guess was that letter. -/
theorem c18_Guess_fails_atomically (h : hangman) (g : Nat)
    (hwf : h.currentState.length = 2 * h.chosenWord.length) :
    (isLetter g = false → h.Guess g = some (h, h.currentState, some "invalid character"))
    ∧ (isLetter g = true → h.attemptedLetters (lower g - 97) = true →
        h.Guess g = some (h, h.currentState, some "already attempted letter"))
    ∧ (isLetter g = true → h.attemptedLetters (lower g - 97) = false →
        ∃ h1, h.Guess g = some (h1, h1.currentState, none))
    ∧ (65 ≤ g ∧ g ≤ 90 → lower g = g + 32 ∧ h.Guess g = h.Guess (g + 32))
    ∧ (∀ (word : Str) (done : List Nat), Lowercase word →
        ∃ h0, (newGame word).guesses done = some h0
          ∧ h0.currentState.length = 2 * h0.chosenWord.length
          ∧ ∀ k, h0.attemptedLetters k = true ↔ (k < 26 ∧ ∃ g2 ∈ done, lower g2 = k + 97)) := by
  refine ⟨?_, ?_, ?_, ?_, ?_⟩
  · intro hl
    have hr := (isLetter_false_iff g).mp hl
    simp [hangman.Guess, hr]
  · intro hl ha
    have hr := (isLetter_iff g).mp hl
    have hnr : ¬ (lower g < 97 ∨ lower g > 122) := by omega
    simp [hangman.Guess, hnr, ha]
  · intro hl ha
    have hr := (isLetter_iff g).mp hl
    have hnr : ¬ (lower g < 97 ∨ lower g > 122) := by omega
    obtain ⟨r, hr2⟩ := loop_total h.currentState (lower g) h.chosenWord 0 (by omega)
    refine ⟨{ attemptedLetters := fun k => if k = lower g - 97 then true
                else h.attemptedLetters k,
              chosenWord := h.chosenWord, currentState := r.1,
              turnCount := if r.2 then h.turnCount else (h.turnCount + 1) % 256 }, ?_⟩
    simp [hangman.Guess, hnr, ha, hangman.calculateNextState, hr2]
  · intro hu
    have hlow : lower g = g + 32 := by
      unfold lower
      rw [if_pos hu]
    refine ⟨hlow, ?_⟩
    rw [Guess_lower h g, hlow]
  · intro word done hw
    obtain ⟨h0, hg, hp, -⟩ := guesses_Played word hw done [] (newGame word) (Played_new word)
    simp only [List.nil_append] at hp
    obtain ⟨p1, p2, p3, -⟩ := hp
    exact ⟨h0, hg, by rw [p2, p1, mask_length], p3⟩

/-- C18 applied to a new game on "activated" and the byte '?'. -/
theorem c18_Guess_fails_atomically_witness :
    (newGame [97, 99, 116, 105, 118, 97, 116, 101, 100]).currentState.length
      = 2 * (newGame [97, 99, 116, 105, 118, 97, 116, 101, 100]).chosenWord.length
    ∧ ((isLetter 63 = false →
          (newGame [97, 99, 116, 105, 118, 97, 116, 101, 100]).Guess 63
            = some (newGame [97, 99, 116, 105, 118, 97, 116, 101, 100],
                (newGame [97, 99, 116, 105, 118, 97, 116, 101, 100]).currentState,
                some "invalid character"))
      ∧ (isLetter 63 = true →
          (newGame [97, 99, 116, 105, 118, 97, 116, 101, 100]).attemptedLetters (lower 63 - 97)
            = true →
          (newGame [97, 99, 116, 105, 118, 97, 116, 101, 100]).Guess 63
            = some (newGame [97, 99, 116, 105, 118, 97, 116, 101, 100],
                (newGame [97, 99, 116, 105, 118, 97, 116, 101, 100]).currentState,
                some "already attempted letter"))
      ∧ (isLetter 63 = true →
          (newGame [97, 99, 116, 105, 118, 97, 116, 101, 100]).attemptedLetters (lower 63 - 97)
            = false →
          ∃ h1, (newGame [97, 99, 116, 105, 118, 97, 116, 101, 100]).Guess 63
            = some (h1, h1.currentState, none))
      ∧ (65 ≤ 63 ∧ 63 ≤ 90 → lower 63 = 63 + 32
          ∧ (newGame [97, 99, 116, 105, 118, 97, 116, 101, 100]).Guess 63
            = (newGame [97, 99, 116, 105, 118, 97, 116, 101, 100]).Guess (63 + 32))
      ∧ (∀ (word : Str) (done : List Nat), Lowercase word →
          ∃ h0, (newGame word).guesses done = some h0
            ∧ h0.currentState.length = 2 * h0.chosenWord.length
            ∧ ∀ k, h0.attemptedLetters k = true
                ↔ (k < 26 ∧ ∃ g2 ∈ done, lower g2 = k + 97))) :=
  ⟨by decide,
    c18_Guess_fails_atomically (newGame [97, 99, 116, 105, 118, 97, 116, 101, 100]) 63
      (by decide)⟩

/-- C19: for every word of lower-case ASCII letters and every sequence of `Guess`
calls on a new game, `turnCount` is the number of attempted letters that do not occur
in the word, so it is at most 26 and the `uint8` never wraps; one more `Guess` adds 1
to it exactly when the guess is accepted and its letter does not occur in the word;
`IsOver()` holds exactly when that number is at least 6 or `HasWon()` holds. -/
theorem c19_turn_count (word : Str) (gs : List Nat) (hw : Lowercase word) :
    ∃ h, (newGame word).guesses gs = some h
      ∧ (∀ k, h.attemptedLetters k = true ↔ (k < 26 ∧ ∃ g ∈ gs, lower g = k + 97))
      ∧ h.turnCount = wrongBelow h.attemptedLetters word 26
      ∧ h.turnCount ≤ 26
      ∧ (h.IsOver = true ↔ (6 ≤ wrongBelow h.attemptedLetters word 26 ∨ h.HasWon = true))
      ∧ (∀ g : Nat, ∃ h1 err, h.Guess g = some (h1, h1.currentState, err)
          ∧ h1.turnCount = h.turnCount
              + (if isLetter g = true ∧ h.attemptedLetters (lower g - 97) = false
                    ∧ word.contains (lower g) = false then 1 else 0)) := by
  obtain ⟨h, hg, hp, -⟩ := guesses_Played word hw gs [] (newGame word) (Played_new word)
  simp only [List.nil_append] at hp
  obtain ⟨p1, p2, p3, p4⟩ := id hp
  refine ⟨h, hg, p3, p4, by rw [p4]; exact wrongBelow_le _ _ _, ?_, ?_⟩
  · simp only [hangman.IsOver, Bool.or_eq_true, decide_eq_true_eq, ← p4]
    constructor
    · rintro (h1 | h1)
      · exact Or.inl (by omega)
      · exact Or.inr h1
    · rintro (h1 | h1)
      · exact Or.inl (by omega)
      · exact Or.inr h1
  · intro g
    obtain ⟨h1, err, hG, -, -, -, -, htc, -⟩ := Guess_step word gs h g hw hp
    exact ⟨h1, err, hG, htc⟩

/-- C19 applied to the word "activated" and the guesses 'x', 'y', 'a', 'x'. -/
theorem c19_turn_count_witness :
    Lowercase [97, 99, 116, 105, 118, 97, 116, 101, 100]
    ∧ ∃ h, (newGame [97, 99, 116, 105, 118, 97, 116, 101, 100]).guesses [120, 121, 97, 120]
          = some h
      ∧ (∀ k, h.attemptedLetters k = true
          ↔ (k < 26 ∧ ∃ g ∈ [120, 121, 97, 120], lower g = k + 97))
      ∧ h.turnCount = wrongBelow h.attemptedLetters [97, 99, 116, 105, 118, 97, 116, 101, 100] 26
      ∧ h.turnCount ≤ 26
      ∧ (h.IsOver = true
          ↔ (6 ≤ wrongBelow h.attemptedLetters [97, 99, 116, 105, 118, 97, 116, 101, 100] 26
              ∨ h.HasWon = true))
      ∧ (∀ g : Nat, ∃ h1 err, h.Guess g = some (h1, h1.currentState, err)
          ∧ h1.turnCount = h.turnCount
              + (if isLetter g = true ∧ h.attemptedLetters (lower g - 97) = false
                    ∧ List.contains [97, 99, 116, 105, 118, 97, 116, 101, 100] (lower g) = false
                  then 1 else 0)) :=
  have hw : Lowercase [97, 99, 116, 105, 118, 97, 116, 101, 100] := by
    intro c hc
    simp at hc
    omega
  ⟨hw, c19_turn_count [97, 99, 116, 105, 118, 97, 116, 101, 100] [120, 121, 97, 120] hw⟩

/-- The game on "activated" after the guesses 'x', 'y', 'a', 'x' has counted two
wrong letters. -/
theorem turnCount_eval :
    ((newGame [97, 99, 116, 105, 118, 97, 116, 101, 100]).guesses [120, 121, 97, 120]).map
        (fun h => (h.turnCount, h.IsOver)) = some (2, false) := by
  decide

/-- The words of the game are words of lower-case ASCII letters. -/
theorem theWords_Lowercase : ∀ w ∈ theWords, Lowercase w := by
  intro w hwm c hc
  simp [theWords] at hwm
  rcases hwm with rfl | rfl <;> simp at hc <;> omega

end Hangman

/-! The client registry. -/

namespace Multiplayer

/-- C20: evaluation at the failing input. Three clients are added (ids 0, 1, 2) and
the first is removed, which leaves the clients with the ids 1 and 2 at the indices 0
and 1. `RemoveClient` of the client with id 1 then removes the client at index 1,
the one with id 2; `RemoveClient` of the client with id 2 indexes outside the slice. -/
theorem c20_RemoveClient_stale_id :
    threeClients.connectedClients
      = [{ Conn := 10, id := 0 }, { Conn := 20, id := 1 }, { Conn := 30, id := 2 }]
    ∧ threeClients.RemoveClient { Conn := 10, id := 0 }
      = some { connectedClients := [{ Conn := 20, id := 1 }, { Conn := 30, id := 2 }] }
    ∧ ({ connectedClients := [{ Conn := 20, id := 1 }, { Conn := 30, id := 2 }] } : server).RemoveClient
        { Conn := 20, id := 1 }
      = some { connectedClients := [{ Conn := 20, id := 1 }] }
    ∧ ({ connectedClients := [{ Conn := 20, id := 1 }, { Conn := 30, id := 2 }] } : server).RemoveClient
        { Conn := 30, id := 2 }
      = none := by
  refine ⟨by decide, by decide, by decide, by decide⟩

end Multiplayer
